import Mathlib

/-!
# protoc-gen-mson: descriptor indexer and scope resolver

A shallow embedding of `cmd/protoc-gen-mson/main.go` and `template.go`.

* Go `string` values are sequences of code points (`Str`).
* A Go panic (index or slice out of range) is the result `none`.
* Pointers to descriptor objects carry an explicit address; two pointers are
  the same pointer exactly when dynamic type and address agree (`Ident`).
* `*Message` pointers are indices into the store of allocated `Message` objects.
-/

set_option autoImplicit false

/-- Go `string`, as its sequence of code points. -/
abbrev Str := List Char

/-! ## The parts of the Go standard library the program calls -/

namespace unicode

/-- The two rune classes `ispkgname` asks for (`unicode.IsLower`, `unicode.IsNumber`).
The Unicode tables are not part of the program; they are a parameter. -/
structure Tables where
  IsLower : Char → Bool
  IsNumber : Char → Bool

/-- The tables restricted to ASCII, where `IsLower` is `a..z` and `IsNumber` is `0..9`;
used to evaluate the program on ASCII texts. -/
def ascii : Tables := ⟨Char.isLower, Char.isDigit⟩

/-- Go `unicode.IsSpace`: the code points with the Unicode White_Space property. -/
def IsSpace (r : Char) : Bool :=
  let n := r.toNat
  (9 ≤ n && n ≤ 13) || n == 0x20 || n == 0x85 || n == 0xA0 || n == 0x1680 ||
  (0x2000 ≤ n && n ≤ 0x200a) || n == 0x2028 || n == 0x2029 || n == 0x202f ||
  n == 0x205f || n == 0x3000

end unicode

namespace strings

/-- Go `strings.Split(s, sep)` for a one-character separator: the pieces between
occurrences of `sep`; never empty (`Split("", sep)` is `[""]`). -/
def Split : Str → Char → List Str
  | [], _ => [[]]
  | c :: cs, sep =>
    if c = sep then [] :: Split cs sep
    else match Split cs sep with
      | [] => [[c]]
      | p :: ps => (c :: p) :: ps

/-- Go `strings.Join(a, sep)`. -/
def Join : List Str → Str → Str
  | [], _ => []
  | [a], _ => a
  | a :: b :: rest, sep => a ++ sep ++ Join (b :: rest) sep

/-- Go `strings.Replace(s, old, new, -1)` for a one-character `old`. -/
def Replace : Str → Char → Str → Str
  | [], _, _ => []
  | c :: cs, old, new => (if c = old then new else [c]) ++ Replace cs old new

/-- Go `strings.TrimRight(s, cutset)`. -/
def TrimRight (s : Str) (cutset : Str) : Str :=
  (s.reverse.dropWhile (fun c => cutset.contains c)).reverse

/-- Go `strings.TrimSpace(s)`. -/
def TrimSpace (s : Str) : Str :=
  ((s.dropWhile unicode.IsSpace).reverse.dropWhile unicode.IsSpace).reverse

/-- Go `strings.IndexFunc(s, f)`: the index of the first code point satisfying `f`,
or `-1`. Go counts bytes; the program only calls it with `f = (r != ' ')`, where
every code point before the hit is a one-byte space, so the two counts agree. -/
def IndexFunc : Str → (Char → Bool) → Int
  | [], _ => -1
  | c :: cs, f =>
    if f c then 0
    else match IndexFunc cs f with
      | Int.negSucc _ => -1
      | Int.ofNat n => Int.ofNat (n + 1)

end strings

/-! ## Scope -/

/-- Go `type Scope []string`. -/
abbrev Scope := List Str

/-- Go `ispkgname`: the range loop returns false at the first rune that is neither
lower case, nor a number, nor `_`. -/
def ispkgname (u : unicode.Tables) : Str → Bool
  | [] => true
  | r :: rs =>
    if !(u.IsLower r || u.IsNumber r || r == '_') then false
    else ispkgname u rs

/-- The range loop of `parseAbsoluteScope`: appends pieces to `pkg` until the first
piece that is not a package name (`break`). -/
def parseAbsoluteScope.loop (u : unicode.Tables) : List Str → List Str → List Str
  | [], pkg => pkg
  | r :: rest, pkg =>
    if !ispkgname u r then pkg
    else parseAbsoluteScope.loop u rest (pkg ++ [r])

/-- Go `parseAbsoluteScope`. -/
def parseAbsoluteScope (u : unicode.Tables) (s : Str) : Scope :=
  let spl := strings.Split s '.'
  let pkg := parseAbsoluteScope.loop u spl []
  let sc : Scope := []
  let sc := if pkg.length > 0 then sc ++ [strings.Join pkg ['.']] else sc
  sc ++ spl.drop pkg.length

/-- Go `ParseScope`: `(scope, absolute)`. -/
def ParseScope (u : unicode.Tables) (s : Str) : Scope × Bool :=
  match s with
  | [] => ([], false)
  | c :: cs =>
    if c = '.' then (parseAbsoluteScope u cs, true)
    else (strings.Split s '.', false)

/-- Go `Scope.String`. -/
def Scope.String (s : Scope) : Str := strings.Join s ['.']

/-- Go `Scope.With`: a fresh slice holding `s` followed by `next`. -/
def Scope.With (s : Scope) (next : List Str) : Scope := s ++ next

/-- The reference definition of scope parsing, following the specification's words:
empty text gives the empty relative Scope; text with a leading separator is absolute,
its longest prefix of package-like pieces is rejoined into one segment; any other
text is relative with one segment per piece. -/
def ParseScope_spec (u : unicode.Tables) (s : Str) : Scope × Bool :=
  let pkgLike : Str → Bool := fun p => p.all (fun r => u.IsLower r || u.IsNumber r || r == '_')
  match s with
  | [] => ([], false)
  | '.' :: r =>
    let pieces := strings.Split r '.'
    let k := (pieces.takeWhile pkgLike).length
    ((if k = 0 then [] else [strings.Join (pieces.take k) ['.']]) ++ pieces.drop k, true)
  | _ => (strings.Split s '.', false)

/-! ## Comment text normalization -/

/-- Go slice expression `line[lo:]` on a string: out of range is a panic (`none`).
The program only slices inside a run of leading one-byte spaces, where byte and
code-point offsets agree. -/
def sliceFrom (line : Str) (lo : Int) : Option Str :=
  if 0 ≤ lo ∧ lo ≤ line.length then some (line.drop lo.toNat) else none

/-- Go constant `defaultIndent = 2 << 31`. -/
def defaultIndent : Int := 2 * 2 ^ 31

/-- The counting loop of `normalizeIndent`: the value of `n` when
`for ; n < len(lines) && strings.TrimSpace(lines[n]) == ""; n++` stops, counted from
the head of the remaining lines. -/
def normalizeIndent.blankRun : List Str → Nat
  | [] => 0
  | l :: ls => if strings.TrimSpace l = [] then normalizeIndent.blankRun ls + 1 else 0

/-- The loop of `normalizeIndent` computing `minIndent`: empty lines are skipped, a
line with `first <= 0` sets 0 and breaks. -/
def normalizeIndent.minLoop : List Str → Int → Int
  | [], minIndent => minIndent
  | line :: rest, minIndent =>
    if line = [] then normalizeIndent.minLoop rest minIndent
    else
      let first := strings.IndexFunc line (fun r => r != ' ')
      if first ≤ 0 then 0
      else if first < minIndent then normalizeIndent.minLoop rest first
      else normalizeIndent.minLoop rest minIndent

/-- The final loop of `normalizeIndent`: `lines[i] = line[minIndent:]` on every
non-empty line. -/
def normalizeIndent.strip (minIndent : Int) : List Str → Option (List Str)
  | [] => some []
  | line :: rest =>
    if line = [] then (normalizeIndent.strip minIndent rest).map (fun r => line :: r)
    else match sliceFrom line minIndent with
      | none => none
      | some l => (normalizeIndent.strip minIndent rest).map (fun r => l :: r)

/-- Go `normalizeIndent`; `none` is a slice-bounds panic. -/
def normalizeIndent (s : Str) : Option Str :=
  let s := strings.Replace s '\t' "    ".toList
  let lines := strings.Split (strings.TrimRight s " \n".toList) '\n'
  let minIndent := defaultIndent
  let n := normalizeIndent.blankRun lines
  let lines := lines.drop n
  let minIndent := normalizeIndent.minLoop lines minIndent
  if minIndent = defaultIndent ∨ minIndent ≤ 0 then some (strings.Join lines ['\n'])
  else (normalizeIndent.strip minIndent lines).map (fun lines => strings.Join lines ['\n'])

/-- Lines as `normalizeIndent` leaves them: free of newline and tab, not starting with
a blank line, and ending in a character that `TrimRight` keeps. -/
def NormalLines (L : List Str) : Prop :=
  (∀ l ∈ L, '\n' ∉ l ∧ '\t' ∉ l) ∧ normalizeIndent.blankRun L = 0 ∧
  (∀ l, L.getLast? = some l → ∃ c, l.getLast? = some c ∧ c ≠ ' ' ∧ c ≠ '\n')

/-! ## Descriptor tree -/

/-- The Go dynamic types of the `proto.Message` values the program handles. -/
inductive Kind where
  | CodeGeneratorRequest | FileDescriptorProto | DescriptorProto | FieldDescriptorProto
  | EnumDescriptorProto | EnumValueDescriptorProto | ServiceDescriptorProto
  | MethodDescriptorProto | OneofDescriptorProto | ExtensionRange
  | FileOptions | MessageOptions | FieldOptions | EnumOptions | EnumValueOptions
  | ServiceOptions | MethodOptions | SourceCodeInfo
deriving DecidableEq, Repr

/-- Identity of a pointer held in a `proto.Message` interface value: its dynamic type
and its address (`none` is the nil pointer of that type). -/
structure Ident where
  kind : Kind
  addr : Option Nat
deriving DecidableEq, Repr

/-- Modelled from the spec: package `cmd/internal/descriptor` is not under src/.
`EnumValueDescriptorProto` with the fields the program reads; `addr` is the address of
the object, `Options` the pointer returned by `GetOptions()`. -/
structure EnumValueDescriptorProto where
  addr : Nat
  Name : Str
  Options : Option Nat

/-- Modelled from the spec: `EnumDescriptorProto` of `cmd/internal/descriptor`. -/
structure EnumDescriptorProto where
  addr : Nat
  Name : Str
  Value : List EnumValueDescriptorProto
  Options : Option Nat

/-- Modelled from the spec: `FieldDescriptorProto` of `cmd/internal/descriptor`. -/
structure FieldDescriptorProto where
  addr : Nat
  Name : Str
  TypeName : Str
  Options : Option Nat

/-- Modelled from the spec: `OneofDescriptorProto` of `cmd/internal/descriptor`. -/
structure OneofDescriptorProto where
  addr : Nat
  Name : Str

/-- Modelled from the spec: `DescriptorProto_ExtensionRange` of `cmd/internal/descriptor`. -/
structure DescriptorProto_ExtensionRange where
  addr : Nat

/-- Modelled from the spec: `MethodDescriptorProto` of `cmd/internal/descriptor`. -/
structure MethodDescriptorProto where
  addr : Nat
  Name : Str
  Options : Option Nat

/-- Modelled from the spec: `ServiceDescriptorProto` of `cmd/internal/descriptor`. -/
structure ServiceDescriptorProto where
  addr : Nat
  Name : Str
  Method : List MethodDescriptorProto
  Options : Option Nat

/-- Modelled from the spec: `DescriptorProto` (a message type) of
`cmd/internal/descriptor`. -/
inductive DescriptorProto where
  | mk (addr : Nat) (Name : Str) (Field : List FieldDescriptorProto)
      (Extension : List FieldDescriptorProto) (NestedType : List DescriptorProto)
      (EnumType : List EnumDescriptorProto)
      (ExtensionRange : List DescriptorProto_ExtensionRange)
      (OneofDecl : List OneofDescriptorProto) (Options : Option Nat)

namespace DescriptorProto

/-- Address of the object. -/
def addr : DescriptorProto → Nat
  | mk a _ _ _ _ _ _ _ _ => a

/-- Go `GetName`. -/
def GetName : DescriptorProto → Str
  | mk _ n _ _ _ _ _ _ _ => n

/-- Go `GetField`. -/
def GetField : DescriptorProto → List FieldDescriptorProto
  | mk _ _ f _ _ _ _ _ _ => f

/-- Go `GetExtension`. -/
def GetExtension : DescriptorProto → List FieldDescriptorProto
  | mk _ _ _ e _ _ _ _ _ => e

/-- Go `GetNestedType`. -/
def GetNestedType : DescriptorProto → List DescriptorProto
  | mk _ _ _ _ n _ _ _ _ => n

/-- Go `GetEnumType`. -/
def GetEnumType : DescriptorProto → List EnumDescriptorProto
  | mk _ _ _ _ _ e _ _ _ => e

/-- Go `GetExtensionRange`. -/
def GetExtensionRange : DescriptorProto → List DescriptorProto_ExtensionRange
  | mk _ _ _ _ _ _ r _ _ => r

/-- Go `GetOneofDecl`. -/
def GetOneofDecl : DescriptorProto → List OneofDescriptorProto
  | mk _ _ _ _ _ _ _ o _ => o

/-- Go `GetOptions`. -/
def GetOptions : DescriptorProto → Option Nat
  | mk _ _ _ _ _ _ _ _ o => o

end DescriptorProto

/-- Modelled from the spec: `SourceCodeInfo_Location` of `cmd/internal/descriptor`;
the string fields hold what the getters return (empty when unset). -/
structure SourceCodeInfo_Location where
  Path : List Int
  LeadingComments : Str
  TrailingComments : Str
  LeadingDetachedComments : List Str

/-- Modelled from the spec: `SourceCodeInfo` of `cmd/internal/descriptor`. -/
structure SourceCodeInfo where
  addr : Nat
  Location : List SourceCodeInfo_Location

/-- Modelled from the spec: `FileDescriptorProto` of `cmd/internal/descriptor`. -/
structure FileDescriptorProto where
  addr : Nat
  Name : Str
  Package : Str
  MessageType : List DescriptorProto
  EnumType : List EnumDescriptorProto
  Service : List ServiceDescriptorProto
  Extension : List FieldDescriptorProto
  Options : Option Nat
  SourceCodeInfo : Option SourceCodeInfo

/-- Modelled from the spec: `CodeGeneratorRequest` of `cmd/internal/plugin`. -/
structure CodeGeneratorRequest where
  addr : Nat
  FileToGenerate : List Str
  ProtoFile : List FileDescriptorProto

/-- Go interface `proto.Message`, as the program meets it: a non-nil interface value
holding a pointer of one of the dynamic types. The nil interface is `none` of
`Option proto.Message`. -/
inductive proto.Message where
  | request (r : CodeGeneratorRequest)
  | file (d : FileDescriptorProto)
  | message (d : DescriptorProto)
  | field (d : FieldDescriptorProto)
  | enum (d : EnumDescriptorProto)
  | enumValue (d : EnumValueDescriptorProto)
  | service (d : ServiceDescriptorProto)
  | method (d : MethodDescriptorProto)
  | oneof (d : OneofDescriptorProto)
  | extensionRange (d : DescriptorProto_ExtensionRange)
  | options (k : Kind) (p : Option Nat)
  | sourceCodeInfo (p : Option SourceCodeInfo)

namespace proto.Message

/-- The pointer identity of the value. -/
def ident : proto.Message → Ident
  | request r => ⟨.CodeGeneratorRequest, some r.addr⟩
  | file d => ⟨.FileDescriptorProto, some d.addr⟩
  | message d => ⟨.DescriptorProto, some d.addr⟩
  | field d => ⟨.FieldDescriptorProto, some d.addr⟩
  | enum d => ⟨.EnumDescriptorProto, some d.addr⟩
  | enumValue d => ⟨.EnumValueDescriptorProto, some d.addr⟩
  | service d => ⟨.ServiceDescriptorProto, some d.addr⟩
  | method d => ⟨.MethodDescriptorProto, some d.addr⟩
  | oneof d => ⟨.OneofDescriptorProto, some d.addr⟩
  | extensionRange d => ⟨.ExtensionRange, some d.addr⟩
  | options k p => ⟨k, p⟩
  | sourceCodeInfo p => ⟨.SourceCodeInfo, p.map (fun s => s.addr)⟩

/-- Go `GetName()` of the types that have the method with result `string`. -/
def GetName : proto.Message → Str
  | file d => d.Name
  | message d => d.GetName
  | field d => d.Name
  | enum d => d.Name
  | enumValue d => d.Name
  | service d => d.Name
  | method d => d.Name
  | oneof d => d.Name
  | _ => []

/-- Go type assertion `msg.(Descriptor)`: the dynamic type has `GetName() string`. -/
def IsDescriptor : proto.Message → Bool
  | file _ | message _ | field _ | enum _ | enumValue _ | service _ | method _ | oneof _ => true
  | _ => false

/-- Text of `fmt.Sprintf("%T", p)` for the types that reach the default case. -/
def typeName : proto.Message → Str
  | request _ => "*plugin.CodeGeneratorRequest".toList
  | extensionRange _ => "*descriptor.DescriptorProto_ExtensionRange".toList
  | sourceCodeInfo _ => "*descriptor.SourceCodeInfo".toList
  | _ => []

end proto.Message

/-! ## Scope resolution -/

/-- The loop `for _, m := range list { if msg := s.Resolve(m); msg != nil { return msg } }`
of `Scope.Resolve`, `f` being `s.Resolve` on the elements; `none` when it falls through. -/
def firstResolved {α : Type} (f : α → Option proto.Message) : List α → Option proto.Message
  | [] => none
  | m :: rest =>
    match f m with
    | some msg => some msg
    | none => firstResolved f rest

/-- Go `Scope.Resolve` on a `*FieldDescriptorProto` root. -/
def Scope.ResolveField (s : Scope) (root : FieldDescriptorProto) : Option proto.Message :=
  match s with
  | [] => some (.field root)
  | s0 :: s =>
    if root.Name ≠ s0 then none
    else if s.length = 0 then some (.field root)
    else none

/-- Go `Scope.Resolve` on a `*EnumValueDescriptorProto` root. -/
def Scope.ResolveEnumValue (s : Scope) (root : EnumValueDescriptorProto) :
    Option proto.Message :=
  match s with
  | [] => some (.enumValue root)
  | s0 :: s =>
    if root.Name ≠ s0 then none
    else if s.length = 0 then some (.enumValue root)
    else none

/-- Go `Scope.Resolve` on a `*MethodDescriptorProto` root. -/
def Scope.ResolveMethod (s : Scope) (root : MethodDescriptorProto) : Option proto.Message :=
  match s with
  | [] => some (.method root)
  | s0 :: s =>
    if root.Name ≠ s0 then none
    else if s.length = 0 then some (.method root)
    else none

/-- Go `Scope.Resolve` on a `*EnumDescriptorProto` root. -/
def Scope.ResolveEnum (s : Scope) (root : EnumDescriptorProto) : Option proto.Message :=
  match s with
  | [] => some (.enum root)
  | s0 :: s =>
    if root.Name ≠ s0 then none
    else if s.length = 0 then some (.enum root)
    else firstResolved (Scope.ResolveEnumValue s) root.Value

/-- Go `Scope.Resolve` on a `*ServiceDescriptorProto` root. -/
def Scope.ResolveService (s : Scope) (root : ServiceDescriptorProto) : Option proto.Message :=
  match s with
  | [] => some (.service root)
  | s0 :: s =>
    if root.Name ≠ s0 then none
    else if s.length = 0 then some (.service root)
    else firstResolved (Scope.ResolveMethod s) root.Method

mutual
/-- Go `Scope.Resolve` on a `*DescriptorProto` root: name, then fields, nested types,
enums, extensions. -/
def Scope.ResolveMessage (s : Scope) : DescriptorProto → Option proto.Message
  | .mk addr name fields exts nested enums er oo opts =>
    match s with
    | [] => some (.message (.mk addr name fields exts nested enums er oo opts))
    | s0 :: s =>
      if name ≠ s0 then none
      else if s.length = 0 then some (.message (.mk addr name fields exts nested enums er oo opts))
      else
        match firstResolved (Scope.ResolveField s) fields with
        | some msg => some msg
        | none =>
          match Scope.ResolveMessages s nested with
          | some msg => some msg
          | none =>
            match firstResolved (Scope.ResolveEnum s) enums with
            | some msg => some msg
            | none => firstResolved (Scope.ResolveField s) exts
/-- The loop over `root.GetNestedType()` (and over `root.GetMessageType()` of a file). -/
def Scope.ResolveMessages (s : Scope) : List DescriptorProto → Option proto.Message
  | [] => none
  | m :: rest =>
    match Scope.ResolveMessage s m with
    | some msg => some msg
    | none => Scope.ResolveMessages s rest
end

/-- The part of the `*FileDescriptorProto` case of `Scope.Resolve` after the package
segment has been consumed. -/
def Scope.ResolveFile.body (s : Scope) (root : FileDescriptorProto) : Option proto.Message :=
  if s.length = 0 then some (.file root)
  else
    match Scope.ResolveMessages s root.MessageType with
    | some msg => some msg
    | none =>
      match firstResolved (Scope.ResolveEnum s) root.EnumType with
      | some msg => some msg
      | none =>
        match firstResolved (Scope.ResolveService s) root.Service with
        | some msg => some msg
        | none => firstResolved (Scope.ResolveField s) root.Extension

/-- Go `Scope.Resolve` on a `*FileDescriptorProto` root. -/
def Scope.ResolveFile (s : Scope) (root : FileDescriptorProto) : Option proto.Message :=
  match s with
  | [] => some (.file root)
  | s0 :: s1 =>
    if root.Package ≠ [] then
      if root.Package ≠ s0 then none
      else Scope.ResolveFile.body s1 root
    else Scope.ResolveFile.body (s0 :: s1) root

/-- Go `Scope.Resolve`; `none` is the nil result. -/
def Scope.Resolve (s : Scope) : proto.Message → Option proto.Message
  | .request r =>
    match firstResolved (Scope.ResolveFile s) r.ProtoFile with
    | some msg => some msg
    | none => if s.length = 0 then some (.request r) else none
  | .file d => Scope.ResolveFile s d
  | .message d => Scope.ResolveMessage s d
  | .enum d => Scope.ResolveEnum s d
  | .enumValue d => Scope.ResolveEnumValue s d
  | .service d => Scope.ResolveService s d
  | .method d => Scope.ResolveMethod s d
  | .field d => Scope.ResolveField s d
  | root => if s.length = 0 then some root else none

/-! ## Path walker -/

/-- Go index expression `list[idx]` with an `int32` index; out of range is a panic. -/
def index {α : Type} (list : List α) (idx : Int) : Option α :=
  if 0 ≤ idx then list[idx.toNat]? else none

/-- What one pass through the second type switch of `GetByLocation` does. -/
inductive GetByLocation.Step where
  /-- `return sc, p, loc` -/
  | Return
  /-- `p = d.GetOptions(); loc = loc[1:]; continue` -/
  | Continue (p : proto.Message)
  /-- `p = list[idx]` (or no assignment), then `loc = loc[2:]` after the switch -/
  | Next (p : proto.Message)

/-- The first type switch of `GetByLocation`: the segment the current node adds. -/
def GetByLocation.segment (sc : Scope) (p : proto.Message) : Scope :=
  match p with
  | .file d => if d.Package ≠ [] then sc.With [d.Package] else sc
  | .message _ | .field _ | .enum _ | .enumValue _ | .service _ | .method _ | .oneof _ =>
    sc.With [p.GetName]
  | .options _ _ => sc.With ["<UninterpretedOptions>".toList]
  | _ => sc.With ["<unknown:".toList ++ p.typeName ++ ">".toList]

/-- The second type switch of `GetByLocation` on `id = loc[0]`, `idx = loc[1]` (or -1);
`none` is an index-out-of-range panic. -/
def GetByLocation.step (p : proto.Message) (id idx : Int) : Option GetByLocation.Step :=
  match p with
  | .file d =>
    if id = 4 then (index d.MessageType idx).map (fun c => .Next (.message c))
    else if id = 5 then (index d.EnumType idx).map (fun c => .Next (.enum c))
    else if id = 6 then (index d.Service idx).map (fun c => .Next (.service c))
    else if id = 7 then (index d.Extension idx).map (fun c => .Next (.field c))
    else if id = 8 then some (.Continue (.options .FileOptions d.Options))
    else if id = 9 then some (.Continue (.sourceCodeInfo d.SourceCodeInfo))
    else some .Return
  | .enum d =>
    if id = 2 then (index d.Value idx).map (fun c => .Next (.enumValue c))
    else if id = 3 then some (.Continue (.options .EnumOptions d.Options))
    else some .Return
  | .enumValue d =>
    if id = 3 then some (.Continue (.options .EnumValueOptions d.Options))
    else some .Return
  | .method d =>
    if id = 4 then some (.Continue (.options .MethodOptions d.Options))
    else some .Return
  | .message d =>
    if id = 2 then (index d.GetField idx).map (fun c => .Next (.field c))
    else if id = 6 then (index d.GetExtension idx).map (fun c => .Next (.field c))
    else if id = 3 then (index d.GetNestedType idx).map (fun c => .Next (.message c))
    else if id = 4 then (index d.GetEnumType idx).map (fun c => .Next (.enum c))
    else if id = 5 then (index d.GetExtensionRange idx).map (fun c => .Next (.extensionRange c))
    else if id = 8 then (index d.GetOneofDecl idx).map (fun c => .Next (.oneof c))
    else if id = 7 then some (.Continue (.options .MessageOptions d.GetOptions))
    else some .Return
  | .service d =>
    if id = 2 then (index d.Method idx).map (fun c => .Next (.method c))
    else if id = 3 then some (.Continue (.options .ServiceOptions d.Options))
    else some .Return
  | .field d =>
    if id = 8 then some (.Continue (.options .FieldOptions d.Options))
    else some .Return
  | .options k o =>
    if id = 999 then some (.Next (.options k o))
    else some .Return
  | _ => some .Return

/-- The `for p != nil` loop of `GetByLocation` (every `p` is a typed pointer, so the
condition holds at each pass); `none` is a panic. -/
def GetByLocation.loop : List Int → proto.Message → Scope →
    Option (Scope × proto.Message × List Int)
  | [], p, sc => some (GetByLocation.segment sc p, p, [])
  | [id], p, sc =>
    match GetByLocation.step p id (-1) with
    | none => none
    | some .Return => some (GetByLocation.segment sc p, p, [id])
    | some (.Continue q) => GetByLocation.loop [] q (GetByLocation.segment sc p)
    | some (.Next _) => none
  | id :: idx :: rest, p, sc =>
    match GetByLocation.step p id idx with
    | none => none
    | some .Return => some (GetByLocation.segment sc p, p, id :: idx :: rest)
    | some (.Continue q) => GetByLocation.loop (idx :: rest) q (GetByLocation.segment sc p)
    | some (.Next q) => GetByLocation.loop rest q (GetByLocation.segment sc p)

/-- Go `GetByLocation`: `(sc, p, loc)`, or `none` for a panic. -/
def GetByLocation (fi : FileDescriptorProto) (loc : List Int) :
    Option (Scope × proto.Message × List Int) :=
  GetByLocation.loop loc (.file fi) []

/-! ## Symbol table -/

/-- Go map, as its lookup function (`none`: no entry under the key). -/
abbrev GoMap (K V : Type) := K → Option V

/-- Go `m[k] = v`. -/
def GoMap.set {K V : Type} [DecidableEq K] (m : GoMap K V) (k : K) (v : V) : GoMap K V :=
  fun x => if x = k then some v else m x

/-- Go `delete(m, k)`. -/
def GoMap.delete {K V : Type} [DecidableEq K] (m : GoMap K V) (k : K) : GoMap K V :=
  fun x => if x = k then none else m x

/-- Go `type Message struct` (a Symbol). `Parent` is a `*Message`: an index into the
store of allocated objects, `none` for nil. -/
structure Message where
  Scope : Scope
  Proto : proto.Message
  Parent : Option Nat
  ToGenerate : Bool
  LeadingDetachedComments : List Str
  LeadingComments : List Str
  TrailingComments : List Str

/-- Go `type Messages struct`, together with the store `objs` of the `Message` objects
allocated so far (a `*Message` is an index into it). `ByMessage` is keyed by interface
values: `none` is the nil interface. -/
structure Messages where
  objs : List Message
  ByScope : GoMap Str Nat
  ByMessage : GoMap (Option Ident) Nat

/-- Go `Messages.put`, `m` being a `*Message`. The program only puts a pointer it has
just allocated; a pointer outside the store leaves the table as it is. -/
def Messages.put (ms : Messages) (m : Nat) : Messages :=
  match ms.objs[m]? with
  | none => ms
  | some o =>
    { ms with
      ByScope := ms.ByScope.set (Scope.String o.Scope) m
      ByMessage := ms.ByMessage.set (some o.Proto.ident) m }

/-- The statement pair `self := &Message{...}; ms.put(self)`: allocates the object and
puts it; returns the new state and `self`. -/
def Messages.putNew (ms : Messages) (m : Message) : Messages × Nat :=
  (Messages.put { ms with objs := ms.objs ++ [m] } ms.objs.length, ms.objs.length)

/-- Go `Messages.walkDescriptor`. -/
def Messages.walkDescriptor (ms : Messages) (toGenerate : Bool) (parent : Option Nat)
    (scope : Scope) (d : proto.Message) : Messages :=
  let scope := scope.With [d.GetName]
  (ms.putNew { Scope := scope, Proto := d, Parent := parent, ToGenerate := toGenerate,
               LeadingDetachedComments := [], LeadingComments := [],
               TrailingComments := [] }).1

/-- Go `Messages.walkEnum`. -/
def Messages.walkEnum (ms : Messages) (toGenerate : Bool) (parent : Option Nat)
    (scope : Scope) (d : EnumDescriptorProto) : Messages :=
  let scope := scope.With [d.Name]
  let r := ms.putNew { Scope := scope, Proto := .enum d, Parent := parent,
                       ToGenerate := toGenerate, LeadingDetachedComments := [],
                       LeadingComments := [], TrailingComments := [] }
  d.Value.foldl (fun ms nd => ms.walkDescriptor toGenerate (some r.2) scope (.enumValue nd)) r.1

mutual
/-- Go `Messages.walkMessage`. -/
def Messages.walkMessage (ms : Messages) (toGenerate : Bool) (parent : Option Nat)
    (scope : Scope) : DescriptorProto → Messages
  | .mk addr name fields exts nested enums er oo opts =>
    let scope := scope.With [name]
    let r := ms.putNew { Scope := scope,
                         Proto := .message (.mk addr name fields exts nested enums er oo opts),
                         Parent := parent, ToGenerate := toGenerate,
                         LeadingDetachedComments := [], LeadingComments := [],
                         TrailingComments := [] }
    let ms := Messages.walkMessages r.1 toGenerate (some r.2) scope nested
    let ms := enums.foldl (fun ms nd => ms.walkEnum toGenerate (some r.2) scope nd) ms
    fields.foldl (fun ms nd => ms.walkDescriptor toGenerate (some r.2) scope (.field nd)) ms
/-- The loop `for _, nd := range list { ms.walkMessage(toGenerate, self, scope, nd) }`. -/
def Messages.walkMessages (ms : Messages) (toGenerate : Bool) (parent : Option Nat)
    (scope : Scope) : List DescriptorProto → Messages
  | [] => ms
  | nd :: rest =>
    Messages.walkMessages (Messages.walkMessage ms toGenerate parent scope nd)
      toGenerate parent scope rest
end

/-- Go `Messages.walkFile`. -/
def Messages.walkFile (ms : Messages) (toGenerate : Bool) (fi : FileDescriptorProto) :
    Messages :=
  let scope : Scope := if fi.Package ≠ [] then [fi.Package] else []
  let r : Messages × Option Nat :=
    if fi.Package ≠ [] then
      let r := ms.putNew { Scope := scope, Proto := .file fi, Parent := none,
                           ToGenerate := toGenerate, LeadingDetachedComments := [],
                           LeadingComments := [], TrailingComments := [] }
      (r.1, some r.2)
    else (ms, none)
  let ms := Messages.walkMessages r.1 toGenerate r.2 scope fi.MessageType
  fi.EnumType.foldl (fun ms nd => ms.walkEnum toGenerate r.2 scope nd) ms

/-- Go `Messages.walk`. -/
def Messages.walk (ms : Messages) (toGenerate : Bool) (root : CodeGeneratorRequest) :
    Messages :=
  root.ProtoFile.foldl
    (fun ms fi => ms.walkFile (toGenerate && root.FileToGenerate.contains fi.Name) fi) ms

/-- Go `GetMessages`. -/
def GetMessages (toGenerate : Bool) (root : proto.Message) : Messages :=
  let msgs : Messages := { objs := [], ByScope := fun _ => none, ByMessage := fun _ => none }
  match root with
  | .request p => msgs.walk toGenerate p
  | .file p => msgs.walkFile toGenerate p
  | .message p => msgs.walkMessage toGenerate none [] p
  | .enum p => msgs.walkEnum toGenerate none [] p
  | .field _ | .enumValue _ | .service _ | .method _ | .oneof _ =>
    msgs.walkDescriptor toGenerate none [] root
  | _ => msgs

/-! ## Reference resolver -/

/-- Go `type Context struct`. -/
structure Context where
  Request : CodeGeneratorRequest
  Messages : Messages

/-- The loop `for from != nil` of `Context.Find` over the parent chain, at most `fuel`
passes. The outer `none` means the loop did not return within `fuel` passes (or
dereferenced a pointer outside the store); the inner value is the returned `*Message`. -/
def Context.Find.loop (c : Context) (sc : Scope) : Nat → Option Nat → Option (Option Nat)
  | _, none => some none
  | 0, some _ => none
  | fuel + 1, some frm =>
    match c.Messages.objs[frm]? with
    | none => none
    | some o =>
      match Scope.Resolve sc o.Proto with
      | some m => some (c.Messages.ByMessage (some m.ident))
      | none => Context.Find.loop c sc fuel o.Parent

/-- Go `Context.Find`, the relative search bounded by `fuel` passes. -/
def Context.Find (u : unicode.Tables) (c : Context) (fuel : Nat) (frm : Option Nat)
    (scope : Str) : Option (Option Nat) :=
  if scope = [] then some none
  else
    let r := ParseScope u scope
    if r.2 then
      let m := Scope.Resolve r.1 (.request c.Request)
      some (c.Messages.ByMessage (m.map (fun x => x.ident)))
    else Context.Find.loop c r.1 fuel frm

/-! ## Comment attachment and pruning -/

/-- The loop `for i := n; i < len(l); i++ { l[i] = normalizeIndent(l[i]) }` of
`addComments`: entries from index `n` on are normalized in place. -/
def Message.addComments.normalizeFrom : Nat → List Str → Option (List Str)
  | _, [] => some []
  | 0, x :: xs =>
    match normalizeIndent x with
    | none => none
    | some y => (Message.addComments.normalizeFrom 0 xs).map (fun ys => y :: ys)
  | n + 1, x :: xs => (Message.addComments.normalizeFrom n xs).map (fun ys => x :: ys)

/-- Go `Message.addComments` on the object itself; `none` is a panic. -/
def Message.addComments (m : Message) (loc : SourceCodeInfo_Location) : Option Message :=
  let m1 : Option Message :=
    if loc.LeadingComments ≠ [] then
      (normalizeIndent loc.LeadingComments).map
        (fun c => { m with LeadingComments := m.LeadingComments ++ [c] })
    else some m
  let m2 : Option Message := m1.bind fun m =>
    if loc.TrailingComments ≠ [] then
      (normalizeIndent loc.TrailingComments).map
        (fun c => { m with TrailingComments := m.TrailingComments ++ [c] })
    else some m
  m2.bind fun m =>
    if loc.LeadingDetachedComments.length ≠ 0 then
      let n := m.LeadingDetachedComments.length
      (Message.addComments.normalizeFrom n
        (m.LeadingDetachedComments ++ loc.LeadingDetachedComments)).map
        (fun l => { m with LeadingDetachedComments := l })
    else some m

/-- `m.addComments(loc)` through the pointer `m`. -/
def Messages.addComments (ms : Messages) (m : Nat) (loc : SourceCodeInfo_Location) :
    Option Messages :=
  match ms.objs[m]? with
  | none => none
  | some o => (o.addComments loc).map (fun o => { ms with objs := ms.objs.set m o })

/-- The loop `for _, c := range m.TrailingComments` of `main`: every entry that trims
to `private` deletes the Symbol from both maps. -/
def main.prune (sc : Scope) (proto : proto.Message) : List Str → Messages → Messages
  | [], messages => messages
  | c :: rest, messages =>
    if strings.TrimSpace c = "private".toList then
      main.prune sc proto rest
        { messages with
          ByScope := messages.ByScope.delete (Scope.String sc)
          ByMessage := messages.ByMessage.delete (some proto.ident) }
    else main.prune sc proto rest messages

/-- One pass of the loop of `main` over the location records of `fi`. -/
def main.attach (fi : FileDescriptorProto) (messages : Messages)
    (loc : SourceCodeInfo_Location) : Option Messages :=
  match GetByLocation fi loc.Path with
  | none => none
  | some (sc, msg, trailing) =>
    if !msg.IsDescriptor || trailing.length > 0 then some messages
    else if loc.TrailingComments.length + loc.LeadingComments.length
        + loc.LeadingDetachedComments.length = 0 then some messages
    else
      match messages.ByScope (Scope.String sc) with
      | none => some messages
      | some m =>
        match messages.addComments m loc with
        | none => none
        | some messages =>
          match messages.objs[m]? with
          | none => none
          | some o => some (main.prune sc o.Proto o.TrailingComments messages)

/-- The loop of `main` over `fi.GetSourceCodeInfo().GetLocation()`; `none` when a pass
panics. -/
def main.attachAll (fi : FileDescriptorProto) : Messages → List SourceCodeInfo_Location →
    Option Messages
  | messages, [] => some messages
  | messages, loc :: rest =>
    match main.attach fi messages loc with
    | none => none
    | some messages => main.attachAll fi messages rest

/-! ## The table in closed form

The Symbols `GetMessages` creates, listed in creation order; `base` is the number of
objects allocated before, so that the pointer to the first listed Symbol is `base`. -/

/-- The object `&Message{Scope: scope, Proto: d, Parent: parent, ToGenerate: toGenerate}`. -/
def newSymbol (toGenerate : Bool) (parent : Option Nat) (scope : Scope) (d : proto.Message) :
    Message :=
  { Scope := scope, Proto := d, Parent := parent, ToGenerate := toGenerate,
    LeadingDetachedComments := [], LeadingComments := [], TrailingComments := [] }

/-- Symbols created by `walkEnum`: the enum, then its values. -/
def symbolsEnum (tg : Bool) (parent : Option Nat) (scope : Scope) (base : Nat)
    (d : EnumDescriptorProto) : List Message :=
  newSymbol tg parent (scope ++ [d.Name]) (.enum d) ::
    d.Value.map (fun v => newSymbol tg (some base) (scope ++ [d.Name] ++ [v.Name]) (.enumValue v))

/-- Symbols created by a loop of `walkEnum` over a list of enums. -/
def symbolsEnums (tg : Bool) (parent : Option Nat) (scope : Scope) :
    Nat → List EnumDescriptorProto → List Message
  | _, [] => []
  | base, d :: rest =>
    symbolsEnum tg parent scope base d ++
      symbolsEnums tg parent scope (base + (symbolsEnum tg parent scope base d).length) rest

mutual
/-- Symbols created by `walkMessage`: the message, its nested messages, its enums, its
fields. -/
def symbolsMessage (tg : Bool) (parent : Option Nat) (scope : Scope) (base : Nat) :
    DescriptorProto → List Message
  | .mk addr name fields exts nested enums er oo opts =>
    let l1 := symbolsMessages tg (some base) (scope ++ [name]) (base + 1) nested
    let l2 := symbolsEnums tg (some base) (scope ++ [name]) (base + 1 + l1.length) enums
    newSymbol tg parent (scope ++ [name])
        (.message (.mk addr name fields exts nested enums er oo opts)) ::
      (l1 ++ l2 ++
        fields.map (fun f => newSymbol tg (some base) (scope ++ [name] ++ [f.Name]) (.field f)))
/-- Symbols created by a loop of `walkMessage` over a list of messages. -/
def symbolsMessages (tg : Bool) (parent : Option Nat) (scope : Scope) (base : Nat) :
    List DescriptorProto → List Message
  | [] => []
  | d :: rest =>
    symbolsMessage tg parent scope base d ++
      symbolsMessages tg parent scope (base + (symbolsMessage tg parent scope base d).length) rest
end

/-- Scope that `walkFile` and `GetByLocation` start from: the package, if declared. -/
def FileDescriptorProto.pkgScope (fi : FileDescriptorProto) : Scope :=
  if fi.Package ≠ [] then [fi.Package] else []

/-- Symbols created by `walkFile` on an empty table. -/
def symbolsFile (tg : Bool) (fi : FileDescriptorProto) : List Message :=
  let self : List Message :=
    if fi.Package ≠ [] then [newSymbol tg none [fi.Package] (.file fi)] else []
  let parent : Option Nat := if fi.Package ≠ [] then some 0 else none
  let l1 := symbolsMessages tg parent fi.pkgScope self.length fi.MessageType
  self ++ l1 ++ symbolsEnums tg parent fi.pkgScope (self.length + l1.length) fi.EnumType

/-- Allocating and putting a list of objects, one after the other. -/
def Messages.putAll (ms : Messages) (l : List Message) : Messages :=
  l.foldl (fun ms m => (ms.putNew m).1) ms

/-- The table before any Symbol is created. -/
def Messages.empty : Messages :=
  { objs := [], ByScope := fun _ => none, ByMessage := fun _ => none }

/-- A descriptor pointer is held only under its own key: every `ByMessage` value is an
allocated Symbol whose `Proto` is the key. -/
def Messages.KeysAgree (ms : Messages) : Prop :=
  ∀ k a, ms.ByMessage k = some a → ∃ m, ms.objs[a]? = some m ∧ k = some m.Proto.ident

/-- The nodes `GetMessages` walks below a node: messages and enums of a file; nested
messages, enums and fields of a message; values of an enum. -/
def proto.Message.children : proto.Message → List proto.Message
  | .file d => d.MessageType.map .message ++ d.EnumType.map .enum
  | .message d =>
    d.GetNestedType.map .message ++ d.GetEnumType.map .enum ++ d.GetField.map .field
  | .enum d => d.Value.map .enumValue
  | _ => []

/-- `c` is declared directly inside `p`. -/
def Child (p c : proto.Message) : Prop := c ∈ p.children

/-- The descriptor is a tree of distinct objects: no object is met twice by the walk of
`GetMessages`, so the descriptor pointers of the Symbols created for the file are
pairwise distinct. -/
def FileDescriptorProto.NoAlias (fi : FileDescriptorProto) : Prop :=
  ((symbolsFile true fi).map (fun m => m.Proto.ident)).Nodup

/-- The list `l` sits in `g` from position `base` on. -/
def IsBlock (g : List Message) (base : Nat) (l : List Message) : Prop :=
  ∃ a b, g = a ++ l ++ b ∧ a.length = base

/-- Symbols created for a node walked below a file: by `walkMessage`, `walkEnum` or
`walkDescriptor`. -/
def symbolsNode (tg : Bool) (parent : Option Nat) (scope : Scope) (base : Nat) :
    proto.Message → List Message
  | .message d => symbolsMessage tg parent scope base d
  | .enum d => symbolsEnum tg parent scope base d
  | .field d => [newSymbol tg parent (scope ++ [d.Name]) (.field d)]
  | .enumValue d => [newSymbol tg parent (scope ++ [d.Name]) (.enumValue d)]
  | _ => []

/-- The node is a message, an enum, a field or an enum value. -/
def proto.Message.IsWalked : proto.Message → Bool
  | .message _ | .enum _ | .field _ | .enumValue _ => true
  | _ => false

/-! ## Field-paths -/

/-- A field-path made only of in-range steps `(4,i)` or `(5,i)` at a file, `(3,i)`,
`(4,i)` or `(2,i)` at a message and `(2,i)` at an enum, together with the nodes it
passes below its starting node. -/
inductive SymbolPath : proto.Message → List Int → List proto.Message → Prop where
  | done (p : proto.Message) : SymbolPath p [] []
  | fileMessage (d : FileDescriptorProto) (i : Int) (c : DescriptorProto) (rest : List Int)
      (chain : List proto.Message) (hi : index d.MessageType i = some c)
      (h : SymbolPath (.message c) rest chain) :
      SymbolPath (.file d) (4 :: i :: rest) (.message c :: chain)
  | fileEnum (d : FileDescriptorProto) (i : Int) (c : EnumDescriptorProto) (rest : List Int)
      (chain : List proto.Message) (hi : index d.EnumType i = some c)
      (h : SymbolPath (.enum c) rest chain) :
      SymbolPath (.file d) (5 :: i :: rest) (.enum c :: chain)
  | messageNested (d : DescriptorProto) (i : Int) (c : DescriptorProto) (rest : List Int)
      (chain : List proto.Message) (hi : index d.GetNestedType i = some c)
      (h : SymbolPath (.message c) rest chain) :
      SymbolPath (.message d) (3 :: i :: rest) (.message c :: chain)
  | messageEnum (d : DescriptorProto) (i : Int) (c : EnumDescriptorProto) (rest : List Int)
      (chain : List proto.Message) (hi : index d.GetEnumType i = some c)
      (h : SymbolPath (.enum c) rest chain) :
      SymbolPath (.message d) (4 :: i :: rest) (.enum c :: chain)
  | messageField (d : DescriptorProto) (i : Int) (c : FieldDescriptorProto) (rest : List Int)
      (chain : List proto.Message) (hi : index d.GetField i = some c)
      (h : SymbolPath (.field c) rest chain) :
      SymbolPath (.message d) (2 :: i :: rest) (.field c :: chain)
  | enumValue (d : EnumDescriptorProto) (i : Int) (c : EnumValueDescriptorProto)
      (rest : List Int) (chain : List proto.Message) (hi : index d.Value i = some c)
      (h : SymbolPath (.enumValue c) rest chain) :
      SymbolPath (.enum d) (2 :: i :: rest) (.enumValue c :: chain)

/-- The list a list-indexing field number addresses: field numbers 4, 5, 6, 7 at a
file; 2, 3, 4, 5, 6, 8 at a message; 2 at an enum; 2 at a service. -/
def listAt : proto.Message → Int → Option (List proto.Message)
  | .file d, id =>
    if id = 4 then some (d.MessageType.map .message)
    else if id = 5 then some (d.EnumType.map .enum)
    else if id = 6 then some (d.Service.map .service)
    else if id = 7 then some (d.Extension.map .field)
    else none
  | .message d, id =>
    if id = 2 then some (d.GetField.map .field)
    else if id = 3 then some (d.GetNestedType.map .message)
    else if id = 4 then some (d.GetEnumType.map .enum)
    else if id = 5 then some (d.GetExtensionRange.map .extensionRange)
    else if id = 6 then some (d.GetExtension.map .field)
    else if id = 8 then some (d.GetOneofDecl.map .oneof)
    else none
  | .enum d, id => if id = 2 then some (d.Value.map .enumValue) else none
  | .service d, id => if id = 2 then some (d.Method.map .method) else none
  | _, _ => none

/-- The field number forwards into an options container without indexing a list. -/
def forwardsToOptions : proto.Message → Int → Bool
  | .file _, id => id = 8
  | .enum _, id => id = 3
  | .enumValue _, id => id = 3
  | .method _, id => id = 4
  | .message _, id => id = 7
  | .service _, id => id = 3
  | .field _, id => id = 8
  | _, _ => false

/-- At an options container every field number 999 is followed by one more element. -/
def optionsInRange : List Int → Bool
  | [] => true
  | [id] => id ≠ 999
  | id :: _ :: rest => if id = 999 then optionsInRange rest else true

/-- A field-path in which every list-indexing step carries an index within the bounds
of the addressed list, and every field number 999 met at an options container is
followed by at least one more element. -/
def PathInRange : List Int → proto.Message → Bool
  | [], _ => true
  | [id], p =>
    match p with
    | .options _ _ => id ≠ 999
    | _ => (listAt p id).isNone
  | id :: idx :: rest, p =>
    match p with
    | .options _ _ => if id = 999 then optionsInRange rest else true
    | _ =>
      match listAt p id with
      | some l =>
        match index l idx with
        | some c => PathInRange rest c
        | none => false
      | none => if forwardsToOptions p id then optionsInRange (idx :: rest) else true

/-! ## Sample descriptor trees -/

/-- Message `Inner`, nested in `Foo`. -/
def sample.Inner : DescriptorProto := .mk 3 "Inner".toList [] [] [] [] [] [] none

/-- Message `Foo` with field `bar` of type `.pkg.Baz`, nested message `Inner` and enum
`E` with value `X`. -/
def sample.Foo : DescriptorProto :=
  .mk 1 "Foo".toList [⟨2, "bar".toList, ".pkg.Baz".toList, none⟩] [] [sample.Inner]
    [⟨4, "E".toList, [⟨5, "X".toList, none⟩], none⟩] [] [] none

/-- Message `Baz`. -/
def sample.Baz : DescriptorProto := .mk 6 "Baz".toList [] [] [] [] [] [] none

/-- File `a.proto` of package `pkg` declaring `Foo` and `Baz`. -/
def sample.file : FileDescriptorProto :=
  { addr := 0, Name := "a.proto".toList, Package := "pkg".toList,
    MessageType := [sample.Foo, sample.Baz], EnumType := [], Service := [],
    Extension := [], Options := none, SourceCodeInfo := none }

/-- Request holding `a.proto`. -/
def sample.request : CodeGeneratorRequest := ⟨100, ["a.proto".toList], [sample.file]⟩

/-- File without package declaring two top-level messages that are both named `A`. -/
def sample.dup : FileDescriptorProto :=
  { addr := 0, Name := "dup.proto".toList, Package := [],
    MessageType := [.mk 1 "A".toList [] [] [] [] [] [] none,
                    .mk 2 "A".toList [] [] [] [] [] [] none],
    EnumType := [], Service := [], Extension := [], Options := none, SourceCodeInfo := none }

/-- File of package `pkg` declaring a top-level message with the lower-case name `baz`. -/
def sample.lower : FileDescriptorProto :=
  { addr := 0, Name := "lower.proto".toList, Package := "pkg".toList,
    MessageType := [.mk 1 "baz".toList [] [] [] [] [] [] none],
    EnumType := [], Service := [], Extension := [], Options := none, SourceCodeInfo := none }

/-- Invariant of the attachment loop for one key `s` of `ByScope`, relative to the
table `t0` the loop started from: either the entry is still the one of `t0`, or it is
gone and the Symbol it held is under no key of `ByMessage`. -/
def main.PruneInv (t0 : Messages) (s : Str) (ms : Messages) : Prop :=
  ms.KeysAgree ∧
  (ms.ByScope s = t0.ByScope s ∨
    (ms.ByScope s = none ∧ ∀ a, t0.ByScope s = some a → ∀ k, ms.ByMessage k ≠ some a))

/-- The text `s` is the word `p` between two runs of white space. -/
def IsTrim (s p : Str) : Prop :=
  ∃ a b, s = a ++ p ++ b ∧ (∀ c ∈ a, unicode.IsSpace c = true) ∧
    (∀ c ∈ b, unicode.IsSpace c = true)

/-- Location records of the sample file: a leading comment on `Foo`, then a trailing
comment ` private` on `Baz`, then a leading comment on `Baz`. -/
def sample.locs : List SourceCodeInfo_Location :=
  [ { Path := [4, 0], LeadingComments := " A message.\n".toList, TrailingComments := [],
      LeadingDetachedComments := [] },
    { Path := [4, 1], LeadingComments := [], TrailingComments := " private\n".toList,
      LeadingDetachedComments := [] },
    { Path := [4, 1], LeadingComments := " Hidden.\n".toList, TrailingComments := [],
      LeadingDetachedComments := [] } ]

/-- The table after the attachment loop over the sample records. -/
def sample.pruned : Messages :=
  (main.attachAll sample.file (GetMessages true (.file sample.file)) sample.locs).getD
    Messages.empty


/-! ## The stages of `normalizeIndent` -/

/-- The slice `lines` of `normalizeIndent` when its two loops run: the tabs replaced,
the end trimmed, the text split at newlines and the leading blank lines dropped. -/
def normalizeIndent.lines (s : Str) : List Str :=
  let s := strings.Replace s '\t' "    ".toList
  let lines := strings.Split (strings.TrimRight s " \n".toList) '\n'
  lines.drop (normalizeIndent.blankRun lines)

/-- The variable `minIndent` of `normalizeIndent` after the loop that computes it. -/
def normalizeIndent.minIndent (s : Str) : Int :=
  normalizeIndent.minLoop (normalizeIndent.lines s) defaultIndent


/-! ## Reference definition of comment normalization -/

/-- The lines `L` the specification of `normalizeIndent` starts from: every tab
replaced by four spaces, trailing spaces and newlines trimmed, the text cut at
newlines, and the leading run of all-whitespace lines dropped. -/
def specLines (s : Str) : List Str :=
  let s1 := s.flatMap (fun c => if c = '\t' then "    ".toList else [c])
  let s2 := s1.rdropWhile (fun c => c == ' ' || c == '\n')
  (strings.Split s2 '\n').dropWhile (fun l => l.all unicode.IsSpace)

/-- The number of leading spaces of a line. -/
def leadingSpaces (line : Str) : Nat := (line.takeWhile (fun c => c == ' ')).length

/-- The indentation of a line as `normalizeIndent` measures it: the number of
leading spaces, except that a line made only of spaces counts as not indented. -/
def indentOf (line : Str) : Nat :=
  if line.all (fun c => c == ' ') then 0 else leadingSpaces line

/-- The text the specification describes, for a measure `ind` of the indentation of
a line: with `m` the minimum of `ind` over the non-empty lines of `L`, the lines of
`L` joined by newline, with `m` leading characters removed from every non-empty line
when `m > 0`, and unchanged when `m = 0` or there is no non-empty line. -/
def dedentBy (ind : Str → Nat) (s : Str) : Str :=
  let L := specLines s
  match ((L.filter (fun l => !l.isEmpty)).map ind).min? with
  | some m =>
    if 0 < m then strings.Join (L.map (fun l => if l.isEmpty then l else l.drop m)) ['\n']
    else strings.Join L ['\n']
  | none => strings.Join L ['\n']

/-- The specification of `normalizeIndent` as worded: the minimum is taken over the
number of leading spaces. -/
def normalizeIndent_claimed (s : Str) : Str := dedentBy leadingSpaces s

/-- The specification of `normalizeIndent` with the measure of the code: a line of
spaces only counts as not indented. -/
def normalizeIndent_spec (s : Str) : Str := dedentBy indentOf s


/-! ## Name paths below a node -/

/-- The nodes `Scope.Resolve` searches below a node, in search order: messages, enums,
services and extensions of a file; fields, nested messages, enums and extensions of a
message; values of an enum; methods of a service. -/
def proto.Message.searched : proto.Message → List proto.Message
  | .file d =>
    d.MessageType.map .message ++ d.EnumType.map .enum ++ d.Service.map .service ++
      d.Extension.map .field
  | .message d =>
    d.GetField.map .field ++ d.GetNestedType.map .message ++ d.GetEnumType.map .enum ++
      d.GetExtension.map .field
  | .enum d => d.Value.map .enumValue
  | .service d => d.Method.map .method
  | _ => []

/-- `c` is one of the nodes searched directly below `p`. -/
def Searched (p c : proto.Message) : Prop := c ∈ p.searched

/-- The segments that spell the way from `root` down a chain of nodes: the names of
`root` and of the nodes of the chain; for a file root, the package (when the file
declares one) takes the place of the root's name. -/
def Scope.ofPath (root : proto.Message) (chain : List proto.Message) : Scope :=
  match root with
  | .file d => d.pkgScope ++ chain.map proto.Message.GetName
  | _ => (root :: chain).map proto.Message.GetName

/-- `s` spells the names from `root` down to `n` along searched nodes. -/
def NamePath (root : proto.Message) (s : Scope) (n : proto.Message) : Prop :=
  ∃ chain, List.Chain Searched root chain ∧ (root :: chain).getLast? = some n ∧
    s = (root :: chain).map proto.Message.GetName


/-! ## Reference definition of the relative search -/

/-- The Symbols `from`, `from.Parent`, `from.Parent.Parent`, ... of a pointer into the
store, read in at most `fuel` steps; `none` when the chain is longer than `fuel` or
leaves the store. -/
def Message.parents (objs : List Message) : Nat → Option Nat → Option (List Message)
  | _, none => some []
  | 0, some _ => none
  | fuel + 1, some a =>
    match objs[a]? with
    | none => none
    | some m => (Message.parents objs fuel m.Parent).map (fun rest => m :: rest)

/-- The result the specification gives for a relative search along the Symbols `syms`
of a Parent chain: `ByMessage[n]` for the node `n` that `Resolve` returns at the first
Symbol of the chain where it returns one, nil when there is none. -/
def Find_spec (u : unicode.Tables) (c : Context) (syms : List Message) (t : Str) :
    Option Nat :=
  match syms.findSome? (fun a => Scope.Resolve (ParseScope u t).1 a.Proto) with
  | some n => c.Messages.ByMessage (some n.ident)
  | none => none


/-! ## Agreement of the two maps -/

/-- A Scope string is held only for a Symbol of that Scope: every `ByScope` value is
an allocated Symbol whose Scope string is the key. -/
def Messages.ScopeKeysAgree (ms : Messages) : Prop :=
  ∀ k a, ms.ByScope k = some a → ∃ m, ms.objs[a]? = some m ∧ k = Scope.String m.Scope

/-- The two maps hold the same Symbols: each value sits under its own Scope string,
respectively its own descriptor, and a Symbol is a value of `ByScope` exactly when it
is a value of `ByMessage`. -/
def Messages.Synced (ms : Messages) : Prop :=
  ms.KeysAgree ∧ ms.ScopeKeysAgree ∧
  ∀ a, (∃ k, ms.ByScope k = some a) ↔ (∃ k, ms.ByMessage k = some a)

/-- The dynamic types for which the walk of `GetMessages` over a file creates a
Symbol. -/
def proto.Message.IsIndexed : proto.Message → Bool
  | .file _ | .message _ | .enum _ | .enumValue _ | .field _ => true
  | _ => false

/-- A service `S` with one method `M`. -/
def sample.S : ServiceDescriptorProto :=
  { addr := 1, Name := "S".toList,
    Method := [{ addr := 2, Name := "M".toList, Options := none }], Options := none }

/-- A file of package `pkg` that declares a message `Req` and the service `S`. -/
def sample.svc : FileDescriptorProto :=
  { addr := 0, Name := "svc.proto".toList, Package := "pkg".toList,
    MessageType := [.mk 3 "Req".toList [] [] [] [] [] [] none],
    EnumType := [], Service := [sample.S],
    Extension := [], Options := none, SourceCodeInfo := none }

/-- A request with two files of the same package `pkg`, one declaring message `A`,
the other message `B`. -/
def sample.twoFiles : CodeGeneratorRequest :=
  { addr := 100, FileToGenerate := ["a.proto".toList, "b.proto".toList],
    ProtoFile :=
      [{ addr := 0, Name := "a.proto".toList, Package := "pkg".toList,
         MessageType := [.mk 1 "A".toList [] [] [] [] [] [] none],
         EnumType := [], Service := [], Extension := [], Options := none,
         SourceCodeInfo := none },
       { addr := 2, Name := "b.proto".toList, Package := "pkg".toList,
         MessageType := [.mk 3 "B".toList [] [] [] [] [] [] none],
         EnumType := [], Service := [], Extension := [], Options := none,
         SourceCodeInfo := none }] }

/-- The record of the sample file that marks `Baz` private. -/
def sample.privateLoc : SourceCodeInfo_Location :=
  { Path := [4, 1], LeadingComments := [], TrailingComments := " private\n".toList,
    LeadingDetachedComments := [] }

/-- The table after the first record of the sample file (a comment on `Foo`). -/
def sample.afterFoo : Messages :=
  (main.attachAll sample.file (GetMessages true (.file sample.file))
    (sample.locs.take 1)).getD Messages.empty

/-- The table after the pass on `sample.privateLoc` that follows. -/
def sample.afterBaz : Messages :=
  (main.attach sample.file sample.afterFoo sample.privateLoc).getD Messages.empty


/-! ## A file with repeated names -/

/-- The first of two nested messages named `Inner`. -/
def sample.Inner1 : DescriptorProto := .mk 2 "Inner".toList [] [] [] [] [] [] none

/-- The second nested message named `Inner`. -/
def sample.Inner2 : DescriptorProto := .mk 3 "Inner".toList [] [] [] [] [] [] none

/-- A message `Foo` whose nested messages are the two messages named `Inner`. -/
def sample.Outer : DescriptorProto :=
  .mk 1 "Foo".toList [] [] [sample.Inner1, sample.Inner2] [] [] [] none

/-- The first of two top-level messages named `Baz`. -/
def sample.Baz1 : DescriptorProto := .mk 4 "Baz".toList [] [] [] [] [] [] none

/-- The second top-level message named `Baz`. -/
def sample.Baz2 : DescriptorProto := .mk 5 "Baz".toList [] [] [] [] [] [] none

/-- A file of package `pkg` with the top-level messages `Foo`, `Baz`, `Baz`. -/
def sample.twins : FileDescriptorProto :=
  { addr := 0, Name := "twins.proto".toList, Package := "pkg".toList,
    MessageType := [sample.Outer, sample.Baz1, sample.Baz2],
    EnumType := [], Service := [], Extension := [], Options := none,
    SourceCodeInfo := none }

/-- A request for the file with repeated names. -/
def sample.twinsRequest : CodeGeneratorRequest :=
  ⟨101, ["twins.proto".toList], [sample.twins]⟩

/-! ## Lemmas on the string functions -/

namespace strings

theorem Split_ne_nil (s : Str) (sep : Char) : Split s sep ≠ [] := by
  induction s with
  | nil => simp [Split]
  | cons c cs ih =>
    unfold Split
    split
    · simp
    · split <;> simp

theorem Join_cons_of_ne_nil (a : Str) (l : List Str) (sep : Str) (h : l ≠ []) :
    Join (a :: l) sep = a ++ sep ++ Join l sep := by
  cases l with
  | nil => exact absurd rfl h
  | cons b rest => rfl

theorem Join_Split (s : Str) (sep : Char) : Join (Split s sep) [sep] = s := by
  induction s with
  | nil => rfl
  | cons c cs ih =>
    unfold Split
    split
    · rename_i h
      rw [Join_cons_of_ne_nil _ _ _ (Split_ne_nil cs sep), ih, h]
      rfl
    · have hne := Split_ne_nil cs sep
      split
      · rename_i h; exact absurd h hne
      · rename_i p ps h
        rw [h] at ih
        cases ps with
        | nil => simp only [Join] at ih ⊢; rw [ih]
        | cons q qs =>
          simp only [Join] at ih ⊢
          rw [← ih]; simp

end strings

/-! ## Scope parsing -/

theorem ispkgname_eq_all (u : unicode.Tables) (p : Str) :
    ispkgname u p = p.all (fun r => u.IsLower r || u.IsNumber r || r == '_') := by
  induction p with
  | nil => rfl
  | cons r rs ih =>
    simp only [ispkgname, List.all_cons, ih]
    cases (u.IsLower r || u.IsNumber r || r == '_') <;> simp

theorem parseAbsoluteScope.loop_eq (u : unicode.Tables) (spl pkg : List Str) :
    parseAbsoluteScope.loop u spl pkg = pkg ++ spl.takeWhile (ispkgname u) := by
  induction spl generalizing pkg with
  | nil => simp [parseAbsoluteScope.loop]
  | cons r rest ih =>
    simp only [parseAbsoluteScope.loop, List.takeWhile_cons]
    cases h : ispkgname u r <;> simp [ih]

theorem take_length_takeWhile {α : Type} (p : α → Bool) (l : List α) :
    l.take (l.takeWhile p).length = l.takeWhile p := by
  induction l with
  | nil => rfl
  | cons a l ih =>
    simp only [List.takeWhile_cons]
    cases p a <;> simp [ih]

/-- C9: `ParseScope` equals its reference definition on every text. -/
theorem ParseScope_refines_spec (u : unicode.Tables) (s : Str) :
    ParseScope u s = ParseScope_spec u s := by
  have hfun : ispkgname u = fun p : Str =>
      p.all (fun r => u.IsLower r || u.IsNumber r || r == '_') :=
    funext (ispkgname_eq_all u)
  cases s with
  | nil => rfl
  | cons c cs =>
    by_cases hc : c = '.'
    · subst hc
      simp only [ParseScope, ParseScope_spec, if_true, parseAbsoluteScope,
        parseAbsoluteScope.loop_eq, List.nil_append, ← hfun, take_length_takeWhile]
      by_cases hk : (List.takeWhile (ispkgname u) (strings.Split cs '.')).length = 0
      · simp [hk]
      · have : (List.takeWhile (ispkgname u) (strings.Split cs '.')).length > 0 := by omega
        simp [hk, this]
    · unfold ParseScope ParseScope_spec
      simp only [hc, if_false]
      split
      · rename_i h; cases h
      · rename_i r h; cases h; exact absurd rfl hc
      · rfl

/-- C8: a Scope whose string has no leading separator parses back to a relative Scope
with the same string. -/
theorem ParseScope_String_roundtrip (u : unicode.Tables) (s : Scope)
    (h : s.String.head? ≠ some '.') :
    (ParseScope u s.String).2 = false ∧ (ParseScope u s.String).1.String = s.String := by
  unfold ParseScope
  cases hs : s.String with
  | nil => simp [Scope.String, strings.Join]
  | cons c cs =>
    rw [hs] at h
    have hc : c ≠ '.' := fun e => h (by simp [e])
    simp only [hc, if_false]
    exact ⟨trivial, strings.Join_Split _ _⟩

theorem ParseScope_String_roundtrip_witness :
    (Scope.String ["pkg".toList, "Foo".toList]).head? ≠ some '.' ∧
    (ParseScope unicode.ascii (Scope.String ["pkg".toList, "Foo".toList])).2 = false ∧
    Scope.String (ParseScope unicode.ascii (Scope.String ["pkg".toList, "Foo".toList])).1
      = Scope.String ["pkg".toList, "Foo".toList] :=
  ⟨by decide, ParseScope_String_roundtrip unicode.ascii ["pkg".toList, "Foo".toList] (by decide)⟩


/-! ## Lemmas on comment normalization -/

namespace strings

theorem TrimRight_eq_rdropWhile (s cutset : Str) :
    TrimRight s cutset = s.rdropWhile (fun c => cutset.contains c) := rfl

theorem TrimSpace_eq (s : Str) :
    TrimSpace s = (s.dropWhile unicode.IsSpace).rdropWhile unicode.IsSpace := rfl

theorem TrimSpace_eq_nil_iff (s : Str) :
    TrimSpace s = [] ↔ ∀ c ∈ s, unicode.IsSpace c = true := by
  rw [TrimSpace_eq, List.rdropWhile_eq_nil_iff]
  constructor
  · intro h
    have h2 : s.dropWhile unicode.IsSpace = [] := by
      cases hd : s.dropWhile unicode.IsSpace with
      | nil => rfl
      | cons a t =>
        have ha : a ∈ s.dropWhile unicode.IsSpace := by rw [hd]; simp
        have h1 := h a ha
        have h3 := List.head_dropWhile_not unicode.IsSpace s (by rw [hd]; simp)
        simp only [hd, List.head_cons] at h3
        rw [h1] at h3; simp at h3
    simpa [List.dropWhile_eq_nil_iff] using h2
  · intro h c hc
    exact h c ((List.dropWhile_sublist _).subset hc)

theorem Replace_of_not_mem (s : Str) (old : Char) (new : Str) (h : old ∉ s) :
    Replace s old new = s := by
  induction s with
  | nil => rfl
  | cons c cs ih =>
    have hc : c ≠ old := fun e => h (by simp [e])
    have hcs : old ∉ cs := fun e => h (by simp [e])
    simp [Replace, hc, ih hcs]

theorem not_mem_Replace (s : Str) (old : Char) (new : Str) (h : old ∉ new) :
    old ∉ Replace s old new := by
  induction s with
  | nil => simp [Replace]
  | cons c cs ih =>
    simp only [Replace, List.mem_append, not_or]
    refine ⟨?_, ih⟩
    by_cases hc : c = old
    · simpa [hc] using h
    · simpa [hc] using fun e => hc e.symm

theorem mem_of_mem_Split (s : Str) (sep : Char) (l : Str) (hl : l ∈ Split s sep) (c : Char)
    (hc : c ∈ l) : c ∈ s ∧ c ≠ sep := by
  induction s generalizing l with
  | nil => simp [Split] at hl; subst hl; simp at hc
  | cons a as ih =>
    unfold Split at hl
    split at hl
    · rename_i h
      rcases List.mem_cons.1 hl with h1 | h1
      · subst h1; simp at hc
      · have := ih l h1 hc
        exact ⟨List.mem_cons_of_mem _ this.1, this.2⟩
    · rename_i h
      split at hl
      · rename_i h2; exact absurd h2 (Split_ne_nil _ _)
      · rename_i p ps h2
        rcases List.mem_cons.1 hl with h1 | h1
        · subst h1
          rcases List.mem_cons.1 hc with h3 | h3
          · subst h3; exact ⟨by simp, h⟩
          · have := ih p (by rw [h2]; simp) h3
            exact ⟨List.mem_cons_of_mem _ this.1, this.2⟩
        · have := ih l (by rw [h2]; simp [h1]) hc
          exact ⟨List.mem_cons_of_mem _ this.1, this.2⟩

theorem Split_Join (L : List Str) (sep : Char) (hL : L ≠ [])
    (h : ∀ l ∈ L, sep ∉ l) : Split (Join L [sep]) sep = L := by
  induction L with
  | nil => exact absurd rfl hL
  | cons a rest ih =>
    have ha : sep ∉ a := h a (by simp)
    cases rest with
    | nil =>
      simp only [Join]
      clear ih h hL
      induction a with
      | nil => rfl
      | cons c cs ih2 =>
        have hc : c ≠ sep := fun e => ha (by simp [e])
        have hcs : sep ∉ cs := fun e => ha (by simp [e])
        simp [Split, hc, ih2 hcs]
    | cons b rest2 =>
      have ih1 := ih (by simp) (fun l hl => h l (List.mem_cons_of_mem _ hl))
      simp only [Join]
      clear ih h hL
      induction a with
      | nil => simp [Split, ih1]
      | cons c cs ih2 =>
        have hc : c ≠ sep := fun e => ha (by simp [e])
        have hcs : sep ∉ cs := fun e => ha (by simp [e])
        have := ih2 hcs
        simp only [List.cons_append, List.append_assoc, List.singleton_append,
          List.nil_append] at this ⊢
        simp [Split, hc, this]

end strings

namespace strings

theorem IndexFunc_cons (c : Char) (cs : Str) (f : Char → Bool) :
    IndexFunc (c :: cs) f =
      if f c then 0 else if IndexFunc cs f < 0 then -1 else IndexFunc cs f + 1 := by
  simp only [IndexFunc]
  split
  · rfl
  · cases h : IndexFunc cs f with
    | ofNat n =>
      have : ¬ (Int.ofNat n < 0) := by simp
      simp only [this, if_false]; rfl
    | negSucc n =>
      have : Int.negSucc n < 0 := Int.negSucc_lt_zero n
      simp [this]

theorem IndexFunc_ge (l : Str) (f : Char → Bool) : -1 ≤ IndexFunc l f := by
  induction l with
  | nil => simp [IndexFunc]
  | cons c cs ih => rw [IndexFunc_cons]; split <;> [omega; (split <;> omega)]

theorem IndexFunc_lt_length (l : Str) (f : Char → Bool) : IndexFunc l f < l.length := by
  induction l with
  | nil => simp [IndexFunc]
  | cons c cs ih =>
    rw [IndexFunc_cons]; simp only [List.length_cons, Nat.cast_add, Nat.cast_one]
    split <;> [omega; (split <;> omega)]

theorem IndexFunc_drop (l : Str) (f : Char → Bool) (m : Nat) (h : (m : Int) ≤ IndexFunc l f) :
    IndexFunc (l.drop m) f = IndexFunc l f - m := by
  induction l generalizing m with
  | nil => simp [IndexFunc] at h; omega
  | cons c cs ih =>
    cases m with
    | zero => simp
    | succ k =>
      rw [IndexFunc_cons] at h ⊢
      simp only [List.drop_succ_cons]
      split at h
      · omega
      · rename_i hf
        split at h
        · omega
        · rename_i hlt
          simp only [hf, hlt, if_false, Bool.false_eq_true]
          rw [ih k (by omega)]; push_cast; omega

theorem IndexFunc_take (l : Str) (f : Char → Bool) (m : Nat) (h : (m : Int) ≤ IndexFunc l f) :
    ∀ c ∈ l.take m, f c = false := by
  induction l generalizing m with
  | nil => simp
  | cons c cs ih =>
    cases m with
    | zero => simp
    | succ k =>
      rw [IndexFunc_cons] at h
      split at h
      · omega
      · rename_i hf
        split at h
        · omega
        · intro x hx
          simp only [List.take_succ_cons, List.mem_cons] at hx
          rcases hx with hx | hx
          · subst hx; simpa using hf
          · exact ih k (by omega) x hx

theorem IndexFunc_neg_iff (l : Str) (f : Char → Bool) :
    IndexFunc l f < 0 ↔ ∀ c ∈ l, f c = false := by
  induction l with
  | nil => simp [IndexFunc]
  | cons c cs ih =>
    rw [IndexFunc_cons]
    by_cases hf : f c = true
    · simp [hf]
    · have hge := IndexFunc_ge cs f
      simp only [hf, if_false, List.mem_cons, forall_eq_or_imp, Bool.not_eq_true] at *
      by_cases hlt : IndexFunc cs f < 0
      · simp only [hlt, if_true]
        exact ⟨fun _ => ⟨hf, ih.1 hlt⟩, fun _ => by decide⟩
      · simp only [hlt, if_false]
        constructor
        · intro h; omega
        · intro h; exact absurd (ih.2 h.2) hlt

end strings

theorem sliceFrom_of_le (line : Str) (m : Nat) (h : m ≤ line.length) :
    sliceFrom line m = some (line.drop m) := by
  simp [sliceFrom, h]

theorem normalizeIndent.strip_eq (m : Nat) (L : List Str)
    (h : ∀ l ∈ L, l ≠ [] → (m : Int) ≤ strings.IndexFunc l (fun r => r != ' ')) :
    normalizeIndent.strip m L = some (L.map (fun l => l.drop m)) := by
  induction L with
  | nil => rfl
  | cons a rest ih =>
    have ih1 := ih (fun l hl => h l (List.mem_cons_of_mem _ hl))
    by_cases ha : a = []
    · subst ha; simp [normalizeIndent.strip, ih1]
    · have h1 := h a (by simp) ha
      have h2 := strings.IndexFunc_lt_length a (fun r => r != ' ')
      have h3 : m ≤ a.length := by omega
      simp [normalizeIndent.strip, ha, sliceFrom_of_le a m h3, ih1]

theorem normalizeIndent.minLoop_pos (L : List Str) (x : Int) (hx : 0 < x)
    (h : 0 < normalizeIndent.minLoop L x) :
    normalizeIndent.minLoop L x ≤ x ∧
    (∀ l ∈ L, l ≠ [] → normalizeIndent.minLoop L x ≤ strings.IndexFunc l (fun r => r != ' ')) ∧
    (normalizeIndent.minLoop L x = x ∨
      ∃ l ∈ L, l ≠ [] ∧ strings.IndexFunc l (fun r => r != ' ') = normalizeIndent.minLoop L x) := by
  induction L generalizing x with
  | nil => simp [normalizeIndent.minLoop]
  | cons a rest ih =>
    by_cases ha : a = []
    · subst ha
      simp only [normalizeIndent.minLoop, if_true] at h ⊢
      obtain ⟨h1, h2, h3⟩ := ih x hx h
      refine ⟨h1, ?_, ?_⟩
      · intro l hl hne
        rcases List.mem_cons.1 hl with e | e
        · exact absurd e hne
        · exact h2 l e hne
      · rcases h3 with e | ⟨l, hl, hne, e⟩
        · exact Or.inl e
        · exact Or.inr ⟨l, List.mem_cons_of_mem _ hl, hne, e⟩
    · simp only [normalizeIndent.minLoop, ha, if_false] at h ⊢
      by_cases h0 : strings.IndexFunc a (fun r => r != ' ') ≤ 0
      · simp [h0] at h
      · simp only [h0, if_false] at h ⊢
        by_cases hlt : strings.IndexFunc a (fun r => r != ' ') < x
        · simp only [hlt, if_true] at h ⊢
          obtain ⟨h1, h2, h3⟩ := ih _ (by omega) h
          refine ⟨by omega, ?_, ?_⟩
          · intro l hl hne
            rcases List.mem_cons.1 hl with e | e
            · subst e; exact h1
            · exact h2 l e hne
          · rcases h3 with e | ⟨l, hl, hne, e⟩
            · exact Or.inr ⟨a, by simp, ha, e.symm⟩
            · exact Or.inr ⟨l, List.mem_cons_of_mem _ hl, hne, e⟩
        · simp only [hlt, if_false] at h ⊢
          obtain ⟨h1, h2, h3⟩ := ih x hx h
          refine ⟨h1, ?_, ?_⟩
          · intro l hl hne
            rcases List.mem_cons.1 hl with e | e
            · subst e; omega
            · exact h2 l e hne
          · rcases h3 with e | ⟨l, hl, hne, e⟩
            · exact Or.inl e
            · exact Or.inr ⟨l, List.mem_cons_of_mem _ hl, hne, e⟩

theorem normalizeIndent.minLoop_zero (L : List Str) (x : Int) (hx : 0 ≤ x)
    (h : ∃ l ∈ L, l ≠ [] ∧ strings.IndexFunc l (fun r => r != ' ') ≤ 0) :
    normalizeIndent.minLoop L x = 0 := by
  induction L generalizing x with
  | nil => simp at h
  | cons a rest ih =>
    obtain ⟨l, hl, hne, h0⟩ := h
    by_cases ha : a = []
    · subst ha
      simp only [normalizeIndent.minLoop, if_true]
      rcases List.mem_cons.1 hl with e | e
      · exact absurd e hne
      · exact ih x hx ⟨l, e, hne, h0⟩
    · simp only [normalizeIndent.minLoop, ha, if_false]
      by_cases h1 : strings.IndexFunc a (fun r => r != ' ') ≤ 0
      · simp [h1]
      · have hl2 : l ∈ rest := by
          rcases List.mem_cons.1 hl with e | e
          · subst e; exact absurd h0 h1
          · exact e
        simp only [h1, if_false]
        split
        · exact ih _ (by omega) ⟨l, hl2, hne, h0⟩
        · exact ih x hx ⟨l, hl2, hne, h0⟩

namespace strings

theorem mem_Join (L : List Str) (sep : Str) (c : Char) (h : c ∈ Join L sep) :
    c ∈ sep ∨ ∃ l ∈ L, c ∈ l := by
  induction L with
  | nil => simp [Join] at h
  | cons a rest ih =>
    cases rest with
    | nil => exact Or.inr ⟨a, by simp, by simpa [Join] using h⟩
    | cons b rest2 =>
      simp only [Join, List.mem_append] at h
      rcases h with (h | h) | h
      · exact Or.inr ⟨a, by simp, h⟩
      · exact Or.inl h
      · rcases ih h with h1 | ⟨l, hl, hc⟩
        · exact Or.inl h1
        · exact Or.inr ⟨l, List.mem_cons_of_mem _ hl, hc⟩

theorem Join_concat (pre : List Str) (l sep : Str) :
    Join (pre ++ [l]) sep = if pre = [] then l else Join pre sep ++ sep ++ l := by
  induction pre with
  | nil => simp [Join]
  | cons a rest ih =>
    simp only [List.cons_append, reduceCtorEq, if_false]
    rw [Join_cons_of_ne_nil _ _ _ (by simp), ih]
    cases rest with
    | nil => simp [Join]
    | cons b rest2 =>
      rw [Join_cons_of_ne_nil a _ _ (by simp)]
      simp

theorem getLast?_Join (L : List Str) (sep l : Str) (hl : L.getLast? = some l) (hne : l ≠ []) :
    (Join L sep).getLast? = l.getLast? := by
  obtain ⟨pre, rfl⟩ : ∃ pre, L = pre ++ [l] := by
    rcases List.eq_nil_or_concat L with h | ⟨pre, b, h⟩
    · subst h; simp at hl
    · subst h
      simp only [List.concat_eq_append, List.getLast?_concat, Option.some.injEq] at hl
      exact ⟨pre, by simp [hl]⟩
  rw [Join_concat]
  split
  · rfl
  · exact List.getLast?_append_of_ne_nil _ hne

theorem getLast?_Split (s : Str) (sep : Char) (c : Char) (hs : s.getLast? = some c)
    (hc : c ≠ sep) :
    ∃ l, (Split s sep).getLast? = some l ∧ l.getLast? = some c := by
  rcases List.eq_nil_or_concat (Split s sep) with h | ⟨pre, l, h⟩
  · exact absurd h (Split_ne_nil _ _)
  · rw [List.concat_eq_append] at h
    refine ⟨l, by rw [h]; simp, ?_⟩
    have hJ := Join_Split s sep
    rw [h, Join_concat] at hJ
    by_cases hl : l = []
    · subst hl
      split at hJ
      · subst hJ; simp at hs
      · rw [← hJ] at hs
        simp at hs
        exact absurd hs.symm hc
    · have : s.getLast? = l.getLast? := by
        split at hJ
        · rw [hJ]
        · rw [← hJ]; exact List.getLast?_append_of_ne_nil _ hl
      rw [← this]; exact hs

theorem TrimRight_of_getLast? (s cutset : Str) (c : Char) (hs : s.getLast? = some c)
    (hc : c ∉ cutset) : TrimRight s cutset = s := by
  rw [TrimRight_eq_rdropWhile, List.rdropWhile_eq_self_iff]
  intro hl
  rw [List.getLast?_eq_getLast _ hl] at hs
  simp only [Option.some.injEq] at hs
  rw [hs]; simpa using hc

theorem TrimRight_getLast? (s cutset : Str) :
    TrimRight s cutset = [] ∨ ∃ c, (TrimRight s cutset).getLast? = some c ∧ c ∉ cutset := by
  by_cases h : TrimRight s cutset = []
  · exact Or.inl h
  · refine Or.inr ⟨(TrimRight s cutset).getLast h, List.getLast?_eq_getLast _ h, ?_⟩
    have := List.rdropWhile_last_not (fun c => cutset.contains c) s h
    simpa [TrimRight_eq_rdropWhile] using this

theorem mem_of_mem_TrimRight (s cutset : Str) (c : Char) (h : c ∈ TrimRight s cutset) : c ∈ s :=
  (List.rdropWhile_prefix (fun c => cutset.contains c) s).subset h

end strings

theorem normalizeIndent.blankRun_drop (L : List Str) :
    normalizeIndent.blankRun (L.drop (normalizeIndent.blankRun L)) = 0 := by
  induction L with
  | nil => rfl
  | cons a rest ih =>
    by_cases h : strings.TrimSpace a = []
    · simp [normalizeIndent.blankRun, h, ih]
    · simp [normalizeIndent.blankRun, h]

theorem normalizeIndent.blankRun_le (L : List Str) : normalizeIndent.blankRun L ≤ L.length := by
  induction L with
  | nil => simp [normalizeIndent.blankRun]
  | cons a rest ih =>
    simp only [normalizeIndent.blankRun, List.length_cons]
    split <;> omega

theorem normalizeIndent_Join_of_normal (L : List Str) (hN : NormalLines L)
    (hm : normalizeIndent.minLoop L defaultIndent = defaultIndent ∨
      normalizeIndent.minLoop L defaultIndent ≤ 0) :
    normalizeIndent (strings.Join L ['\n']) = some (strings.Join L ['\n']) := by
  obtain ⟨hch, hblank, hlast⟩ := hN
  by_cases hL : L = []
  · subst hL; decide
  · have htab : '\t' ∉ strings.Join L ['\n'] := by
      intro h
      rcases strings.mem_Join _ _ _ h with h1 | ⟨l, hl, hc⟩
      · simp at h1
      · exact (hch l hl).2 hc
    obtain ⟨l, hl⟩ : ∃ l, L.getLast? = some l :=
      ⟨L.getLast hL, List.getLast?_eq_getLast _ hL⟩
    obtain ⟨c, hc, hc1, hc2⟩ := hlast l hl
    have hlne : l ≠ [] := by intro e; subst e; simp at hc
    have hJl : (strings.Join L ['\n']).getLast? = some c := by
      rw [strings.getLast?_Join L _ l hl hlne, hc]
    have hTR : strings.TrimRight (strings.Join L ['\n']) " \n".toList = strings.Join L ['\n'] :=
      strings.TrimRight_of_getLast? _ _ c hJl (by simp [hc1, hc2])
    have hSp : strings.Split (strings.Join L ['\n']) '\n' = L :=
      strings.Split_Join L '\n' hL (fun l hl => (hch l hl).1)
    unfold normalizeIndent
    simp only [strings.Replace_of_not_mem _ _ _ htab, hTR, hSp, hblank, List.drop_zero]
    rw [if_pos hm]

theorem NormalLines_drop (L : List Str) (k : Nat) (hN : NormalLines L)
    (hk : ∀ l ∈ L, l ≠ [] → (k : Int) ≤ strings.IndexFunc l (fun r => r != ' ')) :
    NormalLines (L.map (fun l => l.drop k)) := by
  obtain ⟨hch, hblank, hlast⟩ := hN
  refine ⟨?_, ?_, ?_⟩
  · intro l hl
    obtain ⟨l0, hl0, rfl⟩ := List.mem_map.1 hl
    exact ⟨fun h => (hch l0 hl0).1 (List.mem_of_mem_drop h),
      fun h => (hch l0 hl0).2 (List.mem_of_mem_drop h)⟩
  · cases L with
    | nil => rfl
    | cons a rest =>
      simp only [normalizeIndent.blankRun] at hblank
      split at hblank
      · omega
      · rename_i hTS
        have ha : a ≠ [] := by intro e; subst e; exact hTS rfl
        have hka := hk a (by simp) ha
        simp only [List.map_cons, normalizeIndent.blankRun]
        rw [if_neg]
        intro hd
        apply hTS
        rw [strings.TrimSpace_eq_nil_iff] at hd ⊢
        intro c hc
        rw [← List.take_append_drop k a, List.mem_append] at hc
        rcases hc with hc | hc
        · have := strings.IndexFunc_take a _ k hka c hc
          have hcs : c = ' ' := by simpa using this
          subst hcs; decide
        · exact hd c hc
  · intro l hl
    rw [List.getLast?_map] at hl
    cases hL : L.getLast? with
    | none => rw [hL] at hl; simp at hl
    | some l0 =>
      rw [hL] at hl
      simp only [Option.map_some', Option.some.injEq] at hl
      subst hl
      obtain ⟨c, hc, hc1, hc2⟩ := hlast l0 hL
      have hne : l0 ≠ [] := by intro e; subst e; simp at hc
      have hmem : l0 ∈ L := List.mem_of_getLast?_eq_some hL
      have h1 := hk l0 hmem hne
      have h2 := strings.IndexFunc_lt_length l0 (fun r => r != ' ')
      refine ⟨c, ?_, hc1, hc2⟩
      rw [List.getLast?_drop, if_neg (by omega), hc]

theorem normalizeIndent_first_pass (s : Str) :
    ∃ L, NormalLines L ∧ normalizeIndent s = some (strings.Join L ['\n']) ∧
      (normalizeIndent.minLoop L defaultIndent = defaultIndent ∨
        normalizeIndent.minLoop L defaultIndent ≤ 0) := by
  -- the lines after the leading blank run
  have hex : ∃ s2 : Str, '\t' ∉ s2 ∧
      (s2 = [] ∨ ∃ c, s2.getLast? = some c ∧ c ∉ " \n".toList) ∧
      strings.TrimRight (strings.Replace s '\t' "    ".toList) " \n".toList = s2 := by
    refine ⟨_, ?_, strings.TrimRight_getLast? _ _, rfl⟩
    intro h
    exact strings.not_mem_Replace s '\t' "    ".toList (by decide)
      (strings.mem_of_mem_TrimRight _ _ _ h)
  obtain ⟨s2, htab, hs2, hTR⟩ := hex
  have hN0 : NormalLines
      ((strings.Split s2 '\n').drop (normalizeIndent.blankRun (strings.Split s2 '\n'))) := by
    refine ⟨?_, normalizeIndent.blankRun_drop _, ?_⟩
    · intro l hl
      have hl2 := List.mem_of_mem_drop hl
      exact ⟨fun h => (strings.mem_of_mem_Split _ _ _ hl2 _ h).2 rfl,
        fun h => htab (strings.mem_of_mem_Split _ _ _ hl2 _ h).1⟩
    · intro l hl
      rw [List.getLast?_drop] at hl
      split at hl
      · simp at hl
      · rcases hs2 with h | ⟨c, hc, hcn⟩
        · subst h
          simp [strings.Split, normalizeIndent.blankRun, strings.TrimSpace] at *
        · have hc1 : c ≠ ' ' := fun e => hcn (by simp [e])
          have hc2 : c ≠ '\n' := fun e => hcn (by simp [e])
          obtain ⟨l2, h1, h2⟩ := strings.getLast?_Split s2 '\n' c hc hc2
          rw [h1] at hl
          simp only [Option.some.injEq] at hl
          subst hl
          exact ⟨c, h2, hc1, hc2⟩
  by_cases hcond : normalizeIndent.minLoop
      ((strings.Split s2 '\n').drop (normalizeIndent.blankRun (strings.Split s2 '\n')))
      defaultIndent = defaultIndent ∨
      normalizeIndent.minLoop
      ((strings.Split s2 '\n').drop (normalizeIndent.blankRun (strings.Split s2 '\n')))
      defaultIndent ≤ 0
  · refine ⟨_, hN0, ?_, hcond⟩
    unfold normalizeIndent
    simp only [hTR]
    rw [if_pos hcond]
  · -- the strip loop runs
    have hpos : 0 < normalizeIndent.minLoop
        ((strings.Split s2 '\n').drop (normalizeIndent.blankRun (strings.Split s2 '\n')))
        defaultIndent := by omega
    obtain ⟨_, hall, hatt⟩ := normalizeIndent.minLoop_pos _ defaultIndent (by decide) hpos
    generalize hLdef : (strings.Split s2 '\n').drop
      (normalizeIndent.blankRun (strings.Split s2 '\n')) = L at *
    generalize hmdef : normalizeIndent.minLoop L defaultIndent = m at *
    obtain ⟨k, rfl⟩ : ∃ k : Nat, m = (k : Int) := ⟨m.toNat, by omega⟩
    have hstrip := normalizeIndent.strip_eq k L hall
    refine ⟨L.map (fun l => l.drop k), NormalLines_drop L k hN0 hall, ?_, Or.inr ?_⟩
    · unfold normalizeIndent
      simp only [hTR, hLdef, hmdef]
      rw [if_neg hcond, hstrip]; rfl
    · rcases hatt with e | ⟨l, hl, hne, e⟩
      · exact absurd (Or.inl e) hcond
      · have hlt := strings.IndexFunc_lt_length l (fun r => r != ' ')
        have hd := strings.IndexFunc_drop l (fun r => r != ' ') k (by omega)
        refine le_of_eq (normalizeIndent.minLoop_zero _ _ (by decide)
          ⟨l.drop k, List.mem_map.2 ⟨l, hl, rfl⟩, ?_, by omega⟩)
        intro e2
        have := congrArg List.length e2
        simp at this; omega

/-- C7: comment normalization is idempotent. `normalizeIndent` returns on every string
(no slice goes out of range), and normalizing its result returns that result. -/
theorem normalizeIndent_idempotent (s : Str) :
    ∃ r, normalizeIndent s = some r ∧ normalizeIndent r = some r := by
  obtain ⟨L, hN, h1, hm⟩ := normalizeIndent_first_pass s
  exact ⟨_, h1, normalizeIndent_Join_of_normal L hN hm⟩

/-! ## The table built by `GetMessages` -/

theorem Messages.putAll_append (ms : Messages) (l1 l2 : List Message) :
    ms.putAll (l1 ++ l2) = (ms.putAll l1).putAll l2 := by
  simp [Messages.putAll, List.foldl_append]

theorem Messages.putNew_objs (ms : Messages) (m : Message) :
    (ms.putNew m).1.objs = ms.objs ++ [m] := by
  simp [Messages.putNew, Messages.put]

theorem Messages.putAll_objs (ms : Messages) (l : List Message) :
    (ms.putAll l).objs = ms.objs ++ l := by
  induction l generalizing ms with
  | nil => simp [Messages.putAll]
  | cons a rest ih =>
    have := ih (ms.putNew a).1
    simp only [Messages.putAll, List.foldl_cons] at this ⊢
    rw [this, Messages.putNew_objs]; simp

theorem Messages.putAll_length (ms : Messages) (l : List Message) :
    (ms.putAll l).objs.length = ms.objs.length + l.length := by
  rw [Messages.putAll_objs]; simp

theorem Messages.putAll_cons (ms : Messages) (m : Message) (l : List Message) :
    ms.putAll (m :: l) = (ms.putNew m).1.putAll l := rfl

theorem Messages.walkDescriptor_eq (ms : Messages) (tg : Bool) (parent : Option Nat)
    (scope : Scope) (d : proto.Message) :
    ms.walkDescriptor tg parent scope d =
      ms.putAll [newSymbol tg parent (scope ++ [d.GetName]) d] := rfl

theorem Messages.walkDescriptors_eq {α : Type} (g : α → proto.Message) (nm : α → Str)
    (hnm : ∀ x, (g x).GetName = nm x)
    (tg : Bool) (parent : Option Nat) (scope : Scope) (l : List α) (ms : Messages) :
    l.foldl (fun ms nd => ms.walkDescriptor tg parent scope (g nd)) ms =
      ms.putAll (l.map (fun x => newSymbol tg parent (scope ++ [nm x]) (g x))) := by
  induction l generalizing ms with
  | nil => rfl
  | cons a rest ih =>
    simp only [List.foldl_cons, List.map_cons, Messages.putAll_cons]
    rw [ih, Messages.walkDescriptor_eq, hnm]
    rfl

theorem Messages.walkEnum_eq (ms : Messages) (tg : Bool) (parent : Option Nat)
    (scope : Scope) (d : EnumDescriptorProto) :
    ms.walkEnum tg parent scope d = ms.putAll (symbolsEnum tg parent scope ms.objs.length d) := by
  simp only [Messages.walkEnum, symbolsEnum, Messages.putAll_cons, Scope.With]
  rw [Messages.walkDescriptors_eq (fun v => proto.Message.enumValue v) (fun v => v.Name)
    (fun _ => rfl)]
  rfl

theorem Messages.walkEnums_eq (tg : Bool) (parent : Option Nat) (scope : Scope)
    (l : List EnumDescriptorProto) (ms : Messages) :
    l.foldl (fun ms nd => ms.walkEnum tg parent scope nd) ms =
      ms.putAll (symbolsEnums tg parent scope ms.objs.length l) := by
  induction l generalizing ms with
  | nil => rfl
  | cons a rest ih =>
    simp only [List.foldl_cons, symbolsEnums, Messages.putAll_append]
    rw [ih, Messages.walkEnum_eq, Messages.putAll_length]

mutual
theorem Messages.walkMessage_eq (ms : Messages) (tg : Bool) (parent : Option Nat)
    (scope : Scope) : ∀ d : DescriptorProto,
    ms.walkMessage tg parent scope d =
      ms.putAll (symbolsMessage tg parent scope ms.objs.length d)
  | .mk addr name fields exts nested enums er oo opts => by
    simp only [Messages.walkMessage, symbolsMessage, Messages.putAll_cons, Scope.With,
      Messages.putAll_append]
    rw [Messages.walkMessages_eq _ tg _ _ nested, Messages.walkEnums_eq,
      Messages.walkDescriptors_eq (fun f => proto.Message.field f) (fun f => f.Name)
        (fun _ => rfl)]
    simp only [Messages.putAll_length, Messages.putNew_objs, List.length_append,
      List.length_singleton]
    rfl
theorem Messages.walkMessages_eq (ms : Messages) (tg : Bool) (parent : Option Nat)
    (scope : Scope) : ∀ l : List DescriptorProto,
    Messages.walkMessages ms tg parent scope l =
      ms.putAll (symbolsMessages tg parent scope ms.objs.length l)
  | [] => by simp [Messages.walkMessages, symbolsMessages, Messages.putAll]
  | d :: rest => by
    simp only [Messages.walkMessages, symbolsMessages, Messages.putAll_append]
    rw [Messages.walkMessages_eq _ tg parent scope rest, Messages.walkMessage_eq ms tg parent scope d,
      Messages.putAll_length]
end

theorem GetMessages_file_eq (tg : Bool) (fi : FileDescriptorProto) :
    GetMessages tg (.file fi) = Messages.empty.putAll (symbolsFile tg fi) := by
  simp only [GetMessages, Messages.walkFile, symbolsFile, FileDescriptorProto.pkgScope]
  by_cases h : fi.Package = []
  · simp only [h, ne_eq, not_true_eq_false, if_false, List.nil_append, List.length_nil,
      Nat.zero_add]
    rw [Messages.walkMessages_eq, Messages.walkEnums_eq, Messages.putAll_append,
      Messages.putAll_length]
    simp [Messages.empty]
  · simp only [h, ne_eq, not_false_eq_true, if_true, Messages.putAll_append,
      List.length_singleton]
    rw [Messages.walkMessages_eq, Messages.walkEnums_eq, Messages.putAll_length,
      Messages.putNew_objs]
    simp only [List.length_append, List.length_singleton, List.length_nil, Nat.zero_add]
    rfl

theorem Messages.putNew_ByMessage (ms : Messages) (m : Message) (k : Option Ident) :
    (ms.putNew m).1.ByMessage k =
      if k = some m.Proto.ident then some ms.objs.length else ms.ByMessage k := by
  simp [Messages.putNew, Messages.put, GoMap.set]

theorem Messages.putNew_ByScope (ms : Messages) (m : Message) (k : Str) :
    (ms.putNew m).1.ByScope k =
      if k = Scope.String m.Scope then some ms.objs.length else ms.ByScope k := by
  simp [Messages.putNew, Messages.put, GoMap.set]

theorem Messages.putAll_ByMessage_of_not_mem (ms : Messages) (l : List Message)
    (k : Option Ident) (h : ∀ m ∈ l, k ≠ some m.Proto.ident) :
    (ms.putAll l).ByMessage k = ms.ByMessage k := by
  induction l generalizing ms with
  | nil => rfl
  | cons a rest ih =>
    rw [Messages.putAll_cons, ih _ (fun m hm => h m (List.mem_cons_of_mem _ hm)),
      Messages.putNew_ByMessage, if_neg (h a (by simp))]

theorem Messages.putAll_ByMessage_getElem (ms : Messages) (l : List Message)
    (hnd : (l.map (fun m => m.Proto.ident)).Nodup) (i : Nat) (m : Message)
    (hi : l[i]? = some m) :
    (ms.putAll l).ByMessage (some m.Proto.ident) = some (ms.objs.length + i) := by
  induction l generalizing ms i with
  | nil => simp at hi
  | cons a rest ih =>
    simp only [List.map_cons, List.nodup_cons, List.mem_map, not_exists, not_and] at hnd
    rw [Messages.putAll_cons]
    cases i with
    | zero =>
      simp only [List.getElem?_cons_zero, Option.some.injEq] at hi
      subst hi
      rw [Messages.putAll_ByMessage_of_not_mem, Messages.putNew_ByMessage, if_pos rfl]
      · rfl
      · intro m hm e
        exact hnd.1 m hm (by simpa using e.symm)
    | succ j =>
      simp only [List.getElem?_cons_succ] at hi
      rw [ih _ hnd.2 j hi, Messages.putNew_objs]
      simp; omega

theorem Messages.putNew_KeysAgree (ms : Messages) (m : Message) (h : ms.KeysAgree) :
    (ms.putNew m).1.KeysAgree := by
  intro k a hk
  rw [Messages.putNew_ByMessage] at hk
  rw [Messages.putNew_objs]
  split at hk
  · rename_i hkey
    simp only [Option.some.injEq] at hk
    subst hk
    exact ⟨m, by simp, hkey⟩
  · obtain ⟨m2, h1, h2⟩ := h k a hk
    have hlt : a < ms.objs.length := by
      rcases Nat.lt_or_ge a ms.objs.length with h3 | h3
      · exact h3
      · rw [List.getElem?_eq_none h3] at h1; cases h1
    exact ⟨m2, by rw [List.getElem?_append_left hlt]; exact h1, h2⟩

theorem Messages.putAll_KeysAgree (ms : Messages) (l : List Message) (h : ms.KeysAgree) :
    (ms.putAll l).KeysAgree := by
  induction l generalizing ms with
  | nil => exact h
  | cons a rest ih => exact ih _ (Messages.putNew_KeysAgree ms a h)

theorem GetMessages_file_objs (tg : Bool) (fi : FileDescriptorProto) :
    (GetMessages tg (.file fi)).objs = symbolsFile tg fi := by
  rw [GetMessages_file_eq, Messages.putAll_objs]; rfl

theorem GetMessages_file_KeysAgree (tg : Bool) (fi : FileDescriptorProto) :
    (GetMessages tg (.file fi)).KeysAgree := by
  rw [GetMessages_file_eq]
  apply Messages.putAll_KeysAgree
  intro k a h
  simp [Messages.empty] at h

/-! ### Positions of the Symbols in creation order -/

theorem IsBlock.append_left {g : List Message} {b : Nat} {x y : List Message}
    (h : IsBlock g b (x ++ y)) : IsBlock g b x := by
  obtain ⟨p, q, h1, h2⟩ := h
  exact ⟨p, y ++ q, by simp [h1], h2⟩

theorem IsBlock.append_right {g : List Message} {b : Nat} {x y : List Message}
    (h : IsBlock g b (x ++ y)) : IsBlock g (b + x.length) y := by
  obtain ⟨p, q, h1, h2⟩ := h
  exact ⟨p ++ x, q, by simp [h1], by simp [h2]⟩

theorem IsBlock.tail {g : List Message} {b : Nat} {x : Message} {y : List Message}
    (h : IsBlock g b (x :: y)) : IsBlock g (b + 1) y :=
  IsBlock.append_right (x := [x]) h

theorem IsBlock.head {g : List Message} {b : Nat} {x : Message} {y : List Message}
    (h : IsBlock g b (x :: y)) : g[b]? = some x := by
  obtain ⟨p, q, h1, h2⟩ := h
  subst h1 h2
  rw [List.append_assoc, List.getElem?_append_right (Nat.le_refl _)]
  simp

theorem IsBlock.of_messages {g : List Message} (tg : Bool) (par : Option Nat) (sc : Scope)
    (ds : List DescriptorProto) (d : DescriptorProto) (hd : d ∈ ds) :
    ∀ b, IsBlock g b (symbolsMessages tg par sc b ds) →
      ∃ c, IsBlock g c (symbolsMessage tg par sc c d) := by
  induction ds with
  | nil => simp at hd
  | cons a rest ih =>
    intro b h
    rw [symbolsMessages] at h
    rcases List.mem_cons.1 hd with e | e
    · subst e; exact ⟨b, h.append_left⟩
    · exact ih e _ h.append_right

theorem IsBlock.of_enums {g : List Message} (tg : Bool) (par : Option Nat) (sc : Scope)
    (ds : List EnumDescriptorProto) (d : EnumDescriptorProto) (hd : d ∈ ds) :
    ∀ b, IsBlock g b (symbolsEnums tg par sc b ds) →
      ∃ c, IsBlock g c (symbolsEnum tg par sc c d) := by
  induction ds with
  | nil => simp at hd
  | cons a rest ih =>
    intro b h
    rw [symbolsEnums] at h
    rcases List.mem_cons.1 hd with e | e
    · subst e; exact ⟨b, h.append_left⟩
    · exact ih e _ h.append_right

theorem IsBlock.of_map {α : Type} {g : List Message} (f : α → Message)
    (ds : List α) (d : α) (hd : d ∈ ds) :
    ∀ b, IsBlock g b (ds.map f) → ∃ c, IsBlock g c [f d] := by
  induction ds with
  | nil => simp at hd
  | cons a rest ih =>
    intro b h
    rw [List.map_cons] at h
    rcases List.mem_cons.1 hd with e | e
    · subst e; exact ⟨b, IsBlock.append_left (x := [f d]) h⟩
    · exact ih e _ h.tail

theorem symbolsNode_head (tg : Bool) (par : Option Nat) (sc : Scope) (b : Nat)
    (n : proto.Message) (hn : n.IsWalked = true) :
    ∃ t, symbolsNode tg par sc b n = newSymbol tg par (sc ++ [n.GetName]) n :: t := by
  cases n <;> simp [proto.Message.IsWalked] at hn
  · rename_i d
    cases d
    exact ⟨_, rfl⟩
  · exact ⟨_, rfl⟩
  · exact ⟨_, rfl⟩
  · exact ⟨_, rfl⟩

theorem Child.isWalked {p c : proto.Message} (h : Child p c) : c.IsWalked = true := by
  unfold Child at h
  cases p <;> simp [proto.Message.children] at h
  · rcases h with ⟨d, _, rfl⟩ | ⟨d, _, rfl⟩ <;> rfl
  · rcases h with ⟨d, _, rfl⟩ | ⟨d, _, rfl⟩ | ⟨d, _, rfl⟩ <;> rfl
  · rcases h with ⟨d, _, rfl⟩; rfl

theorem IsBlock.child {g : List Message} (tg : Bool) (par : Option Nat) (sc : Scope) (b : Nat)
    (n c : proto.Message) (h : IsBlock g b (symbolsNode tg par sc b n)) (hc : Child n c)
    (hn : n.IsWalked = true) :
    ∃ b2, IsBlock g b2 (symbolsNode tg (some b) (sc ++ [n.GetName]) b2 c) := by
  unfold Child at hc
  cases n <;> simp [proto.Message.IsWalked] at hn <;> simp [proto.Message.children] at hc
  · rename_i d
    cases d with
    | mk addr name fields exts nested enums er oo opts =>
      simp only [symbolsNode, symbolsMessage] at h
      simp only [DescriptorProto.GetNestedType, DescriptorProto.GetEnumType,
        DescriptorProto.GetField] at hc
      have h1 := h.tail
      rcases hc with ⟨x, hx, rfl⟩ | ⟨x, hx, rfl⟩ | ⟨x, hx, rfl⟩
      · exact IsBlock.of_messages tg _ _ nested x hx _ h1.append_left.append_left
      · exact IsBlock.of_enums tg _ _ enums x hx _ h1.append_left.append_right
      · exact IsBlock.of_map _ fields x hx _ h1.append_right
  · rename_i d
    obtain ⟨x, hx, rfl⟩ := hc
    simp only [symbolsNode, symbolsEnum] at h
    exact IsBlock.of_map _ d.Value x hx _ h.tail

theorem IsBlock.head_node {g : List Message} (tg : Bool) (par : Option Nat) (sc : Scope)
    (b : Nat) (n : proto.Message) (h : IsBlock g b (symbolsNode tg par sc b n))
    (hn : n.IsWalked = true) : g[b]? = some (newSymbol tg par (sc ++ [n.GetName]) n) := by
  obtain ⟨t, ht⟩ := symbolsNode_head tg par sc b n hn
  rw [ht] at h
  exact h.head

theorem IsBlock.along_chain {g : List Message} (tg : Bool) :
    ∀ (chain : List proto.Message) (x : proto.Message) (b : Nat) (par : Option Nat) (sc : Scope),
      IsBlock g b (symbolsNode tg par sc b x) → x.IsWalked = true →
      List.Chain Child x chain → ∀ pre n, chain = pre ++ [n] →
      ∃ (e : proto.Message) (be : Nat) (pare : Option Nat) (bn : Nat),
        (x :: pre).getLast? = some e ∧
        g[be]? = some (newSymbol tg pare (sc ++ (x :: pre).map proto.Message.GetName) e) ∧
        g[bn]? = some (newSymbol tg (some be)
          (sc ++ (x :: pre).map proto.Message.GetName ++ [n.GetName]) n) := by
  intro chain
  induction chain with
  | nil => intro x b par sc _ _ _ pre n h; simp at h
  | cons c rest ih =>
    intro x b par sc hb hx hch pre n hpre
    rw [List.chain_cons] at hch
    obtain ⟨b2, hb2⟩ := IsBlock.child tg par sc b x c hb hch.1 hx
    have hc := Child.isWalked hch.1
    cases pre with
    | nil =>
      simp only [List.nil_append, List.cons.injEq] at hpre
      obtain ⟨rfl, rfl⟩ := hpre
      refine ⟨x, b, par, b2, rfl, ?_, ?_⟩
      · simpa using IsBlock.head_node tg par sc b x hb hx
      · simpa using IsBlock.head_node tg _ _ b2 c hb2 hc
    | cons p pre2 =>
      simp only [List.cons_append, List.cons.injEq] at hpre
      obtain ⟨rfl, rfl⟩ := hpre
      obtain ⟨e, be, pare, bn, h1, h2, h3⟩ :=
        ih c b2 (some b) (sc ++ [x.GetName]) hb2 hc hch.2 pre2 n rfl
      refine ⟨e, be, pare, bn, ?_, ?_, ?_⟩
      · rw [List.getLast?_cons_cons]; exact h1
      · simpa using h2
      · simpa using h3

theorem IsBlock.file_child (tg : Bool) (fi : FileDescriptorProto) (c : proto.Message)
    (hc : Child (.file fi) c) :
    ∃ b, IsBlock (symbolsFile tg fi) b
      (symbolsNode tg (if fi.Package ≠ [] then some 0 else none) fi.pkgScope b c) := by
  have hself : IsBlock (symbolsFile tg fi) 0 (symbolsFile tg fi) := ⟨[], [], by simp, rfl⟩
  unfold Child at hc
  simp only [proto.Message.children, List.mem_append, List.mem_map] at hc
  unfold symbolsFile at hself
  simp only at hself
  rcases hc with ⟨x, hx, rfl⟩ | ⟨x, hx, rfl⟩
  · have := hself.append_left.append_right
    rw [Nat.zero_add] at this
    exact IsBlock.of_messages tg _ _ fi.MessageType x hx _ this
  · have := hself.append_right
    rw [Nat.zero_add, List.length_append] at this
    exact IsBlock.of_enums tg _ _ fi.EnumType x hx _ this

theorem symbolsFile_head (tg : Bool) (fi : FileDescriptorProto) (h : fi.Package ≠ []) :
    (symbolsFile tg fi)[0]? = some (newSymbol tg none fi.pkgScope (.file fi)) := by
  simp [symbolsFile, h, FileDescriptorProto.pkgScope]

theorem GetMessages_file_ByMessage (fi : FileDescriptorProto) (hna : fi.NoAlias) (i : Nat)
    (m : Message) (hi : (symbolsFile true fi)[i]? = some m) :
    (GetMessages true (.file fi)).ByMessage (some m.Proto.ident) = some i := by
  rw [GetMessages_file_eq, Messages.putAll_ByMessage_getElem _ _ hna i m hi]
  simp [Messages.empty]

theorem GetMessages_file_symbol (fi : FileDescriptorProto) (hna : fi.NoAlias)
    (pre : List proto.Message) (n e : proto.Message)
    (hchain : List.Chain Child (.file fi) (pre ++ [n]))
    (he : (proto.Message.file fi :: pre).getLast? = some e) :
    ∃ a m, (GetMessages true (.file fi)).ByMessage (some n.ident) = some a ∧
      (∀ k, (GetMessages true (.file fi)).ByMessage k = some a → k = some n.ident) ∧
      (GetMessages true (.file fi)).objs[a]? = some m ∧
      m.Proto = n ∧
      m.Scope = fi.pkgScope ++ (pre ++ [n]).map proto.Message.GetName ∧
      (m.Parent = none ↔ pre = [] ∧ fi.Package = []) ∧
      (¬ (pre = [] ∧ fi.Package = []) →
        m.Parent = (GetMessages true (.file fi)).ByMessage (some e.ident)) ∧
      ∀ pa, m.Parent = some pa →
        ∃ pm, (GetMessages true (.file fi)).objs[pa]? = some pm ∧ pm.Proto = e ∧
          m.Scope = Scope.With pm.Scope [n.GetName] := by
  have hkeys := GetMessages_file_KeysAgree true fi
  have hobjs := GetMessages_file_objs true fi
  -- positions of the node and of its enclosing node
  have key : ∃ (bn : Nat) (par : Option Nat), (symbolsFile true fi)[bn]? = some (newSymbol true par
        (fi.pkgScope ++ (pre ++ [n]).map proto.Message.GetName) n) ∧
      ((pre = [] ∧ fi.Package = [] ∧ par = none) ∨
        (¬ (pre = [] ∧ fi.Package = []) ∧
        ∃ (be : Nat) (pare : Option Nat) (sce : Scope), par = some be ∧
        (symbolsFile true fi)[be]? = some (newSymbol true pare sce e) ∧
        (GetMessages true (.file fi)).ByMessage (some e.ident) = some be ∧
        fi.pkgScope ++ (pre ++ [n]).map proto.Message.GetName = sce ++ [n.GetName])) := by
    cases pre with
    | nil =>
      simp only [List.nil_append, List.chain_cons, List.Chain.nil, and_true] at hchain
      simp only [List.getLast?_singleton, Option.some.injEq] at he
      subst he
      obtain ⟨b, hb⟩ := IsBlock.file_child true fi n hchain
      have hh := IsBlock.head_node true _ _ b n hb (Child.isWalked hchain)
      by_cases hp : fi.Package = []
      · refine ⟨b, none, ?_, Or.inl ⟨rfl, hp, rfl⟩⟩
        simpa [hp] using hh
      · have h0 := symbolsFile_head true fi hp
        have hB := GetMessages_file_ByMessage fi hna 0 _ h0
        simp only [newSymbol] at hB
        refine ⟨b, some 0, ?_, Or.inr ⟨by simp [hp], 0, none, fi.pkgScope, rfl, h0, hB, by simp⟩⟩
        simpa [hp] using hh
    | cons p pre2 =>
      simp only [List.cons_append, List.chain_cons] at hchain
      obtain ⟨b, hb⟩ := IsBlock.file_child true fi p hchain.1
      obtain ⟨e2, be, pare, bn, h1, h2, h3⟩ :=
        IsBlock.along_chain true _ p b _ _ hb (Child.isWalked hchain.1) hchain.2 pre2 n rfl
      rw [List.getLast?_cons_cons] at he
      rw [h1] at he
      simp only [Option.some.injEq] at he
      subst he
      have hB := GetMessages_file_ByMessage fi hna be _ h2
      simp only [newSymbol] at hB
      refine ⟨bn, some be, ?_, Or.inr ⟨by simp, be, pare, _, rfl, h2, hB, by simp⟩⟩
      simpa using h3
  obtain ⟨bn, par, hbn, hpar⟩ := key
  have hBn := GetMessages_file_ByMessage fi hna bn _ hbn
  simp only [newSymbol] at hBn
  refine ⟨bn, _, hBn, ?_, by rw [hobjs]; exact hbn, rfl, rfl, ?_, ?_, ?_⟩
  · intro k hk
    obtain ⟨m2, h1, h2⟩ := hkeys k bn hk
    rw [hobjs, hbn] at h1
    simp only [Option.some.injEq] at h1
    subst h1
    exact h2
  · simp only [newSymbol]
    rcases hpar with ⟨h1, h2, h3⟩ | ⟨hn, be, pare, sce, h0, h1, h2, h3⟩
    · simp [h1, h2, h3]
    · subst h0
      constructor
      · intro h; cases h
      · intro h; exact absurd h hn
  · intro hn
    simp only [newSymbol]
    rcases hpar with ⟨h1, h2, h3⟩ | ⟨_, be, pare, sce, h0, h1, h2, h3⟩
    · exact absurd ⟨h1, h2⟩ hn
    · rw [h0, h2]
  · intro pa hpa
    simp only [newSymbol] at hpa
    rcases hpar with ⟨h1, h2, h3⟩ | ⟨_, be, pare, sce, h0, h1, h2, h3⟩
    · rw [h3] at hpa; cases hpa
    · rw [h0] at hpa
      simp only [Option.some.injEq] at hpa
      subst hpa
      exact ⟨_, by rw [hobjs]; exact h1, rfl, by simpa [Scope.With, newSymbol] using h3⟩

/-- C10: every message, enum, enum value and field of a file, at any nesting depth, has
exactly one Symbol in `ByMessage`; its Scope is the package segment (if any) followed by
the names on the way down to the node, and its Parent is the Symbol of the enclosing
node (nil at top level of a file without package), whose Scope it extends by its name. -/
theorem GetMessages_symbol_of_node (fi : FileDescriptorProto) (hna : fi.NoAlias)
    (pre : List proto.Message) (n e : proto.Message)
    (hchain : List.Chain Child (.file fi) (pre ++ [n]))
    (he : (proto.Message.file fi :: pre).getLast? = some e) :
    ∃ a m, (GetMessages true (.file fi)).ByMessage (some n.ident) = some a ∧
      (∀ k, (GetMessages true (.file fi)).ByMessage k = some a → k = some n.ident) ∧
      (GetMessages true (.file fi)).objs[a]? = some m ∧
      m.Proto = n ∧
      m.Scope = fi.pkgScope ++ (pre ++ [n]).map proto.Message.GetName ∧
      (m.Parent = none ↔ pre = [] ∧ fi.Package = []) ∧
      (¬ (pre = [] ∧ fi.Package = []) →
        m.Parent = (GetMessages true (.file fi)).ByMessage (some e.ident)) ∧
      ∀ pa, m.Parent = some pa →
        ∃ pm, (GetMessages true (.file fi)).objs[pa]? = some pm ∧ pm.Proto = e ∧
          m.Scope = Scope.With pm.Scope [n.GetName] :=
  GetMessages_file_symbol fi hna pre n e hchain he

/-! ## Path walker -/

theorem SymbolPath.toChain {p : proto.Message} {path : List Int} {chain : List proto.Message}
    (h : SymbolPath p path chain) : List.Chain Child p chain := by
  induction h with
  | done p => exact List.Chain.nil
  | fileMessage d i c rest chain hi h ih =>
    refine List.Chain.cons ?_ ih
    unfold index at hi; split at hi <;> [skip; cases hi]
    simp only [Child, proto.Message.children, List.mem_append, List.mem_map]
    exact Or.inl ⟨c, List.getElem?_mem hi, rfl⟩
  | fileEnum d i c rest chain hi h ih =>
    refine List.Chain.cons ?_ ih
    unfold index at hi; split at hi <;> [skip; cases hi]
    simp only [Child, proto.Message.children, List.mem_append, List.mem_map]
    exact Or.inr ⟨c, List.getElem?_mem hi, rfl⟩
  | messageNested d i c rest chain hi h ih =>
    refine List.Chain.cons ?_ ih
    unfold index at hi; split at hi <;> [skip; cases hi]
    simp only [Child, proto.Message.children, List.mem_append, List.mem_map]
    exact Or.inl (Or.inl ⟨c, List.getElem?_mem hi, rfl⟩)
  | messageEnum d i c rest chain hi h ih =>
    refine List.Chain.cons ?_ ih
    unfold index at hi; split at hi <;> [skip; cases hi]
    simp only [Child, proto.Message.children, List.mem_append, List.mem_map]
    exact Or.inl (Or.inr ⟨c, List.getElem?_mem hi, rfl⟩)
  | messageField d i c rest chain hi h ih =>
    refine List.Chain.cons ?_ ih
    unfold index at hi; split at hi <;> [skip; cases hi]
    simp only [Child, proto.Message.children, List.mem_append, List.mem_map]
    exact Or.inr ⟨c, List.getElem?_mem hi, rfl⟩
  | enumValue d i c rest chain hi h ih =>
    refine List.Chain.cons ?_ ih
    unfold index at hi; split at hi <;> [skip; cases hi]
    simp only [Child, proto.Message.children, List.mem_map]
    exact ⟨c, List.getElem?_mem hi, rfl⟩

theorem GetByLocation.segment_walked (sc : Scope) (p : proto.Message)
    (h : p.IsWalked = true) : GetByLocation.segment sc p = sc ++ [p.GetName] := by
  cases p <;> simp [proto.Message.IsWalked] at h <;> rfl

theorem GetByLocation.loop_next (p q : proto.Message) (id idx : Int) (rest : List Int)
    (sc : Scope) (h : GetByLocation.step p id idx = some (.Next q)) :
    GetByLocation.loop (id :: idx :: rest) p sc =
      GetByLocation.loop rest q (GetByLocation.segment sc p) := by
  simp only [GetByLocation.loop, h]

theorem GetByLocation.loop_continue (p q : proto.Message) (id idx : Int) (rest : List Int)
    (sc : Scope) (h : GetByLocation.step p id idx = some (.Continue q)) :
    GetByLocation.loop (id :: idx :: rest) p sc =
      GetByLocation.loop (idx :: rest) q (GetByLocation.segment sc p) := by
  simp only [GetByLocation.loop, h]

theorem GetByLocation.loop_return (p : proto.Message) (id idx : Int) (rest : List Int)
    (sc : Scope) (h : GetByLocation.step p id idx = some .Return) :
    GetByLocation.loop (id :: idx :: rest) p sc =
      some (GetByLocation.segment sc p, p, id :: idx :: rest) := by
  simp only [GetByLocation.loop, h]

theorem GetByLocation.loop_symbolPath {p : proto.Message} {path : List Int}
    {chain : List proto.Message} (h : SymbolPath p path chain) :
    ∀ sc, ∃ n, (p :: chain).getLast? = some n ∧
      GetByLocation.loop path p sc =
        some (GetByLocation.segment sc p ++ chain.map proto.Message.GetName, n, []) := by
  induction h with
  | done p => intro sc; exact ⟨p, rfl, by simp [GetByLocation.loop]⟩
  | fileMessage d i c rest chain hi h ih =>
    intro sc
    obtain ⟨n, h1, h2⟩ := ih (GetByLocation.segment sc (.file d))
    refine ⟨n, by rw [List.getLast?_cons_cons]; exact h1, ?_⟩
    rw [GetByLocation.loop_next _ (.message c) _ _ _ _ (by simp [GetByLocation.step, hi]), h2,
      GetByLocation.segment_walked _ (.message c) (by rfl)]
    simp
  | fileEnum d i c rest chain hi h ih =>
    intro sc
    obtain ⟨n, h1, h2⟩ := ih (GetByLocation.segment sc (.file d))
    refine ⟨n, by rw [List.getLast?_cons_cons]; exact h1, ?_⟩
    rw [GetByLocation.loop_next _ (.enum c) _ _ _ _ (by simp [GetByLocation.step, hi]), h2,
      GetByLocation.segment_walked _ (.enum c) (by rfl)]
    simp
  | messageNested d i c rest chain hi h ih =>
    intro sc
    obtain ⟨n, h1, h2⟩ := ih (GetByLocation.segment sc (.message d))
    refine ⟨n, by rw [List.getLast?_cons_cons]; exact h1, ?_⟩
    rw [GetByLocation.loop_next _ (.message c) _ _ _ _ (by simp [GetByLocation.step, hi]), h2,
      GetByLocation.segment_walked _ (.message c) (by rfl)]
    simp
  | messageEnum d i c rest chain hi h ih =>
    intro sc
    obtain ⟨n, h1, h2⟩ := ih (GetByLocation.segment sc (.message d))
    refine ⟨n, by rw [List.getLast?_cons_cons]; exact h1, ?_⟩
    rw [GetByLocation.loop_next _ (.enum c) _ _ _ _ (by simp [GetByLocation.step, hi]), h2,
      GetByLocation.segment_walked _ (.enum c) (by rfl)]
    simp
  | messageField d i c rest chain hi h ih =>
    intro sc
    obtain ⟨n, h1, h2⟩ := ih (GetByLocation.segment sc (.message d))
    refine ⟨n, by rw [List.getLast?_cons_cons]; exact h1, ?_⟩
    rw [GetByLocation.loop_next _ (.field c) _ _ _ _ (by simp [GetByLocation.step, hi]), h2,
      GetByLocation.segment_walked _ (.field c) (by rfl)]
    simp
  | enumValue d i c rest chain hi h ih =>
    intro sc
    obtain ⟨n, h1, h2⟩ := ih (GetByLocation.segment sc (.enum d))
    refine ⟨n, by rw [List.getLast?_cons_cons]; exact h1, ?_⟩
    rw [GetByLocation.loop_next _ (.enumValue c) _ _ _ _ (by simp [GetByLocation.step, hi]), h2,
      GetByLocation.segment_walked _ (.enumValue c) (by rfl)]
    simp

theorem index_map {α β : Type} (f : α → β) (l : List α) (idx : Int) :
    index (l.map f) idx = (index l idx).map f := by
  unfold index
  split <;> simp

theorem GetByLocation.step_cases (p : proto.Message) (id idx : Int)
    (hp : ∀ k o, p ≠ .options k o) :
    (∃ l, listAt p id = some l ∧
      GetByLocation.step p id idx = (index l idx).map GetByLocation.Step.Next) ∨
    (listAt p id = none ∧ forwardsToOptions p id = true ∧
      ∃ k o, GetByLocation.step p id idx = some (.Continue (.options k o))) ∨
    (listAt p id = none ∧ forwardsToOptions p id = false ∧
      ((∃ s, GetByLocation.step p id idx = some (.Continue (.sourceCodeInfo s))) ∨
        GetByLocation.step p id idx = some .Return)) := by
  cases p with
  | options k o => exact absurd rfl (hp k o)
  | file d =>
    by_cases h4 : id = 4
    · subst h4; simp [listAt, GetByLocation.step, index_map, Function.comp_def]
    by_cases h5 : id = 5
    · subst h5; simp [listAt, GetByLocation.step, index_map, Function.comp_def]
    by_cases h6 : id = 6
    · subst h6; simp [listAt, GetByLocation.step, index_map, Function.comp_def]
    by_cases h7 : id = 7
    · subst h7; simp [listAt, GetByLocation.step, index_map, Function.comp_def]
    by_cases h8 : id = 8
    · subst h8; simp [listAt, GetByLocation.step, forwardsToOptions]
    by_cases h9 : id = 9
    · subst h9; simp [listAt, GetByLocation.step, forwardsToOptions]
    simp [listAt, GetByLocation.step, forwardsToOptions, h4, h5, h6, h7, h8, h9]
  | message d =>
    by_cases h2 : id = 2
    · subst h2; simp [listAt, GetByLocation.step, index_map, Function.comp_def]
    by_cases h3 : id = 3
    · subst h3; simp [listAt, GetByLocation.step, index_map, Function.comp_def]
    by_cases h4 : id = 4
    · subst h4; simp [listAt, GetByLocation.step, index_map, Function.comp_def]
    by_cases h5 : id = 5
    · subst h5; simp [listAt, GetByLocation.step, index_map, Function.comp_def]
    by_cases h6 : id = 6
    · subst h6; simp [listAt, GetByLocation.step, index_map, Function.comp_def]
    by_cases h8 : id = 8
    · subst h8; simp [listAt, GetByLocation.step, index_map, Function.comp_def]
    by_cases h7 : id = 7
    · subst h7; simp [listAt, GetByLocation.step, forwardsToOptions]
    simp [listAt, GetByLocation.step, forwardsToOptions, h2, h3, h4, h5, h6, h7, h8]
  | enum d =>
    by_cases h2 : id = 2
    · subst h2; simp [listAt, GetByLocation.step, index_map, Function.comp_def]
    by_cases h3 : id = 3
    · subst h3; simp [listAt, GetByLocation.step, forwardsToOptions]
    simp [listAt, GetByLocation.step, forwardsToOptions, h2, h3]
  | service d =>
    by_cases h2 : id = 2
    · subst h2; simp [listAt, GetByLocation.step, index_map, Function.comp_def]
    by_cases h3 : id = 3
    · subst h3; simp [listAt, GetByLocation.step, forwardsToOptions]
    simp [listAt, GetByLocation.step, forwardsToOptions, h2, h3]
  | enumValue d =>
    by_cases h3 : id = 3
    · subst h3; simp [listAt, GetByLocation.step, forwardsToOptions]
    simp [listAt, GetByLocation.step, forwardsToOptions, h3]
  | method d =>
    by_cases h4 : id = 4
    · subst h4; simp [listAt, GetByLocation.step, forwardsToOptions]
    simp [listAt, GetByLocation.step, forwardsToOptions, h4]
  | field d =>
    by_cases h8 : id = 8
    · subst h8; simp [listAt, GetByLocation.step, forwardsToOptions]
    simp [listAt, GetByLocation.step, forwardsToOptions, h8]
  | request d => simp [listAt, GetByLocation.step, forwardsToOptions]
  | oneof d => simp [listAt, GetByLocation.step, forwardsToOptions]
  | extensionRange d => simp [listAt, GetByLocation.step, forwardsToOptions]
  | sourceCodeInfo d => simp [listAt, GetByLocation.step, forwardsToOptions]

theorem GetByLocation.loop_options (k : Kind) (o : Option Nat) :
    ∀ (n : Nat) (loc : List Int), loc.length = n → ∀ sc,
      (GetByLocation.loop loc (.options k o) sc).isSome = optionsInRange loc := by
  intro n
  induction n using Nat.strong_induction_on with
  | _ n ih =>
    intro loc hlen sc
    match loc, hlen with
    | [], _ => rfl
    | [id], _ =>
      by_cases h : id = 999
      · subst h; rfl
      · simp [GetByLocation.loop, GetByLocation.step, optionsInRange, h]
    | id :: idx :: rest, hlen =>
      by_cases h : id = 999
      · subst h
        rw [GetByLocation.loop_next _ (.options k o) _ _ _ _ (by simp [GetByLocation.step])]
        rw [ih rest.length (by simp at hlen; omega) rest rfl]
        simp [optionsInRange]
      · rw [GetByLocation.loop_return _ _ _ _ _ (by simp [GetByLocation.step, h])]
        simp [optionsInRange, h]

theorem GetByLocation.loop_sourceCodeInfo (s : Option SourceCodeInfo) (loc : List Int)
    (sc : Scope) : (GetByLocation.loop loc (.sourceCodeInfo s) sc).isSome = true := by
  match loc with
  | [] => rfl
  | [id] => rfl
  | id :: idx :: rest => rfl

theorem PathInRange_options (k : Kind) (o : Option Nat) (loc : List Int) :
    PathInRange loc (.options k o) = optionsInRange loc := by
  match loc with
  | [] => rfl
  | [id] => rfl
  | id :: idx :: rest => rfl

theorem PathInRange_single (p : proto.Message) (id : Int) (hp : ∀ k o, p ≠ .options k o) :
    PathInRange [id] p = (listAt p id).isNone := by
  cases p <;> first | rfl | exact absurd rfl (hp _ _)

theorem PathInRange_cons_cons (p : proto.Message) (id idx : Int) (rest : List Int)
    (hp : ∀ k o, p ≠ .options k o) :
    PathInRange (id :: idx :: rest) p =
      match listAt p id with
      | some l =>
        match index l idx with
        | some c => PathInRange rest c
        | none => false
      | none => if forwardsToOptions p id then optionsInRange (idx :: rest) else true := by
  cases p <;> first | rfl | exact absurd rfl (hp _ _)

theorem index_neg_one {α : Type} (l : List α) : index l (-1) = none := by
  simp [index]

theorem GetByLocation.loop_isSome :
    ∀ (n : Nat) (loc : List Int), loc.length = n → ∀ p sc,
      (GetByLocation.loop loc p sc).isSome = PathInRange loc p := by
  intro n
  induction n using Nat.strong_induction_on with
  | _ n ih =>
    intro loc hlen p sc
    by_cases hp : ∃ k o, p = .options k o
    · obtain ⟨k, o, rfl⟩ := hp
      rw [PathInRange_options, GetByLocation.loop_options k o _ loc rfl]
    · have hp2 : ∀ k o, p ≠ .options k o := fun k o e => hp ⟨k, o, e⟩
      match loc, hlen with
      | [], _ => rfl
      | [id], _ =>
        rw [PathInRange_single p id hp2]
        rcases GetByLocation.step_cases p id (-1) hp2 with
          ⟨l, h1, h2⟩ | ⟨h1, _, k, o, h2⟩ | ⟨h1, _, ⟨s, h2⟩ | h2⟩
        · rw [index_neg_one] at h2
          simp [GetByLocation.loop, h1, h2]
        · simp [GetByLocation.loop, h1, h2]
        · simp [GetByLocation.loop, h1, h2]
        · simp [GetByLocation.loop, h1, h2]
      | id :: idx :: rest, hlen =>
        rw [PathInRange_cons_cons p id idx rest hp2]
        rcases GetByLocation.step_cases p id idx hp2 with
          ⟨l, h1, h2⟩ | ⟨h1, h3, k, o, h2⟩ | ⟨h1, h3, ⟨s, h2⟩ | h2⟩
        · cases hi : index l idx with
          | none =>
            rw [hi] at h2
            simp [GetByLocation.loop, h1, h2, hi]
          | some c =>
            rw [hi] at h2
            rw [GetByLocation.loop_next _ c _ _ _ _ h2,
              ih rest.length (by simp at hlen; omega) rest rfl]
            simp [h1, hi]
        · rw [GetByLocation.loop_continue _ _ _ _ _ _ h2,
            GetByLocation.loop_options k o _ _ rfl]
          simp [h1, h3]
        · rw [GetByLocation.loop_continue _ _ _ _ _ _ h2,
            GetByLocation.loop_sourceCodeInfo]
          simp [h1, h3]
        · rw [GetByLocation.loop_return _ _ _ _ _ h2]
          simp [h1, h3]

/-- C5 (amended): `GetByLocation` returns its triple exactly on the field-paths whose
list-indexing steps are in range and whose 999 steps at an options container are
followed by one more element; on every other path it panics. -/
theorem GetByLocation_returns_iff_in_range (fi : FileDescriptorProto) (loc : List Int) :
    (GetByLocation fi loc).isSome = PathInRange loc (.file fi) :=
  GetByLocation.loop_isSome loc.length loc rfl (.file fi) []

/-- C5 (as stated) fails: a path that ends after a list field number, a path with an
index beyond the list, and a path ending in 999 at an options container all panic. -/
theorem GetByLocation_not_total :
    (GetByLocation sample.file [4]).isNone = true ∧
    (GetByLocation sample.file [4, 2]).isNone = true ∧
    (GetByLocation sample.file [4, 0, 7, 999]).isNone = true := by
  decide

/-- C10, at the sample file: the nested message `Inner` of `Foo`. -/
theorem GetMessages_symbol_of_node_witness :
    ∃ a m, (GetMessages true (.file sample.file)).ByMessage
        (some (proto.Message.message sample.Inner).ident) = some a ∧
      (∀ k, (GetMessages true (.file sample.file)).ByMessage k = some a →
        k = some (proto.Message.message sample.Inner).ident) ∧
      (GetMessages true (.file sample.file)).objs[a]? = some m ∧
      m.Proto = .message sample.Inner ∧
      m.Scope = sample.file.pkgScope ++
        ([proto.Message.message sample.Foo] ++ [proto.Message.message sample.Inner]).map
          proto.Message.GetName ∧
      (m.Parent = none ↔ [proto.Message.message sample.Foo] = [] ∧ sample.file.Package = []) ∧
      (¬ ([proto.Message.message sample.Foo] = [] ∧ sample.file.Package = []) →
        m.Parent = (GetMessages true (.file sample.file)).ByMessage
          (some (proto.Message.message sample.Foo).ident)) ∧
      ∀ pa, m.Parent = some pa →
        ∃ pm, (GetMessages true (.file sample.file)).objs[pa]? = some pm ∧
          pm.Proto = .message sample.Foo ∧
          m.Scope = Scope.With pm.Scope [(proto.Message.message sample.Inner).GetName] :=
  GetMessages_symbol_of_node sample.file (by unfold FileDescriptorProto.NoAlias; decide)
    [.message sample.Foo]
    (.message sample.Inner) (.message sample.Foo)
    (List.Chain.cons (List.Mem.head _) (List.Chain.cons (List.Mem.head _) List.Chain.nil)) rfl

theorem GetByLocation_file_symbol (fi : FileDescriptorProto) (path : List Int)
    (pre : List proto.Message) (n : proto.Message)
    (hp : SymbolPath (.file fi) path (pre ++ [n])) :
    GetByLocation fi path =
      some (fi.pkgScope ++ (pre ++ [n]).map proto.Message.GetName, n, []) := by
  obtain ⟨n2, h1, h2⟩ := GetByLocation.loop_symbolPath hp []
  have hn : n2 = n := by
    rw [← List.cons_append, List.getLast?_concat] at h1
    exact (Option.some.inj h1).symm
  subst hn
  unfold GetByLocation
  rw [h2]
  simp only [GetByLocation.segment, FileDescriptorProto.pkgScope, Scope.With]
  split <;> simp

/-- C2: on a field-path made only of in-range steps to messages, enums, fields and enum
values, `GetByLocation` returns the addressed node, an empty trailing path, and the
Scope of the Symbol that `GetMessages` holds for that node: the package segment, if
any, then the names from the top-level node down; the lookup key `sc.String()` is the
string of that Symbol's Scope. -/
theorem GetByLocation_scope_of_symbol (fi : FileDescriptorProto) (hna : fi.NoAlias)
    (path : List Int) (pre : List proto.Message) (n : proto.Message)
    (hp : SymbolPath (.file fi) path (pre ++ [n])) :
    ∃ sc, GetByLocation fi path = some (sc, n, []) ∧
      sc = fi.pkgScope ++ (pre ++ [n]).map proto.Message.GetName ∧
      ∃ a m, (GetMessages true (.file fi)).ByMessage (some n.ident) = some a ∧
        (GetMessages true (.file fi)).objs[a]? = some m ∧
        m.Proto = n ∧ m.Scope = sc ∧ Scope.String sc = Scope.String m.Scope := by
  refine ⟨_, GetByLocation_file_symbol fi path pre n hp, rfl, ?_⟩
  obtain ⟨e, he⟩ : ∃ e, (proto.Message.file fi :: pre).getLast? = some e := by
    cases h : (proto.Message.file fi :: pre).getLast? with
    | none => simp at h
    | some e => exact ⟨e, rfl⟩
  obtain ⟨a, m, h1, _, h3, h4, h5, _⟩ :=
    GetMessages_file_symbol fi hna pre n e (SymbolPath.toChain hp) he
  exact ⟨a, m, h1, h3, h4, h5, by rw [h5]⟩

/-- C2, at the sample file: the path `[4, 0, 4, 0, 2, 0]` to value `X` of enum `E` of
message `Foo`. -/
theorem GetByLocation_scope_of_symbol_witness :
    ∃ sc, GetByLocation sample.file [4, 0, 4, 0, 2, 0] =
        some (sc, .enumValue ⟨5, "X".toList, none⟩, []) ∧
      sc = sample.file.pkgScope ++
        ([proto.Message.message sample.Foo,
          proto.Message.enum ⟨4, "E".toList, [⟨5, "X".toList, none⟩], none⟩] ++
          [proto.Message.enumValue ⟨5, "X".toList, none⟩]).map proto.Message.GetName ∧
      ∃ a m, (GetMessages true (.file sample.file)).ByMessage
          (some (proto.Message.enumValue ⟨5, "X".toList, none⟩).ident) = some a ∧
        (GetMessages true (.file sample.file)).objs[a]? = some m ∧
        m.Proto = .enumValue ⟨5, "X".toList, none⟩ ∧ m.Scope = sc ∧
        Scope.String sc = Scope.String m.Scope :=
  GetByLocation_scope_of_symbol sample.file (by unfold FileDescriptorProto.NoAlias; decide)
    [4, 0, 4, 0, 2, 0]
    [.message sample.Foo, .enum ⟨4, "E".toList, [⟨5, "X".toList, none⟩], none⟩]
    (.enumValue ⟨5, "X".toList, none⟩)
    (SymbolPath.fileMessage _ 0 sample.Foo _ _ rfl
      (SymbolPath.messageEnum _ 0 ⟨4, "E".toList, [⟨5, "X".toList, none⟩], none⟩ _ _ rfl
        (SymbolPath.enumValue _ 0 ⟨5, "X".toList, none⟩ _ _ rfl (SymbolPath.done _))))

/-! ## Scope resolution -/

theorem firstResolved_some {α : Type} (f : α → Option proto.Message) (l : List α)
    (x : proto.Message) (h : firstResolved f l = some x) : ∃ a ∈ l, f a = some x := by
  induction l with
  | nil => simp [firstResolved] at h
  | cons a rest ih =>
    simp only [firstResolved] at h
    cases hfa : f a with
    | some y =>
      rw [hfa] at h
      simp only [Option.some.injEq] at h
      exact ⟨a, by simp, by rw [hfa, h]⟩
    | none =>
      rw [hfa] at h
      obtain ⟨b, hb, hfb⟩ := ih h
      exact ⟨b, List.mem_cons_of_mem _ hb, hfb⟩

theorem firstResolved_none {α : Type} (f : α → Option proto.Message) (l : List α)
    (h : ∀ b ∈ l, f b = none) : firstResolved f l = none := by
  induction l with
  | nil => rfl
  | cons a rest ih =>
    simp only [firstResolved, h a (by simp)]
    exact ih (fun b hb => h b (List.mem_cons_of_mem _ hb))

theorem firstResolved_cons_none {α : Type} (f : α → Option proto.Message) (a : α)
    (l : List α) (h : f a = none) : firstResolved f (a :: l) = firstResolved f l := by
  simp only [firstResolved, h]

theorem firstResolved_cons_some {α : Type} (f : α → Option proto.Message) (a : α)
    (l : List α) (x : proto.Message) (h : f a = some x) :
    firstResolved f (a :: l) = some x := by
  simp only [firstResolved, h]

theorem Scope.ResolveMessages_eq (s : Scope) (ds : List DescriptorProto) :
    Scope.ResolveMessages s ds = firstResolved (Scope.ResolveMessage s) ds := by
  induction ds with
  | nil => simp [Scope.ResolveMessages, firstResolved]
  | cons d rest ih =>
    simp only [Scope.ResolveMessages, firstResolved, ih]

theorem Scope.ResolveField_some (s0 : Str) (r : Scope) (f : FieldDescriptorProto)
    (x : proto.Message) (h : Scope.ResolveField (s0 :: r) f = some x) :
    f.Name = s0 ∧ r = [] ∧ x = .field f := by
  simp only [Scope.ResolveField] at h
  split at h
  · cases h
  · rename_i hn
    split at h
    · rename_i hr
      simp only [Option.some.injEq] at h
      exact ⟨by simpa using hn, List.length_eq_zero.1 hr, h.symm⟩
    · cases h

theorem Scope.ResolveEnumValue_some (s0 : Str) (r : Scope) (f : EnumValueDescriptorProto)
    (x : proto.Message) (h : Scope.ResolveEnumValue (s0 :: r) f = some x) :
    f.Name = s0 ∧ r = [] ∧ x = .enumValue f := by
  simp only [Scope.ResolveEnumValue] at h
  split at h
  · cases h
  · rename_i hn
    split at h
    · rename_i hr
      simp only [Option.some.injEq] at h
      exact ⟨by simpa using hn, List.length_eq_zero.1 hr, h.symm⟩
    · cases h

theorem Scope.ResolveEnum_some (s0 : Str) (r : Scope) (e : EnumDescriptorProto)
    (x : proto.Message) (h : Scope.ResolveEnum (s0 :: r) e = some x) : e.Name = s0 := by
  simp only [Scope.ResolveEnum] at h
  split at h
  · cases h
  · rename_i hn; simpa using hn

theorem Scope.ResolveMessage_some (s0 : Str) (r : Scope) (d : DescriptorProto)
    (x : proto.Message) (h : Scope.ResolveMessage (s0 :: r) d = some x) : d.GetName = s0 := by
  cases d with
  | mk addr name fields exts nested enums er oo opts =>
    simp only [Scope.ResolveMessage] at h
    split at h
    · cases h
    · rename_i hn; simpa [DescriptorProto.GetName] using hn

theorem Scope.ResolveField_self (f : FieldDescriptorProto) :
    Scope.ResolveField [f.Name] f = some (.field f) := by
  simp [Scope.ResolveField]

theorem Scope.ResolveEnumValue_self (f : EnumValueDescriptorProto) :
    Scope.ResolveEnumValue [f.Name] f = some (.enumValue f) := by
  simp [Scope.ResolveEnumValue]

/-- Among elements with pairwise distinct names, the loop over the list resolves a
one-segment scope to the element of that name. -/
theorem firstResolved_of_nodup {α : Type} (f : Scope → α → Option proto.Message)
    (nm : α → Str) (g : α → proto.Message)
    (hself : ∀ a, f [nm a] a = some (g a))
    (hsome : ∀ s0 r a x, f (s0 :: r) a = some x → nm a = s0)
    (l : List α) (hnd : (l.map nm).Nodup) (a : α) (ha : a ∈ l) :
    firstResolved (f [nm a]) l = some (g a) := by
  induction l with
  | nil => simp at ha
  | cons b rest ih =>
    simp only [List.map_cons, List.nodup_cons, List.mem_map, not_exists, not_and] at hnd
    rcases List.mem_cons.1 ha with e | e
    · subst e
      exact firstResolved_cons_some _ _ _ _ (hself a)
    · have hb : f [nm a] b = none := by
        cases hfb : f [nm a] b with
        | none => rfl
        | some x => exact absurd (hsome _ _ _ _ hfb).symm (hnd.1 a e)
      rw [firstResolved_cons_none _ _ _ hb]
      exact ih hnd.2 e

theorem nodup_names_of_scopes {α : Type} (p : Scope) (nm : α → Str) (l : List α)
    (h : (l.map (fun a => p ++ [nm a])).Nodup) : (l.map nm).Nodup := by
  have : l.map (fun a => p ++ [nm a]) = (l.map nm).map (fun n => p ++ [n]) := by
    simp [List.map_map, Function.comp_def]
  rw [this] at h
  exact List.Nodup.of_map _ h

/-- Symbols of a list of siblings: the first Symbol of each sibling carries the
sibling's name below the common scope. -/
theorem symbols_list_head_mem {α : Type} (sc : Scope) (nm : α → Str)
    (syms : Nat → α → List Message) (symsList : Nat → List α → List Message)
    (hcons : ∀ base a rest, symsList base (a :: rest) =
      syms base a ++ symsList (base + (syms base a).length) rest)
    (hhead : ∀ base a, ∃ m ∈ syms base a, m.Scope = sc ++ [nm a])
    (l : List α) (a : α) (ha : a ∈ l) :
    ∀ base, ∃ m ∈ symsList base l, m.Scope = sc ++ [nm a] := by
  induction l with
  | nil => simp at ha
  | cons b rest ih =>
    intro base
    rw [hcons]
    rcases List.mem_cons.1 ha with e | e
    · subst e
      obtain ⟨m, hm, hs⟩ := hhead base a
      exact ⟨m, List.mem_append_left _ hm, hs⟩
    · obtain ⟨m, hm, hs⟩ := ih e (base + (syms base b).length)
      exact ⟨m, List.mem_append_right _ hm, hs⟩

/-- Symbols of a list of siblings resolve through the loop over the list, provided each
sibling resolves its own Symbols and no two Symbols share a Scope. -/
theorem symbols_list_resolve {α : Type} (sc : Scope) (nm : α → Str)
    (res : Scope → α → Option proto.Message)
    (syms : Nat → α → List Message) (symsList : Nat → List α → List Message)
    (hnil : ∀ base, symsList base [] = [])
    (hcons : ∀ base a rest, symsList base (a :: rest) =
      syms base a ++ symsList (base + (syms base a).length) rest)
    (hhead : ∀ base a, ∃ m ∈ syms base a, m.Scope = sc ++ [nm a])
    (hsome : ∀ s0 r a x, res (s0 :: r) a = some x → nm a = s0)
    (l : List α)
    (helem : ∀ base a, a ∈ l → ((syms base a).map Message.Scope).Nodup →
      ∀ m ∈ syms base a, ∃ r, m.Scope = sc ++ nm a :: r ∧ res (nm a :: r) a = some m.Proto) :
    ∀ base, ((symsList base l).map Message.Scope).Nodup →
      ∀ m ∈ symsList base l, ∃ s0 r, m.Scope = sc ++ s0 :: r ∧
        firstResolved (res (s0 :: r)) l = some m.Proto := by
  induction l with
  | nil => intro base _ m hm; rw [hnil] at hm; simp at hm
  | cons a rest ih =>
    intro base hnd m hm
    rw [hcons] at hm hnd
    rw [List.map_append, List.nodup_append] at hnd
    obtain ⟨hnd1, hnd2, hdis⟩ := hnd
    rcases List.mem_append.1 hm with h | h
    · obtain ⟨r, h1, h2⟩ := helem base a (by simp) hnd1 m h
      exact ⟨nm a, r, h1, firstResolved_cons_some _ _ _ _ h2⟩
    · obtain ⟨s0, r, h1, h2⟩ :=
        ih (fun b x hx => helem b x (List.mem_cons_of_mem _ hx)) _ hnd2 m h
      refine ⟨s0, r, h1, ?_⟩
      have hnone : res (s0 :: r) a = none := by
        cases hra : res (s0 :: r) a with
        | none => rfl
        | some x =>
          exfalso
          have hna := hsome _ _ _ _ hra
          obtain ⟨b, hb, hrb⟩ := firstResolved_some _ _ _ h2
          have hnb := hsome _ _ _ _ hrb
          obtain ⟨m1, hm1, hs1⟩ := hhead base a
          obtain ⟨m2, hm2, hs2⟩ := symbols_list_head_mem sc nm syms symsList hcons hhead
            rest b hb (base + (syms base a).length)
          refine hdis (List.mem_map_of_mem _ hm1) ?_
          rw [hs1, hna, ← hnb, ← hs2]
          exact List.mem_map_of_mem _ hm2
      rw [firstResolved_cons_none _ _ _ hnone]
      exact h2

theorem symbolsEnum_head_mem (tg : Bool) (par : Option Nat) (sc : Scope) (base : Nat)
    (e : EnumDescriptorProto) :
    ∃ m ∈ symbolsEnum tg par sc base e, m.Scope = sc ++ [e.Name] :=
  ⟨_, List.mem_cons_self _ _, rfl⟩

theorem symbolsMessage_head_mem (tg : Bool) (par : Option Nat) (sc : Scope) (base : Nat)
    (d : DescriptorProto) :
    ∃ m ∈ symbolsMessage tg par sc base d, m.Scope = sc ++ [d.GetName] := by
  cases d with
  | mk addr name fields exts nested enums er oo opts =>
    exact ⟨_, by rw [symbolsMessage]; exact List.mem_cons_self _ _, rfl⟩

theorem symbolsEnum_resolve (tg : Bool) (par : Option Nat) (sc : Scope) (base : Nat)
    (e : EnumDescriptorProto)
    (hnd : ((symbolsEnum tg par sc base e).map Message.Scope).Nodup) :
    ∀ m ∈ symbolsEnum tg par sc base e, ∃ r, m.Scope = sc ++ e.Name :: r ∧
      Scope.ResolveEnum (e.Name :: r) e = some m.Proto := by
  intro m hm
  simp only [symbolsEnum, List.mem_cons, List.mem_map] at hm
  rcases hm with rfl | ⟨v, hv, rfl⟩
  · exact ⟨[], by simp [newSymbol], by simp [Scope.ResolveEnum, newSymbol]⟩
  · refine ⟨[v.Name], by simp [newSymbol], ?_⟩
    simp only [symbolsEnum, List.map_cons, List.nodup_cons, List.map_map] at hnd
    have hn : (e.Value.map (fun v => v.Name)).Nodup :=
      nodup_names_of_scopes (sc ++ [e.Name]) (fun v => v.Name) e.Value
        (by simpa [Function.comp_def, newSymbol] using hnd.2)
    have := firstResolved_of_nodup Scope.ResolveEnumValue (fun v => v.Name)
      proto.Message.enumValue Scope.ResolveEnumValue_self
      (fun s0 r a x h => (Scope.ResolveEnumValue_some s0 r a x h).1) e.Value hn v hv
    simp [Scope.ResolveEnum, newSymbol, this]

theorem symbolsEnums_resolve (tg : Bool) (par : Option Nat) (sc : Scope)
    (es : List EnumDescriptorProto) (base : Nat)
    (hnd : ((symbolsEnums tg par sc base es).map Message.Scope).Nodup) :
    ∀ m ∈ symbolsEnums tg par sc base es, ∃ s0 r, m.Scope = sc ++ s0 :: r ∧
      firstResolved (Scope.ResolveEnum (s0 :: r)) es = some m.Proto :=
  symbols_list_resolve sc (fun e => e.Name) Scope.ResolveEnum
    (symbolsEnum tg par sc) (symbolsEnums tg par sc)
    (fun _ => rfl) (fun _ _ _ => rfl) (symbolsEnum_head_mem tg par sc)
    Scope.ResolveEnum_some es
    (fun b a _ h => symbolsEnum_resolve tg par sc b a h) base hnd

/-- Three groups of Symbols (`l1`, `l2`, `l3`) listed after a first one, without a
repeated Scope: Symbols of different groups have different Scopes. -/
theorem nodup_groups (x : Message) (l1 l2 l3 : List Message)
    (h : ((x :: (l1 ++ l2 ++ l3)).map Message.Scope).Nodup) :
    (l1.map Message.Scope).Nodup ∧ (l2.map Message.Scope).Nodup ∧
    (l3.map Message.Scope).Nodup ∧
    (∀ a ∈ l1, ∀ b ∈ l2, a.Scope ≠ b.Scope) ∧
    (∀ a ∈ l1, ∀ b ∈ l3, a.Scope ≠ b.Scope) ∧
    (∀ a ∈ l2, ∀ b ∈ l3, a.Scope ≠ b.Scope) := by
  simp only [List.map_cons, List.map_append, List.nodup_cons, List.nodup_append] at h
  obtain ⟨_, ⟨h1, h2, h12⟩, h3, h123⟩ := h
  refine ⟨h1, h2, h3, ?_, ?_, ?_⟩
  · intro a ha b hb e
    exact h12 (List.mem_map_of_mem _ ha) (by rw [e]; exact List.mem_map_of_mem _ hb)
  · intro a ha b hb e
    exact h123 (List.mem_append_left _ (List.mem_map_of_mem _ ha))
      (by rw [e]; exact List.mem_map_of_mem _ hb)
  · intro a ha b hb e
    exact h123 (List.mem_append_right _ (List.mem_map_of_mem _ ha))
      (by rw [e]; exact List.mem_map_of_mem _ hb)

theorem symbolsMessage_resolve (tg : Bool) :
    ∀ (d : DescriptorProto) (par : Option Nat) (sc : Scope) (base : Nat),
      ((symbolsMessage tg par sc base d).map Message.Scope).Nodup →
      ∀ m ∈ symbolsMessage tg par sc base d, ∃ r, m.Scope = sc ++ d.GetName :: r ∧
        Scope.ResolveMessage (d.GetName :: r) d = some m.Proto
  | .mk addr name fields exts nested enums er oo opts, par, sc, base, hnd, m, hm => by
    have ihn := symbols_list_resolve (sc ++ [name]) DescriptorProto.GetName
      Scope.ResolveMessage
      (symbolsMessage tg (some base) (sc ++ [name]))
      (symbolsMessages tg (some base) (sc ++ [name]))
      (fun _ => by rw [symbolsMessages]) (fun _ _ _ => by rw [symbolsMessages])
      (symbolsMessage_head_mem tg (some base) (sc ++ [name]))
      Scope.ResolveMessage_some nested
      (fun b a _ h => symbolsMessage_resolve tg a (some base) (sc ++ [name]) b h)
    rw [symbolsMessage] at hm hnd
    obtain ⟨hn1, hn2, hn3, h12, h13, h23⟩ := nodup_groups _ _ _ _ hnd
    have hfield : ∀ f ∈ fields,
        newSymbol tg (some base) (sc ++ [name] ++ [f.Name]) (.field f) ∈
          fields.map (fun f => newSymbol tg (some base) (sc ++ [name] ++ [f.Name])
            (.field f)) :=
      fun f hf => List.mem_map.2 ⟨f, hf, rfl⟩
    simp only [DescriptorProto.GetName]
    rcases List.mem_cons.1 hm with rfl | hm
    · exact ⟨[], by simp [newSymbol], by simp [Scope.ResolveMessage, newSymbol]⟩
    rcases List.mem_append.1 hm with hm | hm
    rcases List.mem_append.1 hm with hm | hm
    · -- a Symbol of a nested message
      obtain ⟨s0, r, h1, h2⟩ := ihn _ hn1 m hm
      refine ⟨s0 :: r, by simp [h1], ?_⟩
      have hf : firstResolved (Scope.ResolveField (s0 :: r)) fields = none := by
        cases hfr : firstResolved (Scope.ResolveField (s0 :: r)) fields with
        | none => rfl
        | some x =>
          exfalso
          obtain ⟨f, hf, hrf⟩ := firstResolved_some _ _ _ hfr
          obtain ⟨e1, e2, _⟩ := Scope.ResolveField_some _ _ _ _ hrf
          exact h13 m hm _ (hfield f hf) (by simp [h1, e1, e2, newSymbol])
      simp only [Scope.ResolveMessage, ne_eq, not_true_eq_false, if_false, List.length_cons,
        Nat.add_one_ne_zero, hf, Scope.ResolveMessages_eq, h2]
    · -- a Symbol of an enum
      obtain ⟨s0, r, h1, h2⟩ := symbolsEnums_resolve tg _ _ enums _ hn2 m hm
      refine ⟨s0 :: r, by simp [h1], ?_⟩
      have hf : firstResolved (Scope.ResolveField (s0 :: r)) fields = none := by
        cases hfr : firstResolved (Scope.ResolveField (s0 :: r)) fields with
        | none => rfl
        | some x =>
          exfalso
          obtain ⟨f, hf, hrf⟩ := firstResolved_some _ _ _ hfr
          obtain ⟨e1, e2, _⟩ := Scope.ResolveField_some _ _ _ _ hrf
          exact h23 m hm _ (hfield f hf) (by simp [h1, e1, e2, newSymbol])
      have hn : firstResolved (Scope.ResolveMessage (s0 :: r)) nested = none := by
        cases hfr : firstResolved (Scope.ResolveMessage (s0 :: r)) nested with
        | none => rfl
        | some x =>
          exfalso
          obtain ⟨d2, hd2, hrd⟩ := firstResolved_some _ _ _ hfr
          have e1 := Scope.ResolveMessage_some _ _ _ _ hrd
          obtain ⟨e, he, hre⟩ := firstResolved_some _ _ _ h2
          have e2 := Scope.ResolveEnum_some _ _ _ _ hre
          obtain ⟨m1, hm1, hs1⟩ := symbols_list_head_mem (sc ++ [name]) DescriptorProto.GetName
            (symbolsMessage tg (some base) (sc ++ [name]))
            (symbolsMessages tg (some base) (sc ++ [name]))
            (fun _ _ _ => by rw [symbolsMessages])
            (symbolsMessage_head_mem tg (some base) (sc ++ [name])) nested d2 hd2 (base + 1)
          obtain ⟨m2, hm2, hs2⟩ := symbols_list_head_mem (sc ++ [name])
            (fun e : EnumDescriptorProto => e.Name)
            (symbolsEnum tg (some base) (sc ++ [name]))
            (symbolsEnums tg (some base) (sc ++ [name]))
            (fun _ _ _ => rfl)
            (symbolsEnum_head_mem tg (some base) (sc ++ [name])) enums e he
            (base + 1 + (symbolsMessages tg (some base) (sc ++ [name]) (base + 1) nested).length)
          exact h12 m1 hm1 m2 hm2 (by rw [hs1, hs2, e1, e2])
      simp only [Scope.ResolveMessage, ne_eq, not_true_eq_false, if_false, List.length_cons,
        Nat.add_one_ne_zero, hf, Scope.ResolveMessages_eq, hn, h2]
    · -- a Symbol of a field
      obtain ⟨f, hf, rfl⟩ := List.mem_map.1 hm
      refine ⟨[f.Name], by simp [newSymbol], ?_⟩
      have hnn : (fields.map (fun f => f.Name)).Nodup :=
        nodup_names_of_scopes (sc ++ [name]) (fun f => f.Name) fields
          (by simpa [Function.comp_def, newSymbol, List.map_map] using hn3)
      have := firstResolved_of_nodup Scope.ResolveField (fun f => f.Name)
        proto.Message.field Scope.ResolveField_self
        (fun s0 r a x h => (Scope.ResolveField_some s0 r a x h).1) fields hnn f hf
      simp [Scope.ResolveMessage, newSymbol, this]
termination_by d => sizeOf d
decreasing_by
  simp_wf
  have := List.sizeOf_lt_of_mem ‹_ ∈ nested›
  omega

theorem symbolsFile_resolve (tg : Bool) (fi : FileDescriptorProto)
    (hnd : ((symbolsFile tg fi).map Message.Scope).Nodup) :
    ∀ m ∈ symbolsFile tg fi, Scope.ResolveFile m.Scope fi = some m.Proto := by
  intro m hm
  -- resolution below the package segment
  have hbody : ∀ s0 r, Scope.ResolveFile (fi.pkgScope ++ s0 :: r) fi =
      Scope.ResolveFile.body (s0 :: r) fi := by
    intro s0 r
    by_cases hp : fi.Package = []
    · simp [FileDescriptorProto.pkgScope, hp, Scope.ResolveFile]
    · simp [FileDescriptorProto.pkgScope, hp, Scope.ResolveFile]
  unfold symbolsFile at hm hnd
  simp only at hm hnd
  rw [List.map_append, List.nodup_append, List.map_append, List.nodup_append] at hnd
  obtain ⟨⟨_, hn1, _⟩, hn2, hdis⟩ := hnd
  rcases List.mem_append.1 hm with hm | hm
  rcases List.mem_append.1 hm with hm | hm
  · by_cases hp : fi.Package = []
    · simp [hp] at hm
    · simp only [hp, ne_eq, not_false_eq_true, if_true, List.mem_singleton] at hm
      subst hm
      simp [newSymbol, Scope.ResolveFile, Scope.ResolveFile.body, hp]
  · obtain ⟨s0, r, h1, h2⟩ := symbols_list_resolve fi.pkgScope DescriptorProto.GetName
      Scope.ResolveMessage (symbolsMessage tg _ fi.pkgScope) (symbolsMessages tg _ fi.pkgScope)
      (fun _ => by rw [symbolsMessages]) (fun _ _ _ => by rw [symbolsMessages])
      (symbolsMessage_head_mem tg _ fi.pkgScope) Scope.ResolveMessage_some fi.MessageType
      (fun b a _ h => symbolsMessage_resolve tg a _ fi.pkgScope b h) _ hn1 m hm
    rw [h1, hbody]
    simp only [Scope.ResolveFile.body, List.length_cons, Nat.add_one_ne_zero, if_false,
      Scope.ResolveMessages_eq, h2]
  · obtain ⟨s0, r, h1, h2⟩ := symbolsEnums_resolve tg _ _ fi.EnumType _ hn2 m hm
    rw [h1, hbody]
    have hn : firstResolved (Scope.ResolveMessage (s0 :: r)) fi.MessageType = none := by
      cases hfr : firstResolved (Scope.ResolveMessage (s0 :: r)) fi.MessageType with
      | none => rfl
      | some x =>
        exfalso
        obtain ⟨d2, hd2, hrd⟩ := firstResolved_some _ _ _ hfr
        have e1 := Scope.ResolveMessage_some _ _ _ _ hrd
        obtain ⟨e, he, hre⟩ := firstResolved_some _ _ _ h2
        have e2 := Scope.ResolveEnum_some _ _ _ _ hre
        obtain ⟨m1, hm1, hs1⟩ := symbols_list_head_mem fi.pkgScope DescriptorProto.GetName
          (symbolsMessage tg _ fi.pkgScope) (symbolsMessages tg _ fi.pkgScope)
          (fun _ _ _ => by rw [symbolsMessages])
          (symbolsMessage_head_mem tg _ fi.pkgScope) fi.MessageType d2 hd2 _
        obtain ⟨m2, hm2, hs2⟩ := symbols_list_head_mem fi.pkgScope
          (fun e : EnumDescriptorProto => e.Name)
          (symbolsEnum tg _ fi.pkgScope) (symbolsEnums tg _ fi.pkgScope)
          (fun _ _ _ => rfl) (symbolsEnum_head_mem tg _ fi.pkgScope) fi.EnumType e he _
        refine hdis (List.mem_append_right _ (List.mem_map_of_mem _ hm1)) ?_
        rw [hs1, e1, ← e2, ← hs2]
        exact List.mem_map_of_mem _ hm2
    simp only [Scope.ResolveFile.body, List.length_cons, Nat.add_one_ne_zero, if_false,
      Scope.ResolveMessages_eq, hn, h2]

/-- C1 (amended): when no two Symbols created by `GetMessages(true, fi)` have the same
Scope, every created Symbol, and so every value stored in `ByMessage`, resolves through
its own Scope to its own descriptor node. -/
theorem Resolve_scope_of_symbol (fi : FileDescriptorProto)
    (hu : ((GetMessages true (.file fi)).objs.map Message.Scope).Nodup) :
    (∀ m ∈ (GetMessages true (.file fi)).objs,
      Scope.Resolve m.Scope (.file fi) = some m.Proto) ∧
    ∀ k a, (GetMessages true (.file fi)).ByMessage k = some a →
      ∃ m, (GetMessages true (.file fi)).objs[a]? = some m ∧
        Scope.Resolve m.Scope (.file fi) = some m.Proto := by
  rw [GetMessages_file_objs] at hu
  have h1 : ∀ m ∈ (GetMessages true (.file fi)).objs,
      Scope.Resolve m.Scope (.file fi) = some m.Proto := by
    intro m hm
    rw [GetMessages_file_objs] at hm
    exact symbolsFile_resolve true fi hu m hm
  refine ⟨h1, ?_⟩
  intro k a hk
  obtain ⟨m, hm, _⟩ := GetMessages_file_KeysAgree true fi k a hk
  exact ⟨m, hm, h1 m (List.getElem?_mem hm)⟩

/-- C1 (amended), at the sample file. -/
theorem Resolve_scope_of_symbol_witness :
    (∀ m ∈ (GetMessages true (.file sample.file)).objs,
      Scope.Resolve m.Scope (.file sample.file) = some m.Proto) ∧
    ∀ k a, (GetMessages true (.file sample.file)).ByMessage k = some a →
      ∃ m, (GetMessages true (.file sample.file)).objs[a]? = some m ∧
        Scope.Resolve m.Scope (.file sample.file) = some m.Proto :=
  Resolve_scope_of_symbol sample.file (by decide)

/-- C1 (as stated) fails: in a file with two top-level messages named `A`, the Symbol
stored in `ByMessage` for the second message (pointer 1, descriptor at address 2) has a
Scope that resolves to the first message (descriptor at address 1). -/
theorem Resolve_scope_other_node :
    (GetMessages true (.file sample.dup)).ByMessage (some ⟨.DescriptorProto, some 2⟩) = some 1 ∧
    (GetMessages true (.file sample.dup)).objs[1]?.map
        (fun m => ((Scope.Resolve m.Scope (.file sample.dup)).map proto.Message.ident,
          m.Proto.ident)) =
      some (some ⟨.DescriptorProto, some 1⟩, ⟨.DescriptorProto, some 2⟩) := by
  decide

/-! ## Reference resolver -/

theorem firstResolved_of_unique {α : Type} (f : α → Option proto.Message) (l : List α)
    (x : proto.Message) (a : α) (ha : a ∈ l) (hfa : f a = some x)
    (h : ∀ b ∈ l, f b = none ∨ f b = some x) : firstResolved f l = some x := by
  induction l with
  | nil => simp at ha
  | cons b rest ih =>
    rcases h b (by simp) with hb | hb
    · rw [firstResolved_cons_none _ _ _ hb]
      rcases List.mem_cons.1 ha with e | e
      · subst e; rw [hfa] at hb; cases hb
      · exact ih e (fun c hc => h c (List.mem_cons_of_mem _ hc))
    · exact firstResolved_cons_some _ _ _ _ hb

theorem strings.Split_of_not_mem (s : Str) (sep : Char) (h : sep ∉ s) :
    strings.Split s sep = [s] := by
  have := strings.Split_Join [s] sep (by simp) (by simpa using h)
  simpa [strings.Join] using this

theorem strings.Split_append_sep (a b : Str) (sep : Char) :
    strings.Split (a ++ sep :: b) sep = strings.Split a sep ++ strings.Split b sep := by
  induction a with
  | nil => simp [strings.Split]
  | cons c cs ih =>
    by_cases hc : c = sep
    · simp [strings.Split, hc, ih]
    · have hne := strings.Split_ne_nil cs sep
      simp only [List.cons_append, strings.Split, hc, if_false, List.append_eq]
      rw [ih]
      cases hs : strings.Split cs sep with
      | nil => exact absurd hs hne
      | cons p ps => simp

theorem Scope.ResolveMessage_self (d : DescriptorProto) :
    Scope.ResolveMessage [d.GetName] d = some (.message d) := by
  cases d with
  | mk addr name fields exts nested enums er oo opts =>
    simp [Scope.ResolveMessage, DescriptorProto.GetName]

theorem Scope.ResolveMessage_ne (s0 : Str) (r : Scope) (d : DescriptorProto)
    (h : d.GetName ≠ s0) : Scope.ResolveMessage (s0 :: r) d = none := by
  cases hr : Scope.ResolveMessage (s0 :: r) d with
  | none => rfl
  | some x => exact absurd (Scope.ResolveMessage_some _ _ _ _ hr) h

/-- The loop over a list of messages resolves a one-segment scope to the first message
of that name. -/
theorem firstResolved_message (ds : List DescriptorProto) (d : DescriptorProto)
    (hd : d ∈ ds) (hfirst : ∀ c ∈ ds, c.GetName = d.GetName → c = d) :
    firstResolved (Scope.ResolveMessage [d.GetName]) ds = some (.message d) := by
  refine firstResolved_of_unique _ ds _ d hd (Scope.ResolveMessage_self d) ?_
  intro c hc
  by_cases hn : c.GetName = d.GetName
  · rw [hfirst c hc hn]; exact Or.inr (Scope.ResolveMessage_self d)
  · exact Or.inl (Scope.ResolveMessage_ne _ _ _ hn)

theorem DescriptorProto.GetName_mk (a : Nat) (n : Str) (f e : List FieldDescriptorProto)
    (ns : List DescriptorProto) (es : List EnumDescriptorProto)
    (r : List DescriptorProto_ExtensionRange) (o : List OneofDescriptorProto)
    (op : Option Nat) : (DescriptorProto.mk a n f e ns es r o op).GetName = n := rfl

theorem Scope.Resolve_nested (foo inner : DescriptorProto) (hin : inner ∈ foo.GetNestedType)
    (hfield : ∀ f ∈ foo.GetField, f.Name ≠ inner.GetName)
    (hfirst : ∀ c ∈ foo.GetNestedType, c.GetName = inner.GetName → c = inner) :
    Scope.Resolve [foo.GetName, inner.GetName] (.message foo) = some (.message inner) := by
  cases foo with
  | mk addr name fields exts nested enums er oo opts =>
    simp only [DescriptorProto.GetNestedType, DescriptorProto.GetField] at hin hfield hfirst
    have hf : firstResolved (Scope.ResolveField [inner.GetName]) fields = none := by
      apply firstResolved_none
      intro f hf
      cases hr : Scope.ResolveField [inner.GetName] f with
      | none => rfl
      | some x => exact absurd (Scope.ResolveField_some _ _ _ _ hr).1 (hfield f hf)
    simp only [Scope.Resolve, Scope.ResolveMessage, DescriptorProto.GetName_mk, ne_eq,
      not_true_eq_false, if_false, List.length_cons, List.length_nil, Nat.zero_add,
      Nat.add_one_ne_zero, hf, Scope.ResolveMessages_eq,
      firstResolved_message nested inner hin hfirst]

/-- The loop over a list of messages resolves a one-segment scope to the first message
of that name, whatever follows it in the list. -/
theorem firstResolved_message_first (l1 l2 : List DescriptorProto) (d : DescriptorProto)
    (hfirst : ∀ c ∈ l1, c.GetName ≠ d.GetName) :
    firstResolved (Scope.ResolveMessage [d.GetName]) (l1 ++ d :: l2) = some (.message d) := by
  induction l1 with
  | nil => exact firstResolved_cons_some _ _ _ _ (Scope.ResolveMessage_self d)
  | cons a rest ih =>
    rw [List.cons_append,
      firstResolved_cons_none _ _ _ (Scope.ResolveMessage_ne _ _ _ (hfirst a (by simp)))]
    exact ih (fun c hc => hfirst c (List.mem_cons_of_mem _ hc))

theorem Scope.Resolve_nested_first (foo inner : DescriptorProto)
    (l1 l2 : List DescriptorProto) (hsplit : foo.GetNestedType = l1 ++ inner :: l2)
    (hfield : ∀ f ∈ foo.GetField, f.Name ≠ inner.GetName)
    (hfirst : ∀ c ∈ l1, c.GetName ≠ inner.GetName) :
    Scope.Resolve [foo.GetName, inner.GetName] (.message foo) = some (.message inner) := by
  cases foo with
  | mk addr name fields exts nested enums er oo opts =>
    simp only [DescriptorProto.GetNestedType, DescriptorProto.GetField] at hsplit hfield
    subst hsplit
    have hf : firstResolved (Scope.ResolveField [inner.GetName]) fields = none := by
      apply firstResolved_none
      intro f hf
      cases hr : Scope.ResolveField [inner.GetName] f with
      | none => rfl
      | some x => exact absurd (Scope.ResolveField_some _ _ _ _ hr).1 (hfield f hf)
    simp only [Scope.Resolve, Scope.ResolveMessage, DescriptorProto.GetName_mk, ne_eq,
      not_true_eq_false, if_false, List.length_cons, List.length_nil, Nat.zero_add,
      Nat.add_one_ne_zero, hf, Scope.ResolveMessages_eq,
      firstResolved_message_first l1 l2 inner hfirst]

theorem ParseScope_qualified (u : unicode.Tables) (a b : Str) (ha : a ≠ []) (hda : '.' ∉ a)
    (hdb : '.' ∉ b) : ParseScope u (a ++ '.' :: b) = ([a, b], false) := by
  cases a with
  | nil => exact absurd rfl ha
  | cons c cs =>
    have hc : c ≠ '.' := fun e => hda (by simp [e])
    simp only [ParseScope, List.cons_append, hc, if_false]
    rw [← List.cons_append, strings.Split_append_sep, strings.Split_of_not_mem _ _ hda,
      strings.Split_of_not_mem _ _ hdb]
    rfl

/-- C3 (amended): for a message `foo` with a nested message `inner` that no field of
`foo` and no earlier nested message of `foo` shares its name with, the relative name
`foo.inner` (qualified by the name of `foo`) is found from the Symbol of `foo` by
`Resolve` at the own node of `foo`, in the first pass of the loop; the bare name of
`inner` does not match at the node of `foo` unless both names agree. -/
theorem Find_nested_by_qualified_name (u : unicode.Tables) (req : CodeGeneratorRequest)
    (fi : FileDescriptorProto) (hna : fi.NoAlias) (pre : List proto.Message)
    (foo inner : DescriptorProto)
    (hchain : List.Chain Child (.file fi) (pre ++ [.message foo]))
    (l1 l2 : List DescriptorProto) (hsplit : foo.GetNestedType = l1 ++ inner :: l2)
    (hne : foo.GetName ≠ []) (hdot1 : '.' ∉ foo.GetName) (hdot2 : '.' ∉ inner.GetName)
    (hfield : ∀ f ∈ foo.GetField, f.Name ≠ inner.GetName)
    (hfirst : ∀ c ∈ l1, c.GetName ≠ inner.GetName)
    (fuel : Nat) :
    ∃ aF aI mI,
      (GetMessages true (.file fi)).ByMessage (some (proto.Message.message foo).ident)
        = some aF ∧
      (GetMessages true (.file fi)).ByMessage (some (proto.Message.message inner).ident)
        = some aI ∧
      (GetMessages true (.file fi)).objs[aI]? = some mI ∧ mI.Proto = .message inner ∧
      Scope.Resolve [foo.GetName, inner.GetName] (.message foo) = some (.message inner) ∧
      Context.Find u ⟨req, GetMessages true (.file fi)⟩ (fuel + 1) (some aF)
        (foo.GetName ++ '.' :: inner.GetName) = some (some aI) ∧
      (foo.GetName ≠ inner.GetName →
        Scope.Resolve [inner.GetName] (.message foo) = none) := by
  obtain ⟨e, he⟩ : ∃ e, (proto.Message.file fi :: pre).getLast? = some e := by
    cases h : (proto.Message.file fi :: pre).getLast? with
    | none => simp at h
    | some e => exact ⟨e, rfl⟩
  obtain ⟨aF, mF, hF1, _, hF3, hF4, _⟩ :=
    GetMessages_file_symbol fi hna pre (.message foo) e hchain he
  have hin : inner ∈ foo.GetNestedType := by rw [hsplit]; simp
  have hchild : Child (.message foo) (.message inner) := by
    simp only [Child, proto.Message.children, List.mem_append, List.mem_map]
    exact Or.inl (Or.inl ⟨inner, hin, rfl⟩)
  have hchain2 : List.Chain Child (.file fi) ((pre ++ [.message foo]) ++ [.message inner]) := by
    rw [List.append_assoc, List.singleton_append]
    exact List.chain_split.2 ⟨hchain, List.Chain.cons hchild List.Chain.nil⟩
  have he2 : (proto.Message.file fi :: (pre ++ [.message foo])).getLast? =
      some (.message foo) := by
    rw [← List.cons_append, List.getLast?_concat]
  obtain ⟨aI, mI, hI1, _, hI3, hI4, _⟩ :=
    GetMessages_file_symbol fi hna (pre ++ [.message foo]) (.message inner) (.message foo)
      hchain2 he2
  have hres := Scope.Resolve_nested_first foo inner l1 l2 hsplit hfield hfirst
  refine ⟨aF, aI, mI, hF1, hI1, hI3, hI4, hres, ?_, ?_⟩
  · have hnil : foo.GetName ++ '.' :: inner.GetName ≠ [] := by simp
    simp only [Context.Find, hnil, if_false, ParseScope_qualified u _ _ hne hdot1 hdot2,
      Context.Find.loop, hF3, hF4, hres, hI1]
    rfl
  · intro h
    exact Scope.ResolveMessage_ne _ _ _ h

/-- C3 (amended), at a file where `Foo` has two nested messages named `Inner`:
`Foo.Inner` from the Symbol of `Foo` gives the Symbol of the first of them. -/
theorem Find_nested_by_qualified_name_witness :
    ∃ aF aI mI,
      (GetMessages true (.file sample.twins)).ByMessage
        (some (proto.Message.message sample.Outer).ident) = some aF ∧
      (GetMessages true (.file sample.twins)).ByMessage
        (some (proto.Message.message sample.Inner1).ident) = some aI ∧
      (GetMessages true (.file sample.twins)).objs[aI]? = some mI ∧
      mI.Proto = .message sample.Inner1 ∧
      Scope.Resolve [sample.Outer.GetName, sample.Inner1.GetName] (.message sample.Outer)
        = some (.message sample.Inner1) ∧
      Context.Find unicode.ascii ⟨sample.twinsRequest, GetMessages true (.file sample.twins)⟩
        (0 + 1) (some aF) (sample.Outer.GetName ++ '.' :: sample.Inner1.GetName)
        = some (some aI) ∧
      (sample.Outer.GetName ≠ sample.Inner1.GetName →
        Scope.Resolve [sample.Inner1.GetName] (.message sample.Outer) = none) :=
  Find_nested_by_qualified_name unicode.ascii sample.twinsRequest sample.twins
    (by unfold FileDescriptorProto.NoAlias; decide) [] sample.Outer sample.Inner1
    (List.Chain.cons (List.Mem.head _) List.Chain.nil) [] [sample.Inner2] rfl
    (by decide) (by decide) (by decide)
    (by decide) (by intro c hc; cases hc) 0

/-- C3 (as stated) fails: at the sample file, `Find` from the Symbol of `Foo` (pointer
1) with the relative name `Inner` of its nested message returns nil, while the Symbol
of `Inner` (pointer 2) is in the table. -/
theorem Find_nested_by_bare_name_fails :
    (GetMessages true (.file sample.file)).ByMessage
      (some (proto.Message.message sample.Foo).ident) = some 1 ∧
    (GetMessages true (.file sample.file)).ByMessage
      (some (proto.Message.message sample.Inner).ident) = some 2 ∧
    Context.Find unicode.ascii ⟨sample.request, GetMessages true (.file sample.file)⟩
      10 (some 1) "Inner".toList = some none := by
  decide

theorem firstResolved_append_of_none {α : Type} (f : α → Option proto.Message)
    (l1 l2 : List α) (h : ∀ b ∈ l1, f b = none) :
    firstResolved f (l1 ++ l2) = firstResolved f l2 := by
  induction l1 with
  | nil => rfl
  | cons a rest ih =>
    rw [List.cons_append, firstResolved_cons_none _ _ _ (h a (by simp))]
    exact ih (fun b hb => h b (List.mem_cons_of_mem _ hb))

theorem takeWhile_append_singleton {α : Type} (p : α → Bool) (l : List α) (x : α)
    (hl : ∀ a ∈ l, p a = true) (hx : p x = false) : (l ++ [x]).takeWhile p = l := by
  induction l with
  | nil => simp [List.takeWhile, hx]
  | cons a rest ih =>
    simp only [List.cons_append, List.takeWhile_cons, hl a (by simp), if_true]
    rw [ih (fun b hb => hl b (List.mem_cons_of_mem _ hb))]

theorem parseAbsoluteScope_qualified (u : unicode.Tables) (p n : Str)
    (hp : ∀ x ∈ strings.Split p '.', ispkgname u x = true)
    (hn1 : '.' ∉ n) (hn2 : ispkgname u n = false) :
    parseAbsoluteScope u (p ++ '.' :: n) = [p, n] := by
  have hne := strings.Split_ne_nil p '.'
  have hlen : 0 < (strings.Split p '.').length := List.length_pos.2 hne
  simp only [parseAbsoluteScope, parseAbsoluteScope.loop_eq, List.nil_append,
    strings.Split_append_sep, strings.Split_of_not_mem _ _ hn1,
    takeWhile_append_singleton _ _ _ hp hn2, hlen, gt_iff_lt, if_true,
    strings.Join_Split, List.drop_left]
  rfl

/-- C4 (amended): for a file with non-empty package `P` of package-like pieces, a
top-level message named `N` that is free of `.`, is not itself package-like and is the
first top-level message of the file with that name, and a request in which no file
listed before this one resolves `[P, N]`, `Find` with the absolute text `.P.N`
returns, whatever the requesting Symbol, the Symbol of that message, whose Scope
string is `P.N`. -/
theorem Find_absolute_top_level (u : unicode.Tables) (req : CodeGeneratorRequest)
    (before after : List FileDescriptorProto) (fi : FileDescriptorProto)
    (hreq : req.ProtoFile = before ++ fi :: after) (hna : fi.NoAlias)
    (d : DescriptorProto) (l1 l2 : List DescriptorProto)
    (hsplit : fi.MessageType = l1 ++ d :: l2)
    (hfirst : ∀ c ∈ l1, c.GetName ≠ d.GetName)
    (hP : fi.Package ≠ [])
    (hPk : ∀ p ∈ strings.Split fi.Package '.', ispkgname u p = true)
    (hN1 : '.' ∉ d.GetName) (hN2 : ispkgname u d.GetName = false)
    (hbefore : ∀ f ∈ before, Scope.Resolve [fi.Package, d.GetName] (.file f) = none)
    (fuel : Nat) (frm : Option Nat) :
    ∃ a m, Context.Find u ⟨req, GetMessages true (.file fi)⟩ fuel frm
        ('.' :: (fi.Package ++ '.' :: d.GetName)) = some (some a) ∧
      (GetMessages true (.file fi)).objs[a]? = some m ∧
      Scope.String m.Scope = fi.Package ++ '.' :: d.GetName ∧
      m.Proto = .message d := by
  have hd : d ∈ fi.MessageType := by rw [hsplit]; simp
  have hchild : Child (.file fi) (.message d) := by
    simp only [Child, proto.Message.children, List.mem_append, List.mem_map]
    exact Or.inl ⟨d, hd, rfl⟩
  obtain ⟨a, m, h1, _, h3, h4, h5, _⟩ :=
    GetMessages_file_symbol fi hna [] (.message d) (.file fi)
      (List.Chain.cons hchild List.Chain.nil) rfl
  have hfile : Scope.ResolveFile [fi.Package, d.GetName] fi = some (.message d) := by
    simp only [Scope.ResolveFile, hP, ne_eq, not_false_eq_true, if_true, not_true_eq_false,
      if_false, Scope.ResolveFile.body, List.length_cons, List.length_nil, Nat.zero_add,
      Nat.add_one_ne_zero, Scope.ResolveMessages_eq, hsplit,
      firstResolved_message_first l1 l2 d hfirst]
  have hres : Scope.Resolve [fi.Package, d.GetName] (.request req) = some (.message d) := by
    simp only [Scope.Resolve, hreq]
    rw [firstResolved_append_of_none (Scope.ResolveFile [fi.Package, d.GetName]) _ _ hbefore,
      firstResolved_cons_some _ _ _ _ hfile]
  refine ⟨a, m, ?_, h3, ?_, h4⟩
  · simp only [Context.Find, reduceCtorEq, if_false, ParseScope, if_true,
      parseAbsoluteScope_qualified u _ _ hPk hN1 hN2, hres, Option.map_some', h1]
  · rw [h5]
    simp [FileDescriptorProto.pkgScope, hP, Scope.String, strings.Join, proto.Message.GetName]

/-- C4 (amended), at a file with two top-level messages named `Baz` after `Foo`:
`.pkg.Baz` from no requesting Symbol gives the Symbol of the first of them. -/
theorem Find_absolute_top_level_witness :
    ∃ a m, Context.Find unicode.ascii
        ⟨sample.twinsRequest, GetMessages true (.file sample.twins)⟩
        0 none ('.' :: (sample.twins.Package ++ '.' :: sample.Baz1.GetName)) = some (some a) ∧
      (GetMessages true (.file sample.twins)).objs[a]? = some m ∧
      Scope.String m.Scope = sample.twins.Package ++ '.' :: sample.Baz1.GetName ∧
      m.Proto = .message sample.Baz1 :=
  Find_absolute_top_level unicode.ascii sample.twinsRequest [] [] sample.twins rfl
    (by unfold FileDescriptorProto.NoAlias; decide) sample.Baz1 [sample.Outer] [sample.Baz2]
    rfl
    (by
      intro c hc
      simp only [List.mem_singleton] at hc
      subst hc
      decide)
    (by decide) (by decide) (by decide) (by decide) (by simp) 0 none

/-- C4 (as stated) fails: for the top-level message with the lower-case name `baz` of
package `pkg`, whose Symbol (pointer 1) has the Scope string `pkg.baz`, `Find` with the
text `.pkg.baz` returns nil: the name is taken for a part of the package. -/
theorem Find_absolute_lowercase_fails :
    (GetMessages true (.file sample.lower)).ByMessage (some ⟨.DescriptorProto, some 1⟩)
      = some 1 ∧
    (GetMessages true (.file sample.lower)).objs[1]?.map (fun m => Scope.String m.Scope)
      = some "pkg.baz".toList ∧
    ParseScope unicode.ascii ".pkg.baz".toList = (["pkg.baz".toList], true) ∧
    Context.Find unicode.ascii
      ⟨⟨100, ["lower.proto".toList], [sample.lower]⟩, GetMessages true (.file sample.lower)⟩
      10 (some 1) ".pkg.baz".toList = some none := by
  decide

/-! ## Comment attachment and pruning -/

theorem GoMap.delete_delete {K V : Type} [DecidableEq K] (m : GoMap K V) (k : K) :
    (m.delete k).delete k = m.delete k := by
  funext x
  simp only [GoMap.delete]
  split <;> rfl

/-- The pruning loop deletes the Symbol from both maps when some trailing comment trims
to `private`, and changes nothing otherwise. -/
theorem main.prune_eq (sc : Scope) (p : proto.Message) (l : List Str) (ms : Messages) :
    main.prune sc p l ms =
      if ∃ c ∈ l, strings.TrimSpace c = "private".toList then
        { ms with
          ByScope := ms.ByScope.delete (Scope.String sc)
          ByMessage := ms.ByMessage.delete (some p.ident) }
      else ms := by
  induction l generalizing ms with
  | nil =>
    have : ¬ ∃ c ∈ ([] : List Str), strings.TrimSpace c = "private".toList := by simp
    rw [if_neg this]; rfl
  | cons c rest ih =>
    by_cases hc : strings.TrimSpace c = "private".toList
    · have hex : ∃ c2 ∈ c :: rest, strings.TrimSpace c2 = "private".toList :=
        ⟨c, by simp, hc⟩
      rw [if_pos hex]
      simp only [main.prune, hc, if_true]
      rw [ih]
      by_cases hr : ∃ c ∈ rest, strings.TrimSpace c = "private".toList
      · rw [if_pos hr]
        simp only [GoMap.delete_delete]
      · rw [if_neg hr]
    · simp only [main.prune, hc, if_false]
      rw [ih]
      by_cases hr : ∃ c ∈ rest, strings.TrimSpace c = "private".toList
      · obtain ⟨c2, h1, h2⟩ := hr
        rw [if_pos ⟨c2, h1, h2⟩, if_pos ⟨c2, List.mem_cons_of_mem _ h1, h2⟩]
      · rw [if_neg hr, if_neg]
        rintro ⟨c2, h1, h2⟩
        rcases List.mem_cons.1 h1 with e | e
        · subst e; exact hc h2
        · exact hr ⟨c2, e, h2⟩

theorem Message.addComments_spec (m o : Message) (loc : SourceCodeInfo_Location)
    (h : m.addComments loc = some o) :
    o.Proto = m.Proto ∧
    (loc.TrailingComments ≠ [] →
      ∃ r, normalizeIndent loc.TrailingComments = some r ∧
        o.TrailingComments = m.TrailingComments ++ [r]) := by
  unfold Message.addComments at h
  simp only [Option.bind_eq_some] at h
  obtain ⟨m2, ⟨m1, h1, h2⟩, h3⟩ := h
  have e1 : m1.Proto = m.Proto ∧ m1.TrailingComments = m.TrailingComments := by
    split at h1
    · simp only [Option.map_eq_some'] at h1
      obtain ⟨c, _, rfl⟩ := h1
      exact ⟨rfl, rfl⟩
    · simp only [Option.some.injEq] at h1
      subst h1; exact ⟨rfl, rfl⟩
  have e2 : m2.Proto = m1.Proto ∧ (loc.TrailingComments ≠ [] →
      ∃ r, normalizeIndent loc.TrailingComments = some r ∧
        m2.TrailingComments = m1.TrailingComments ++ [r]) := by
    split at h2
    · simp only [Option.map_eq_some'] at h2
      obtain ⟨c, hc, rfl⟩ := h2
      exact ⟨rfl, fun _ => ⟨c, hc, rfl⟩⟩
    · rename_i hn
      simp only [Option.some.injEq] at h2
      subst h2; exact ⟨rfl, fun h => absurd h hn⟩
  have e3 : o.Proto = m2.Proto ∧ o.TrailingComments = m2.TrailingComments := by
    split at h3
    · simp only [Option.map_eq_some'] at h3
      obtain ⟨c, _, rfl⟩ := h3
      exact ⟨rfl, rfl⟩
    · simp only [Option.some.injEq] at h3
      subst h3; exact ⟨rfl, rfl⟩
  refine ⟨by rw [e3.1, e2.1, e1.1], fun hne => ?_⟩
  obtain ⟨r, hr1, hr2⟩ := e2.2 hne
  exact ⟨r, hr1, by rw [e3.2, hr2, e1.2]⟩

/-- What one pass of the attachment loop does to the table: nothing, or the comments of
one Symbol `m` found under the key of the walked Scope are extended and, if one of its
trailing comments trims to `private`, that key and the descriptor of `m` are deleted. -/
theorem main.attach_spec (fi : FileDescriptorProto) (ms ms2 : Messages)
    (loc : SourceCodeInfo_Location) (h : main.attach fi ms loc = some ms2) :
    ms2 = ms ∨
    ∃ sc msg m o0 o, GetByLocation fi loc.Path = some (sc, msg, []) ∧
      ms.ByScope (Scope.String sc) = some m ∧ ms.objs[m]? = some o0 ∧
      o0.addComments loc = some o ∧
      ms2 = main.prune sc o.Proto o.TrailingComments { ms with objs := ms.objs.set m o } := by
  unfold main.attach at h
  split at h
  · cases h
  · rename_i sc msg trailing hg
    split at h
    · exact Or.inl (Option.some.inj h).symm
    · rename_i hd
      split at h
      · exact Or.inl (Option.some.inj h).symm
      · split at h
        · exact Or.inl (Option.some.inj h).symm
        · rename_i m hm
          split at h
          · cases h
          · rename_i ms1 ha
            unfold Messages.addComments at ha
            split at ha
            · cases ha
            · rename_i o0 ho0
              simp only [Option.map_eq_some'] at ha
              obtain ⟨o, ho, rfl⟩ := ha
              have hlt : m < ms.objs.length := by
                rcases Nat.lt_or_ge m ms.objs.length with h3 | h3
                · exact h3
                · rw [List.getElem?_eq_none h3] at ho0; cases ho0
              have hset : (ms.objs.set m o)[m]? = some o := by
                simp [List.getElem?_set, hlt]
              simp only [hset] at h
              have ht : trailing = [] := by
                simp only [Bool.or_eq_true, Bool.not_eq_true', decide_eq_true_eq, not_or,
                  Bool.not_eq_false, not_lt, Nat.le_zero, List.length_eq_zero] at hd
                exact hd.2
              subst ht
              exact Or.inr ⟨sc, msg, m, o0, o, hg, hm, ho0, ho, (Option.some.inj h).symm⟩

/-! ### A word between white space survives normalization -/

theorem rdropWhile_append_of_last {α : Type} (q : α → Bool) (x : List α) (z : α)
    (hz : x.getLast? = some z) (hq : q z = false) (b : List α) :
    (x ++ b).rdropWhile q = x ++ b.rdropWhile q := by
  induction b using List.reverseRecOn with
  | nil =>
    simp only [List.append_nil, List.rdropWhile_nil]
    rw [List.rdropWhile_eq_self_iff]
    intro hl
    rw [List.getLast?_eq_getLast _ hl] at hz
    simp only [Option.some.injEq] at hz
    rw [hz, hq]; simp
  | append_singleton l c ih =>
    rw [← List.append_assoc]
    by_cases hc : q c = true
    · rw [List.rdropWhile_concat_pos _ _ _ hc, List.rdropWhile_concat_pos _ _ _ hc, ih]
    · rw [List.rdropWhile_concat_neg _ _ _ hc, List.rdropWhile_concat_neg _ _ _ hc]
      simp

theorem rdropWhile_split {α : Type} (q : α → Bool) (t : List α) :
    ∃ b, t = t.rdropWhile q ++ b ∧ ∀ c ∈ b, q c = true := by
  induction t using List.reverseRecOn with
  | nil => exact ⟨[], by simp, by simp⟩
  | append_singleton l c ih =>
    by_cases hc : q c = true
    · obtain ⟨b, h1, h2⟩ := ih
      refine ⟨b ++ [c], ?_, ?_⟩
      · rw [List.rdropWhile_concat_pos _ _ _ hc, ← List.append_assoc, ← h1]
      · intro x hx
        rcases List.mem_append.1 hx with h | h
        · exact h2 x h
        · simp only [List.mem_singleton] at h; rw [h]; exact hc
    · exact ⟨[], by rw [List.rdropWhile_concat_neg _ _ _ hc]; simp, by simp⟩

theorem IsTrim.of_TrimSpace (s p : Str) (h : strings.TrimSpace s = p) : IsTrim s p := by
  rw [strings.TrimSpace_eq] at h
  obtain ⟨b, h1, h2⟩ := rdropWhile_split unicode.IsSpace (s.dropWhile unicode.IsSpace)
  rw [h] at h1
  refine ⟨s.takeWhile unicode.IsSpace, b, ?_, fun c hc => List.mem_takeWhile_imp hc, h2⟩
  rw [List.append_assoc, ← h1, List.takeWhile_append_dropWhile]

theorem IsTrim.to_TrimSpace (s p : Str) (hp1 : p ≠ [])
    (hp2 : ∀ c ∈ p, unicode.IsSpace c = false) (h : IsTrim s p) :
    strings.TrimSpace s = p := by
  obtain ⟨a, b, rfl, ha, hb⟩ := h
  obtain ⟨z, hz⟩ : ∃ z, p.getLast? = some z :=
    ⟨p.getLast hp1, List.getLast?_eq_getLast _ hp1⟩
  have hzq : unicode.IsSpace z = false := hp2 z (List.mem_of_getLast?_eq_some hz)
  rw [strings.TrimSpace_eq, List.append_assoc, List.dropWhile_append_of_pos ha]
  cases p with
  | nil => exact absurd rfl hp1
  | cons y ys =>
    have hy : ¬ unicode.IsSpace y = true := by rw [hp2 y (by simp)]; simp
    rw [List.cons_append, List.dropWhile_cons_of_neg hy, ← List.cons_append,
      rdropWhile_append_of_last _ _ z hz hzq, List.rdropWhile_eq_nil_iff.2 hb]
    simp

theorem strings.Replace_append (a b : Str) (old : Char) (new : Str) :
    strings.Replace (a ++ b) old new = strings.Replace a old new ++ strings.Replace b old new := by
  induction a with
  | nil => rfl
  | cons c cs ih => simp [strings.Replace, ih]

theorem strings.mem_Replace (s : Str) (old : Char) (new : Str) (c : Char)
    (h : c ∈ strings.Replace s old new) : c ∈ s ∨ c ∈ new := by
  induction s with
  | nil => simp [strings.Replace] at h
  | cons x xs ih =>
    simp only [strings.Replace, List.mem_append] at h
    rcases h with h | h
    · by_cases hx : x = old
      · rw [if_pos hx] at h; exact Or.inr h
      · rw [if_neg hx] at h
        simp only [List.mem_singleton] at h
        exact Or.inl (by simp [h])
    · rcases ih h with h2 | h2
      · exact Or.inl (List.mem_cons_of_mem _ h2)
      · exact Or.inr h2

theorem IsTrim.Replace_tab (s p : Str) (hp2 : ∀ c ∈ p, unicode.IsSpace c = false)
    (h : IsTrim s p) : IsTrim (strings.Replace s '\t' "    ".toList) p := by
  obtain ⟨a, b, rfl, ha, hb⟩ := h
  have hp : strings.Replace p '\t' "    ".toList = p := by
    apply strings.Replace_of_not_mem
    intro hm
    have := hp2 _ hm
    exact absurd this (by decide)
  have hsp : ∀ c ∈ "    ".toList, unicode.IsSpace c = true := by decide
  refine ⟨strings.Replace a '\t' "    ".toList, strings.Replace b '\t' "    ".toList, ?_, ?_, ?_⟩
  · rw [strings.Replace_append, strings.Replace_append, hp]
  · intro c hc
    rcases strings.mem_Replace _ _ _ _ hc with h | h
    · exact ha c h
    · exact hsp c h
  · intro c hc
    rcases strings.mem_Replace _ _ _ _ hc with h | h
    · exact hb c h
    · exact hsp c h

theorem IsTrim.TrimRight (s p : Str) (hp1 : p ≠ [])
    (hp2 : ∀ c ∈ p, unicode.IsSpace c = false) (h : IsTrim s p) :
    IsTrim (strings.TrimRight s " \n".toList) p := by
  obtain ⟨a, b, rfl, ha, hb⟩ := h
  obtain ⟨z, hz⟩ : ∃ z, p.getLast? = some z :=
    ⟨p.getLast hp1, List.getLast?_eq_getLast _ hp1⟩
  have hzq : unicode.IsSpace z = false := hp2 z (List.mem_of_getLast?_eq_some hz)
  have hz2 : (a ++ p).getLast? = some z := by
    rw [List.getLast?_append_of_ne_nil _ hp1]; exact hz
  have hcut : (" \n".toList.contains z) = false := by
    cases hc : (" \n".toList.contains z) with
    | false => rfl
    | true =>
      have hm : z ∈ " \n".toList := by simpa using hc
      have : unicode.IsSpace z = true := by
        simp only [String.toList, List.mem_cons, List.mem_singleton, List.not_mem_nil,
          or_false] at hm
        rcases hm with h | h <;> (rw [h]; decide)
      rw [hzq] at this; cases this
  rw [strings.TrimRight_eq_rdropWhile,
    rdropWhile_append_of_last (fun c => " \n".toList.contains c) (a ++ p) z hz2 hcut]
  exact ⟨a, _, rfl, ha, fun c hc => hb c ((List.rdropWhile_prefix _ _).subset hc)⟩

theorem strings.Split_append_of_not_mem (x y : Str) (sep : Char) (h : sep ∉ x) :
    ∃ hd tl, strings.Split y sep = hd :: tl ∧
      strings.Split (x ++ y) sep = (x ++ hd) :: tl := by
  induction x with
  | nil =>
    cases hs : strings.Split y sep with
    | nil => exact absurd hs (strings.Split_ne_nil _ _)
    | cons hd tl => exact ⟨hd, tl, rfl, by simpa using hs⟩
  | cons c cs ih =>
    have hc : c ≠ sep := fun e => h (by simp [e])
    obtain ⟨hd, tl, h1, h2⟩ := ih (fun e => h (List.mem_cons_of_mem _ e))
    refine ⟨hd, tl, h1, ?_⟩
    simp only [List.cons_append, strings.Split, hc, if_false, List.append_eq]
    rw [h2]

theorem strings.Split_cons (c : Char) (cs : Str) (sep : Char) :
    strings.Split (c :: cs) sep =
      if c = sep then [] :: strings.Split cs sep
      else match strings.Split cs sep with
        | [] => [[c]]
        | p :: ps => (c :: p) :: ps := rfl

theorem IsTrim.Split (s p : Str) (hp2 : ∀ c ∈ p, unicode.IsSpace c = false)
    (h : IsTrim s p) :
    ∃ A l B, strings.Split s '\n' = A ++ l :: B ∧
      (∀ x ∈ A, ∀ c ∈ x, unicode.IsSpace c = true) ∧ IsTrim l p ∧
      (∀ x ∈ B, ∀ c ∈ x, unicode.IsSpace c = true) := by
  obtain ⟨a, b, rfl, ha, hb⟩ := h
  have hnl : '\n' ∉ p := by
    intro hm
    exact absurd (hp2 _ hm) (by decide)
  induction a with
  | nil =>
    obtain ⟨hd, tl, h1, h2⟩ := strings.Split_append_of_not_mem p b '\n' hnl
    refine ⟨[], p ++ hd, tl, by simpa using h2, by simp, ?_, ?_⟩
    · exact ⟨[], hd, by simp, by simp, fun c hc =>
        hb c (strings.mem_of_mem_Split b '\n' hd (by rw [h1]; simp) c hc).1⟩
    · intro x hx c hc
      exact hb c (strings.mem_of_mem_Split b '\n' x (by rw [h1]; simp [hx]) c hc).1
  | cons c cs ih =>
    obtain ⟨A, l, B, h1, hA, hl, hB⟩ := ih (fun x hx => ha x (List.mem_cons_of_mem _ hx))
    have hcw := ha c (by simp)
    have e : (c :: cs) ++ p ++ b = c :: (cs ++ p ++ b) := rfl
    rw [e, strings.Split_cons, h1]
    by_cases hc : c = '\n'
    · refine ⟨[] :: A, l, B, by simp [hc], ?_, hl, hB⟩
      · intro x hx
        rcases List.mem_cons.1 hx with e | e
        · subst e; simp
        · exact hA x e
    · cases A with
      | nil =>
        refine ⟨[], c :: l, B, by simp [hc], by simp, ?_, hB⟩
        · obtain ⟨a2, b2, rfl, h3, h4⟩ := hl
          refine ⟨c :: a2, b2, by simp, ?_, h4⟩
          intro x hx
          rcases List.mem_cons.1 hx with e | e
          · rw [e]; exact hcw
          · exact h3 x e
      | cons x A2 =>
        refine ⟨(c :: x) :: A2, l, B, by simp [hc], ?_, hl, hB⟩
        · intro y hy
          rcases List.mem_cons.1 hy with e | e
          · subst e
            intro d hd
            rcases List.mem_cons.1 hd with e2 | e2
            · rw [e2]; exact hcw
            · exact hA x (by simp) d e2
          · exact hA y (List.mem_cons_of_mem _ e)

theorem normalizeIndent.blankRun_of_trim (A : List Str) (l : Str) (B : List Str)
    (hA : ∀ x ∈ A, ∀ c ∈ x, unicode.IsSpace c = true) (hl : strings.TrimSpace l ≠ []) :
    normalizeIndent.blankRun (A ++ l :: B) = A.length := by
  induction A with
  | nil => simp [normalizeIndent.blankRun, hl]
  | cons x rest ih =>
    have hx : strings.TrimSpace x = [] := (strings.TrimSpace_eq_nil_iff x).2 (hA x (by simp))
    simp only [List.cons_append, normalizeIndent.blankRun, hx, if_true, List.length_cons,
      List.append_eq]
    rw [ih (fun y hy => hA y (List.mem_cons_of_mem _ hy))]

/-- The result of `normalizeIndent`: the lines after the leading blank run, each without
its first `k` characters, which are spaces. -/
theorem normalizeIndent_lines (s r : Str) (h : normalizeIndent s = some r) :
    ∃ k : Nat,
      r = strings.Join
        (((strings.Split (strings.TrimRight (strings.Replace s '\t' "    ".toList)
            " \n".toList) '\n').drop
          (normalizeIndent.blankRun (strings.Split (strings.TrimRight
            (strings.Replace s '\t' "    ".toList) " \n".toList) '\n'))).map
          (fun l => l.drop k)) ['\n'] ∧
      ∀ x ∈ (strings.Split (strings.TrimRight (strings.Replace s '\t' "    ".toList)
            " \n".toList) '\n').drop
          (normalizeIndent.blankRun (strings.Split (strings.TrimRight
            (strings.Replace s '\t' "    ".toList) " \n".toList) '\n')),
        ∀ c ∈ x.take k, c = ' ' := by
  unfold normalizeIndent at h
  simp only at h
  generalize (strings.Split (strings.TrimRight (strings.Replace s '\t' "    ".toList)
    " \n".toList) '\n').drop (normalizeIndent.blankRun (strings.Split (strings.TrimRight
      (strings.Replace s '\t' "    ".toList) " \n".toList) '\n')) = L at h ⊢
  split at h
  · simp only [Option.some.injEq] at h
    exact ⟨0, by simp [← h], by simp⟩
  · rename_i hcond
    have hpos : 0 < normalizeIndent.minLoop L defaultIndent := by omega
    obtain ⟨_, hall, _⟩ := normalizeIndent.minLoop_pos L defaultIndent (by decide) hpos
    generalize normalizeIndent.minLoop L defaultIndent = m at *
    obtain ⟨k, rfl⟩ : ∃ k : Nat, m = (k : Int) := ⟨m.toNat, by omega⟩
    rw [normalizeIndent.strip_eq k L hall] at h
    simp only [Option.map_some', Option.some.injEq] at h
    refine ⟨k, h.symm, ?_⟩
    intro x hx c hc
    by_cases hxe : x = []
    · subst hxe; simp at hc
    · simpa using strings.IndexFunc_take x _ k (hall x hx hxe) c hc

theorem IsTrim.drop_spaces (l p : Str) (k : Nat) (hp1 : p ≠ [])
    (hp2 : ∀ c ∈ p, unicode.IsSpace c = false) (h : IsTrim l p)
    (hk : ∀ c ∈ l.take k, c = ' ') : IsTrim (l.drop k) p := by
  obtain ⟨a, b, rfl, ha, hb⟩ := h
  have hle : k ≤ a.length := by
    by_contra hgt
    cases p with
    | nil => exact hp1 rfl
    | cons y ys =>
      have hy : y ∈ (a ++ (y :: ys) ++ b).take k := by
        rw [List.append_assoc, List.take_append_eq_append_take]
        apply List.mem_append_right
        obtain ⟨j, hj⟩ : ∃ j, k - a.length = j + 1 := ⟨k - a.length - 1, by omega⟩
        rw [hj]; simp
      have := hk y hy
      have hw := hp2 y (by simp)
      rw [this] at hw
      exact absurd hw (by decide)
  refine ⟨a.drop k, b, ?_, fun c hc => ha c (List.mem_of_mem_drop hc), hb⟩
  rw [List.append_assoc, List.drop_append_of_le_length hle, List.append_assoc]

theorem IsTrim.Join (l p : Str) (B : List Str) (h : IsTrim l p)
    (hB : ∀ x ∈ B, ∀ c ∈ x, unicode.IsSpace c = true) :
    IsTrim (strings.Join (l :: B) ['\n']) p := by
  obtain ⟨a, b, rfl, ha, hb⟩ := h
  cases B with
  | nil => exact ⟨a, b, rfl, ha, hb⟩
  | cons x rest =>
    refine ⟨a, b ++ ['\n'] ++ strings.Join (x :: rest) ['\n'], by simp [strings.Join], ha, ?_⟩
    intro c hc
    simp only [List.append_assoc, List.mem_append, List.mem_singleton, List.mem_cons,
      List.not_mem_nil, or_false] at hc
    rcases hc with h | h | h
    · exact hb c h
    · rw [h]; decide
    · rcases strings.mem_Join _ _ _ h with h2 | ⟨y, hy, hcy⟩
      · simp only [List.mem_singleton] at h2; rw [h2]; decide
      · exact hB y hy c hcy

theorem IsTrim.normalizeIndent (c r p : Str) (hp1 : p ≠ [])
    (hp2 : ∀ x ∈ p, unicode.IsSpace x = false) (h : IsTrim c p)
    (hr : normalizeIndent c = some r) : IsTrim r p := by
  obtain ⟨k, hk1, hk2⟩ := normalizeIndent_lines c r hr
  have h2 := IsTrim.TrimRight _ p hp1 hp2 (IsTrim.Replace_tab c p hp2 h)
  obtain ⟨A, l, B, hs, hA, hl, hB⟩ := IsTrim.Split _ p hp2 h2
  have hlne : strings.TrimSpace l ≠ [] := by
    rw [IsTrim.to_TrimSpace l p hp1 hp2 hl]; exact hp1
  rw [hs, normalizeIndent.blankRun_of_trim A l B hA hlne, List.drop_left] at hk1 hk2
  rw [hk1, List.map_cons]
  refine IsTrim.Join _ p _ (IsTrim.drop_spaces l p k hp1 hp2 hl (hk2 l (by simp))) ?_
  intro x hx c hc
  obtain ⟨y, hy, rfl⟩ := List.mem_map.1 hx
  exact hB y hy c (List.mem_of_mem_drop hc)

theorem TrimSpace_normalizeIndent_private (c r : Str)
    (h : strings.TrimSpace c = "private".toList) (hr : normalizeIndent c = some r) :
    strings.TrimSpace r = "private".toList :=
  IsTrim.to_TrimSpace r _ (by decide) (by decide)
    (IsTrim.normalizeIndent c r _ (by decide) (by decide) (IsTrim.of_TrimSpace c _ h) hr)

theorem main.attach_PruneInv (fi : FileDescriptorProto) (t0 : Messages) (s : Str)
    (ms ms2 : Messages) (loc : SourceCodeInfo_Location)
    (h : main.attach fi ms loc = some ms2) (hinv : main.PruneInv t0 s ms) :
    main.PruneInv t0 s ms2 := by
  rcases main.attach_spec fi ms ms2 loc h with rfl | ⟨sc, msg, m, o0, o, _, hm, ho0, ho, rfl⟩
  · exact hinv
  obtain ⟨hkeys, hs⟩ := hinv
  have hproto := (Message.addComments_spec o0 o loc ho).1
  -- the store after `addComments`: same descriptors at the same pointers
  have hkeys1 : Messages.KeysAgree { ms with objs := ms.objs.set m o } := by
    intro k a hk
    obtain ⟨x, hx, hkx⟩ := hkeys k a hk
    by_cases ha : a = m
    · subst ha
      rw [ho0] at hx
      simp only [Option.some.injEq] at hx
      subst hx
      have hlt : a < ms.objs.length := by
        rcases Nat.lt_or_ge a ms.objs.length with h3 | h3
        · exact h3
        · rw [List.getElem?_eq_none h3] at ho0; cases ho0
      exact ⟨o, by simp [List.getElem?_set, hlt], by rw [hproto]; exact hkx⟩
    · exact ⟨x, by simp only [List.getElem?_set]; rw [if_neg (Ne.symm ha)]; exact hx, hkx⟩
  rw [main.prune_eq]
  split
  · -- the Symbol is deleted from both maps
    refine ⟨?_, ?_⟩
    · intro k a hk
      simp only [GoMap.delete] at hk
      split at hk
      · cases hk
      · exact hkeys1 k a hk
    · by_cases hsc : s = Scope.String sc
      · subst hsc
        refine Or.inr ⟨by simp [GoMap.delete], ?_⟩
        intro a ha k hk
        simp only [GoMap.delete] at hk
        split at hk
        · cases hk
        · rename_i hne
          rcases hs with hs | ⟨hs, hs2⟩
          · rw [hs, ha] at hm
            simp only [Option.some.injEq] at hm
            subst hm
            obtain ⟨x, hx, hkx⟩ := hkeys k a hk
            rw [ho0] at hx
            simp only [Option.some.injEq] at hx
            subst hx
            exact hne (by rw [hproto]; exact hkx)
          · exact hs2 a ha k hk
      · rcases hs with hs | ⟨hs, hs2⟩
        · exact Or.inl (by simp only [GoMap.delete, hsc, if_false]; exact hs)
        · refine Or.inr ⟨by simp only [GoMap.delete, hsc, if_false]; exact hs, ?_⟩
          intro a ha k hk
          simp only [GoMap.delete] at hk
          split at hk
          · cases hk
          · exact hs2 a ha k hk
  · exact ⟨hkeys1, hs⟩

theorem main.attach_ByScope_none (fi : FileDescriptorProto) (s : Str)
    (ms ms2 : Messages) (loc : SourceCodeInfo_Location)
    (h : main.attach fi ms loc = some ms2) (hs : ms.ByScope s = none) :
    ms2.ByScope s = none := by
  rcases main.attach_spec fi ms ms2 loc h with rfl | ⟨sc, msg, m, o0, o, _, hm, ho0, ho, rfl⟩
  · exact hs
  rw [main.prune_eq]
  split
  · simp only [GoMap.delete]
    split
    · rfl
    · exact hs
  · exact hs

theorem main.attach_ByMessage_none (fi : FileDescriptorProto) (k : Option Ident)
    (ms ms2 : Messages) (loc : SourceCodeInfo_Location)
    (h : main.attach fi ms loc = some ms2) (hs : ms.ByMessage k = none) :
    ms2.ByMessage k = none := by
  rcases main.attach_spec fi ms ms2 loc h with rfl | ⟨sc, msg, m, o0, o, _, hm, ho0, ho, rfl⟩
  · exact hs
  rw [main.prune_eq]
  split
  · simp only [GoMap.delete]
    split
    · rfl
    · exact hs
  · exact hs

theorem main.attach_private (fi : FileDescriptorProto) (ms ms2 : Messages)
    (loc : SourceCodeInfo_Location) (sc : Scope) (node : proto.Message)
    (h : main.attach fi ms loc = some ms2)
    (hwalk : GetByLocation fi loc.Path = some (sc, node, []))
    (hnode : node.IsDescriptor = true)
    (hpriv : strings.TrimSpace loc.TrailingComments = "private".toList) :
    ms2.ByScope (Scope.String sc) = none := by
  have hne : loc.TrailingComments ≠ [] := by
    intro e; rw [e] at hpriv; exact absurd hpriv (by decide)
  have hlen : ¬ (loc.TrailingComments.length + loc.LeadingComments.length
      + loc.LeadingDetachedComments.length = 0) := by
    have : 0 < loc.TrailingComments.length := List.length_pos.2 hne
    omega
  unfold main.attach at h
  simp only [hwalk, hnode, Bool.not_true, List.length_nil, gt_iff_lt, Nat.lt_irrefl,
    decide_False, Bool.or_self, Bool.false_eq_true, if_false, hlen] at h
  cases hb : ms.ByScope (Scope.String sc) with
  | none =>
    rw [hb] at h
    simp only [Option.some.injEq] at h
    subst h; exact hb
  | some m =>
    rw [hb] at h
    simp only at h
    unfold Messages.addComments at h
    cases ho0 : ms.objs[m]? with
    | none => rw [ho0] at h; simp at h
    | some o0 =>
      rw [ho0] at h
      simp only at h
      cases ho : o0.addComments loc with
      | none => rw [ho] at h; simp at h
      | some o =>
        have hlt : m < ms.objs.length := by
          rcases Nat.lt_or_ge m ms.objs.length with h3 | h3
          · exact h3
          · rw [List.getElem?_eq_none h3] at ho0; cases ho0
        have hset : (ms.objs.set m o)[m]? = some o := by
          simp [List.getElem?_set, hlt]
        simp only [ho, Option.map_some', hset, Option.some.injEq] at h
        subst h
        obtain ⟨r, hr1, hr2⟩ := (Message.addComments_spec o0 o loc ho).2 hne
        rw [main.prune_eq, if_pos ⟨r, by rw [hr2]; simp,
          TrimSpace_normalizeIndent_private _ _ hpriv hr1⟩]
        simp [GoMap.delete]

theorem main.attachAll_PruneInv (fi : FileDescriptorProto) (t0 : Messages) (s : Str)
    (locs : List SourceCodeInfo_Location) :
    ∀ ms ms2, main.attachAll fi ms locs = some ms2 → main.PruneInv t0 s ms →
      main.PruneInv t0 s ms2 := by
  induction locs with
  | nil => intro ms ms2 h hinv; simp only [main.attachAll, Option.some.injEq] at h; subst h; exact hinv
  | cons l rest ih =>
    intro ms ms2 h hinv
    simp only [main.attachAll] at h
    cases h1 : main.attach fi ms l with
    | none => rw [h1] at h; cases h
    | some ms1 =>
      rw [h1] at h
      exact ih ms1 ms2 h (main.attach_PruneInv fi t0 s ms ms1 l h1 hinv)

theorem main.attachAll_ByScope_none (fi : FileDescriptorProto) (s : Str)
    (locs : List SourceCodeInfo_Location) :
    ∀ ms ms2, main.attachAll fi ms locs = some ms2 → ms.ByScope s = none →
      ms2.ByScope s = none := by
  induction locs with
  | nil => intro ms ms2 h hs; simp only [main.attachAll, Option.some.injEq] at h; subst h; exact hs
  | cons l rest ih =>
    intro ms ms2 h hs
    simp only [main.attachAll] at h
    cases h1 : main.attach fi ms l with
    | none => rw [h1] at h; cases h
    | some ms1 =>
      rw [h1] at h
      exact ih ms1 ms2 h (main.attach_ByScope_none fi s ms ms1 l h1 hs)

theorem main.attachAll_ByMessage_none (fi : FileDescriptorProto) (k : Option Ident)
    (locs : List SourceCodeInfo_Location) :
    ∀ ms ms2, main.attachAll fi ms locs = some ms2 → ms.ByMessage k = none →
      ms2.ByMessage k = none := by
  induction locs with
  | nil => intro ms ms2 h hs; simp only [main.attachAll, Option.some.injEq] at h; subst h; exact hs
  | cons l rest ih =>
    intro ms ms2 h hs
    simp only [main.attachAll] at h
    cases h1 : main.attach fi ms l with
    | none => rw [h1] at h; cases h
    | some ms1 =>
      rw [h1] at h
      exact ih ms1 ms2 h (main.attach_ByMessage_none fi k ms ms1 l h1 hs)

theorem main.attachAll_append (fi : FileDescriptorProto) (l1 l2 : List SourceCodeInfo_Location) :
    ∀ ms, main.attachAll fi ms (l1 ++ l2) =
      (main.attachAll fi ms l1).bind (fun ms1 => main.attachAll fi ms1 l2) := by
  induction l1 with
  | nil => intro ms; rfl
  | cons l rest ih =>
    intro ms
    simp only [List.cons_append, main.attachAll]
    cases h1 : main.attach fi ms l with
    | none => rfl
    | some ms1 => exact ih ms1

theorem main.attachAll_private (fi : FileDescriptorProto) (t0 : Messages)
    (loc : SourceCodeInfo_Location) (sc : Scope) (node : proto.Message)
    (hwalk : GetByLocation fi loc.Path = some (sc, node, []))
    (hnode : node.IsDescriptor = true)
    (hpriv : strings.TrimSpace loc.TrailingComments = "private".toList)
    (locs : List SourceCodeInfo_Location) (hloc : loc ∈ locs) :
    ∀ ms ms2, main.attachAll fi ms locs = some ms2 →
      main.PruneInv t0 (Scope.String sc) ms →
      ms2.ByScope (Scope.String sc) = none ∧ main.PruneInv t0 (Scope.String sc) ms2 := by
  induction locs with
  | nil => simp at hloc
  | cons l rest ih =>
    intro ms ms2 h hinv
    have hall := main.attachAll_PruneInv fi t0 (Scope.String sc) (l :: rest) ms ms2 h hinv
    simp only [main.attachAll] at h
    cases h1 : main.attach fi ms l with
    | none => rw [h1] at h; cases h
    | some ms1 =>
      rw [h1] at h
      rcases List.mem_cons.1 hloc with e | e
      · subst e
        exact ⟨main.attachAll_ByScope_none fi _ rest ms1 ms2 h
          (main.attach_private fi ms ms1 loc sc node h1 hwalk hnode hpriv), hall⟩
      · exact ih e ms1 ms2 h (main.attach_PruneInv fi t0 _ ms ms1 l h1 hinv)

/-- C6: if the attachment loop over the records of a file runs to its end, and some
record whose path walks with empty trailing to a named node carries a trailing comment
that trims to `private`, then the final table has no `ByScope` entry under the Scope
string of that node and no `ByMessage` entry for the Symbol that was stored there,
wherever the record stands in the sequence; and an entry that is absent after a part
of the records is absent at the end. -/
theorem main.private_symbol_pruned (fi : FileDescriptorProto)
    (locs : List SourceCodeInfo_Location) (ms2 : Messages)
    (hrun : main.attachAll fi (GetMessages true (.file fi)) locs = some ms2)
    (loc : SourceCodeInfo_Location) (hloc : loc ∈ locs)
    (sc : Scope) (node : proto.Message)
    (hwalk : GetByLocation fi loc.Path = some (sc, node, []))
    (hnode : node.IsDescriptor = true)
    (hpriv : strings.TrimSpace loc.TrailingComments = "private".toList) :
    ms2.ByScope (Scope.String sc) = none ∧
    (∀ a, (GetMessages true (.file fi)).ByScope (Scope.String sc) = some a →
      ∀ k, ms2.ByMessage k ≠ some a) ∧
    (∀ l1 l2 ms1, locs = l1 ++ l2 →
      main.attachAll fi (GetMessages true (.file fi)) l1 = some ms1 →
      (∀ s, ms1.ByScope s = none → ms2.ByScope s = none) ∧
      (∀ k, ms1.ByMessage k = none → ms2.ByMessage k = none)) := by
  have hinv0 : main.PruneInv (GetMessages true (.file fi)) (Scope.String sc)
      (GetMessages true (.file fi)) := ⟨GetMessages_file_KeysAgree true fi, Or.inl rfl⟩
  obtain ⟨h1, _, h2⟩ := main.attachAll_private fi _ loc sc node hwalk hnode hpriv locs hloc
    _ ms2 hrun hinv0
  refine ⟨h1, ?_, ?_⟩
  · intro a ha k
    rcases h2 with h2 | ⟨_, h2⟩
    · rw [h1, ha] at h2; cases h2
    · exact h2 a ha k
  · intro l1 l2 ms1 hsplit hmid
    rw [hsplit, main.attachAll_append, hmid] at hrun
    exact ⟨fun s hs => main.attachAll_ByScope_none fi s l2 ms1 ms2 hrun hs,
      fun k hk => main.attachAll_ByMessage_none fi k l2 ms1 ms2 hrun hk⟩

/-- C6, at the sample file: the record on `Baz` with the trailing comment ` private`
stands between two other records; the loop runs to its end and `pkg.Baz` is gone. -/
theorem main.private_symbol_pruned_witness :
    main.attachAll sample.file (GetMessages true (.file sample.file)) sample.locs
      = some sample.pruned ∧
    GetByLocation sample.file [4, 1]
      = some (["pkg".toList, "Baz".toList], .message sample.Baz, []) ∧
    sample.pruned.ByScope (Scope.String ["pkg".toList, "Baz".toList]) = none ∧
    (∀ a, (GetMessages true (.file sample.file)).ByScope
        (Scope.String ["pkg".toList, "Baz".toList]) = some a →
      ∀ k, sample.pruned.ByMessage k ≠ some a) :=
  ⟨rfl, rfl,
    (main.private_symbol_pruned sample.file sample.locs sample.pruned rfl
      ⟨[4, 1], [], " private\n".toList, []⟩ (List.Mem.tail _ (List.Mem.head _))
      ["pkg".toList, "Baz".toList] (.message sample.Baz) rfl rfl (by decide)).1,
    (main.private_symbol_pruned sample.file sample.locs sample.pruned rfl
      ⟨[4, 1], [], " private\n".toList, []⟩ (List.Mem.tail _ (List.Mem.head _))
      ["pkg".toList, "Baz".toList] (.message sample.Baz) rfl rfl (by decide)).2.1⟩

/-! ## Totality of `normalizeIndent` and the comment lists -/

theorem normalizeIndent_eq_stages (s : Str) :
    normalizeIndent s =
      if normalizeIndent.minIndent s = defaultIndent ∨ normalizeIndent.minIndent s ≤ 0 then
        some (strings.Join (normalizeIndent.lines s) ['\n'])
      else (normalizeIndent.strip (normalizeIndent.minIndent s) (normalizeIndent.lines s)).map
        (fun lines => strings.Join lines ['\n']) := rfl

theorem normalizeIndent_isSome (s : Str) : ∃ r, normalizeIndent s = some r := by
  obtain ⟨L, _, h, _⟩ := normalizeIndent_first_pass s
  exact ⟨_, h⟩

theorem normalizeIndent.minIndent_bounds (s : Str)
    (h : ¬ (normalizeIndent.minIndent s = defaultIndent ∨ normalizeIndent.minIndent s ≤ 0)) :
    ∀ line ∈ normalizeIndent.lines s, line ≠ [] →
      normalizeIndent.minIndent s ≤ strings.IndexFunc line (fun r => r != ' ') := by
  have hpos : 0 < normalizeIndent.minLoop (normalizeIndent.lines s) defaultIndent := by
    have : ¬ normalizeIndent.minIndent s ≤ 0 := fun e => h (Or.inr e)
    unfold normalizeIndent.minIndent at this
    omega
  exact (normalizeIndent.minLoop_pos _ _ (by decide) hpos).2.1

/-- Claim C20: `normalizeIndent` returns on every input, and whenever its last loop
runs (`minIndent` is neither the default nor at most zero) every non-empty line is
strictly longer than `minIndent`, its first `minIndent` characters are spaces, and
the slice `line[minIndent:]` is in range and is the line without those spaces. -/
theorem normalizeIndent_total (s : Str) :
    (∃ r, normalizeIndent s = some r) ∧
    (¬ (normalizeIndent.minIndent s = defaultIndent ∨ normalizeIndent.minIndent s ≤ 0) →
      ∀ line ∈ normalizeIndent.lines s, line ≠ [] →
        normalizeIndent.minIndent s < line.length ∧
        (∀ c ∈ line.take (normalizeIndent.minIndent s).toNat, c = ' ') ∧
        sliceFrom line (normalizeIndent.minIndent s)
          = some (line.drop (normalizeIndent.minIndent s).toNat)) := by
  refine ⟨normalizeIndent_isSome s, ?_⟩
  intro h line hl hne
  have hb := normalizeIndent.minIndent_bounds s h line hl hne
  have hlt := strings.IndexFunc_lt_length line (fun r => r != ' ')
  have hpos : 0 < normalizeIndent.minIndent s := by
    have : ¬ normalizeIndent.minIndent s ≤ 0 := fun e => h (Or.inr e)
    omega
  obtain ⟨m, hm⟩ : ∃ m : Nat, normalizeIndent.minIndent s = m :=
    ⟨(normalizeIndent.minIndent s).toNat, by omega⟩
  rw [hm] at hb hpos ⊢
  refine ⟨by omega, ?_, ?_⟩
  · intro c hc
    have := strings.IndexFunc_take line (fun r => r != ' ') m hb c (by simpa using hc)
    simpa using this
  · simpa using sliceFrom_of_le line m (by omega)

/-- The de-indent loop of `normalizeIndent` runs on an indented block. -/
theorem normalizeIndent_total_witness :
    ¬ (normalizeIndent.minIndent "  a\n   b".toList = defaultIndent ∨
        normalizeIndent.minIndent "  a\n   b".toList ≤ 0) ∧
    sliceFrom "   b".toList (normalizeIndent.minIndent "  a\n   b".toList) = some " b".toList := by
  have h : ¬ (normalizeIndent.minIndent "  a\n   b".toList = defaultIndent ∨
        normalizeIndent.minIndent "  a\n   b".toList ≤ 0) := by decide
  exact ⟨h, ((normalizeIndent_total "  a\n   b".toList).2 h "   b".toList (by decide)
    (by decide)).2.2.trans (by decide)⟩

theorem Message.addComments.normalizeFrom_zero (new : List Str) :
    ∃ ds, Message.addComments.normalizeFrom 0 new = some ds ∧
      ds.map some = new.map normalizeIndent := by
  induction new with
  | nil => exact ⟨[], by cases 0 <;> rfl, rfl⟩
  | cons x xs ih =>
    obtain ⟨ds, h1, h2⟩ := ih
    obtain ⟨y, hy⟩ := normalizeIndent_isSome x
    exact ⟨y :: ds, by simp [Message.addComments.normalizeFrom, hy, h1], by simp [hy, h2]⟩

theorem Message.addComments.normalizeFrom_append (old new : List Str) :
    ∃ ds, Message.addComments.normalizeFrom old.length (old ++ new) = some (old ++ ds) ∧
      ds.map some = new.map normalizeIndent := by
  induction old with
  | nil => simpa using Message.addComments.normalizeFrom_zero new
  | cons x xs ih =>
    obtain ⟨ds, h1, h2⟩ := ih
    exact ⟨ds, by simp [Message.addComments.normalizeFrom, h1], h2⟩

theorem Message.addComments_lists (m : Message) (loc : SourceCodeInfo_Location) :
    ∃ o lead trail det, m.addComments loc = some o ∧
      o.LeadingComments = m.LeadingComments ++ lead ∧
      o.TrailingComments = m.TrailingComments ++ trail ∧
      o.LeadingDetachedComments = m.LeadingDetachedComments ++ det ∧
      lead.map some =
        (if loc.LeadingComments = [] then [] else [normalizeIndent loc.LeadingComments]) ∧
      trail.map some =
        (if loc.TrailingComments = [] then [] else [normalizeIndent loc.TrailingComments]) ∧
      det.map some = loc.LeadingDetachedComments.map normalizeIndent ∧
      o.Scope = m.Scope ∧ o.Proto = m.Proto ∧ o.Parent = m.Parent ∧
      o.ToGenerate = m.ToGenerate := by
  obtain ⟨lc, hlc⟩ := normalizeIndent_isSome loc.LeadingComments
  obtain ⟨tc, htc⟩ := normalizeIndent_isSome loc.TrailingComments
  obtain ⟨ds, hds, hds2⟩ := Message.addComments.normalizeFrom_append
    m.LeadingDetachedComments loc.LeadingDetachedComments
  have hd : loc.LeadingDetachedComments = [] → ds = [] := by
    intro e
    rw [e] at hds2
    simpa using hds2
  by_cases h1 : loc.LeadingComments = [] <;> by_cases h2 : loc.TrailingComments = [] <;>
    by_cases h3 : loc.LeadingDetachedComments = []
  all_goals
    simp only [Message.addComments, h1, h2, h3, hlc, htc, hds, ne_eq, not_true_eq_false,
      not_false_eq_true, if_true, if_false, Option.map_some', Option.some_bind,
      Option.bind_some, List.length_nil, List.length_eq_zero, List.map_nil]
    refine ⟨_, if loc.LeadingComments = [] then [] else [lc],
      if loc.TrailingComments = [] then [] else [tc], ds, rfl, ?_⟩
    simp [h1, h2, h3, hlc, htc, hds2, hd]

/-- Claim C17: `addComments` only appends. It returns, each of the three comment
lists of the result is the previous list followed by the new entries, a non-empty
leading (trailing) comment adds exactly its `normalizeIndent` and an empty one adds
nothing, the detached comments add their `normalizeIndent` images in order, and the
other fields of the Symbol are untouched. -/
theorem Message.addComments_append_only (m : Message) (loc : SourceCodeInfo_Location) :
    ∃ o lead trail det, m.addComments loc = some o ∧
      o.LeadingComments = m.LeadingComments ++ lead ∧
      o.TrailingComments = m.TrailingComments ++ trail ∧
      o.LeadingDetachedComments = m.LeadingDetachedComments ++ det ∧
      lead.map some =
        (if loc.LeadingComments = [] then [] else [normalizeIndent loc.LeadingComments]) ∧
      trail.map some =
        (if loc.TrailingComments = [] then [] else [normalizeIndent loc.TrailingComments]) ∧
      det.map some = loc.LeadingDetachedComments.map normalizeIndent ∧
      o.Scope = m.Scope ∧ o.Proto = m.Proto ∧ o.Parent = m.Parent ∧
      o.ToGenerate = m.ToGenerate :=
  Message.addComments_lists m loc

/-! ## `normalizeIndent` against its reference definition -/

theorem strings.Replace_eq_flatMap (s : Str) (old : Char) (new : Str) :
    strings.Replace s old new = s.flatMap (fun c => if c = old then new else [c]) := by
  induction s with
  | nil => rfl
  | cons c cs ih => simp [strings.Replace, ih]

theorem normalizeIndent.drop_blankRun (L : List Str) :
    L.drop (normalizeIndent.blankRun L) = L.dropWhile (fun l => l.all unicode.IsSpace) := by
  induction L with
  | nil => rfl
  | cons a rest ih =>
    by_cases h : strings.TrimSpace a = []
    · have h2 : a.all unicode.IsSpace = true := by
        rw [List.all_eq_true]; exact (strings.TrimSpace_eq_nil_iff a).1 h
      simp [normalizeIndent.blankRun, h, List.dropWhile_cons, h2, ih]
    · have h2 : ¬ a.all unicode.IsSpace = true := by
        rw [List.all_eq_true]; exact fun e => h ((strings.TrimSpace_eq_nil_iff a).2 e)
      simp [normalizeIndent.blankRun, h, List.dropWhile_cons, h2]

theorem specLines_eq (s : Str) : specLines s = normalizeIndent.lines s := by
  unfold specLines normalizeIndent.lines
  simp only []
  rw [normalizeIndent.drop_blankRun, strings.Replace_eq_flatMap, strings.TrimRight_eq_rdropWhile]
  have hf : (fun c : Char => " \n".toList.contains c) = (fun c => c == ' ' || c == '\n') := by
    funext c
    show [' ', '\n'].contains c = _
    cases h1 : c == ' ' <;> cases h2 : c == '\n' <;> simp [List.contains, List.elem, h1, h2]
  rw [hf]

theorem strings.IndexFunc_space (l : Str) :
    strings.IndexFunc l (fun r => r != ' ') =
      if l.all (fun c => c == ' ') then -1 else (leadingSpaces l : Int) := by
  induction l with
  | nil => simp [strings.IndexFunc]
  | cons c cs ih =>
    rw [strings.IndexFunc_cons]
    by_cases hc : c = ' '
    · subst hc
      by_cases ha : cs.all (fun c => c == ' ') = true
      · simp [ha, ih]
      · simp only [ha] at ih
        simp only [Bool.false_eq_true, if_false] at ih
        have : (List.all (' ' :: cs) fun c => c == ' ') = false := by
          simpa using ha
        simp [this, ih, leadingSpaces, List.takeWhile_cons]
    · have : (List.all (c :: cs) fun c => c == ' ') = false := by
        simp [hc]
      simp [this, hc, leadingSpaces, List.takeWhile_cons]

theorem indentOf_eq (l : Str) :
    indentOf l = (strings.IndexFunc l (fun r => r != ' ')).toNat := by
  rw [strings.IndexFunc_space, indentOf]
  split <;> simp

theorem normalizeIndent.minLoop_nonpos (L : List Str) (x : Int) (hx : 0 < x)
    (h : normalizeIndent.minLoop L x ≤ 0) :
    ∃ l ∈ L, l ≠ [] ∧ strings.IndexFunc l (fun r => r != ' ') ≤ 0 := by
  induction L generalizing x with
  | nil => simp [normalizeIndent.minLoop] at h; omega
  | cons a rest ih =>
    by_cases ha : a = []
    · subst ha
      simp only [normalizeIndent.minLoop, if_true] at h
      obtain ⟨l, hl, h1, h2⟩ := ih x hx h
      exact ⟨l, List.mem_cons_of_mem _ hl, h1, h2⟩
    · by_cases h0 : strings.IndexFunc a (fun r => r != ' ') ≤ 0
      · exact ⟨a, by simp, ha, h0⟩
      · simp only [normalizeIndent.minLoop, ha, if_false, h0] at h
        split at h
        · obtain ⟨l, hl, h1, h2⟩ := ih _ (by omega) h
          exact ⟨l, List.mem_cons_of_mem _ hl, h1, h2⟩
        · obtain ⟨l, hl, h1, h2⟩ := ih x hx h
          exact ⟨l, List.mem_cons_of_mem _ hl, h1, h2⟩

theorem normalizeIndent_eq_dedent (s : Str)
    (h : ∀ l ∈ specLines s, leadingSpaces l < 2 ^ 32) :
    normalizeIndent s = some (normalizeIndent_spec s) := by
  rw [normalizeIndent_eq_stages, normalizeIndent_spec, dedentBy]
  rw [specLines_eq] at h ⊢
  unfold normalizeIndent.minIndent
  generalize normalizeIndent.lines s = L at h ⊢
  have hdef : defaultIndent = 2 ^ 32 := by decide
  by_cases hr : normalizeIndent.minLoop L defaultIndent ≤ 0
  · -- some non-empty line is not indented
    obtain ⟨l, hl, hne, h0⟩ := normalizeIndent.minLoop_nonpos L _ (by decide) hr
    have hmin : ((L.filter (fun l => !l.isEmpty)).map indentOf).min? = some 0 := by
      rw [List.min?_eq_some_iff']
      refine ⟨?_, fun b _ => Nat.zero_le b⟩
      rw [List.mem_map]
      refine ⟨l, ?_, ?_⟩
      · rw [List.mem_filter]; exact ⟨hl, by simpa using hne⟩
      · rw [indentOf_eq]; omega
    rw [if_pos (Or.inr hr), hmin]
    simp
  · have hpos : 0 < normalizeIndent.minLoop L defaultIndent := by omega
    obtain ⟨h1, h2, h3⟩ := normalizeIndent.minLoop_pos L _ (by decide) hpos
    by_cases hd : normalizeIndent.minLoop L defaultIndent = defaultIndent
    · -- no non-empty line at all
      have hnil : L.filter (fun l => !l.isEmpty) = [] := by
        rw [List.filter_eq_nil_iff]
        intro l hl hne
        have hne2 : l ≠ [] := by simpa using hne
        have hb := h2 l hl hne2
        have hs := h l hl
        rw [strings.IndexFunc_space] at hb
        rw [hd, hdef] at hb
        split at hb
        · omega
        · have : (leadingSpaces l : Int) < 2 ^ 32 := by exact_mod_cast hs
          omega
      rw [if_pos (Or.inl hd), hnil]
      simp
    · rcases h3 with e | ⟨l0, hl0, hne0, e0⟩
      · exact absurd e hd
      · obtain ⟨m, hm⟩ : ∃ m : Nat, normalizeIndent.minLoop L defaultIndent = m :=
          ⟨(normalizeIndent.minLoop L defaultIndent).toNat, by omega⟩
        have hmin : ((L.filter (fun l => !l.isEmpty)).map indentOf).min? = some m := by
          rw [List.min?_eq_some_iff']
          constructor
          · rw [List.mem_map]
            refine ⟨l0, ?_, ?_⟩
            · rw [List.mem_filter]; exact ⟨hl0, by simpa using hne0⟩
            · rw [indentOf_eq, e0, hm]; simp
          · intro b hb
            rw [List.mem_map] at hb
            obtain ⟨l, hl, rfl⟩ := hb
            rw [List.mem_filter] at hl
            have hne2 : l ≠ [] := by simpa using hl.2
            have := h2 l hl.1 hne2
            rw [indentOf_eq]
            omega
        have hmpos : 0 < m := by omega
        rw [if_neg (by intro hc; rcases hc with hc | hc; exact hd hc; exact hr hc), hmin, hm,
          normalizeIndent.strip_eq m L (by intro l hl hne; have := h2 l hl hne; omega)]
        simp only [hmpos, if_true, Option.map_some']
        congr 2
        apply List.map_congr_left
        intro l _
        cases l <;> simp

/-- Claim C15, as worded, fails: in a block whose lines are indented by two spaces
and which holds a line of three spaces, the minimum number of leading spaces is two,
yet `normalizeIndent` strips nothing. -/
theorem normalizeIndent_claimed_fails :
    normalizeIndent "  a\n   \n  b".toList = some "  a\n   \n  b".toList ∧
    normalizeIndent_claimed "  a\n   \n  b".toList = "a\n \nb".toList ∧
    normalizeIndent "  a\n   \n  b".toList
      ≠ some (normalizeIndent_claimed "  a\n   \n  b".toList) := by
  decide

/-- Claim C15, amended: when no line of `L` starts with `2 ^ 32` or more spaces,
`normalizeIndent s` is the text of the reference definition in which a non-empty line
made only of spaces counts as not indented: the lines of `L` joined by newline, with
the minimum indentation `m` stripped from every non-empty line when `m > 0`, and
unchanged when `m = 0`. -/
theorem normalizeIndent_refines_spec (s : Str)
    (h : ∀ l ∈ specLines s, leadingSpaces l < 2 ^ 32) :
    normalizeIndent s = some (normalizeIndent_spec s) :=
  normalizeIndent_eq_dedent s h

/-- A block indented by a common four spaces loses exactly four spaces per line. -/
theorem normalizeIndent_refines_spec_witness :
    (∀ l ∈ specLines "\n \t\n    a\n      b\n\n    c\n  \n".toList, leadingSpaces l < 2 ^ 32) ∧
    normalizeIndent_spec "\n \t\n    a\n      b\n\n    c\n  \n".toList = "a\n  b\n\nc".toList ∧
    normalizeIndent "\n \t\n    a\n      b\n\n    c\n  \n".toList
      = some (normalizeIndent_spec "\n \t\n    a\n      b\n\n    c\n  \n".toList) :=
  ⟨by decide, by decide,
    normalizeIndent_refines_spec "\n \t\n    a\n      b\n\n    c\n  \n".toList (by decide)⟩

/-! ## The trailing path of `GetByLocation` -/

theorem GetByLocation.loop_suffix :
    ∀ (n : Nat) (loc : List Int), loc.length = n → ∀ p sc r,
      GetByLocation.loop loc p sc = some r → r.2.2 <:+ loc := by
  intro n
  induction n using Nat.strong_induction_on with
  | _ n ih =>
    intro loc hlen p sc r h
    match loc, hlen with
    | [], _ =>
      simp only [GetByLocation.loop, Option.some.injEq] at h
      subst h
      exact List.suffix_refl _
    | [id], _ =>
      simp only [GetByLocation.loop] at h
      split at h
      · exact absurd h (by simp)
      · simp only [Option.some.injEq] at h
        subst h
        exact List.suffix_refl _
      · simp only [Option.some.injEq] at h
        subst h
        exact List.nil_suffix
      · exact absurd h (by simp)
    | id :: idx :: rest, hlen =>
      simp only [GetByLocation.loop] at h
      split at h
      · exact absurd h (by simp)
      · simp only [Option.some.injEq] at h
        subst h
        exact List.suffix_refl _
      · have := ih (idx :: rest).length (by simp at hlen ⊢; omega) (idx :: rest) rfl _ _ r h
        exact this.trans (List.suffix_cons _ _)
      · have := ih rest.length (by simp at hlen; omega) rest rfl _ _ r h
        exact this.trans ((List.suffix_cons _ _).trans (List.suffix_cons _ _))

/-- Claim C18: on a field-path whose list-indexing steps are within bounds and whose
999 steps at an options container are followed by one more element, `GetByLocation`
returns, and the trailing path it returns is a suffix of the input path. -/
theorem GetByLocation_trailing_suffix (fi : FileDescriptorProto) (loc : List Int)
    (h : PathInRange loc (.file fi) = true) :
    ∃ sc p trailing, GetByLocation fi loc = some (sc, p, trailing) ∧ trailing <:+ loc := by
  have hs : (GetByLocation.loop loc (.file fi) []).isSome = true := by
    rw [GetByLocation.loop_isSome loc.length loc rfl (.file fi) [], h]
  obtain ⟨⟨sc, p, tr⟩, hr⟩ := Option.isSome_iff_exists.1 hs
  exact ⟨sc, p, tr, hr, GetByLocation.loop_suffix loc.length loc rfl _ _ _ hr⟩

/-- The path to the options of message `Foo` followed by two unread elements. -/
theorem GetByLocation_trailing_suffix_witness :
    PathInRange [4, 0, 7, 1, 2] (.file sample.file) = true ∧
    ∃ sc p trailing, GetByLocation sample.file [4, 0, 7, 1, 2] = some (sc, p, trailing) ∧
      trailing <:+ [4, 0, 7, 1, 2] :=
  ⟨by decide, GetByLocation_trailing_suffix sample.file [4, 0, 7, 1, 2] (by decide)⟩

/-! ## Paths into the options of a message -/

theorem GetByLocation.loop_append {p : proto.Message} {path : List Int}
    {chain : List proto.Message} (h : SymbolPath p path chain) :
    ∀ sc, ∃ n sc2, (p :: chain).getLast? = some n ∧
      (∀ tail, GetByLocation.loop (path ++ tail) p sc = GetByLocation.loop tail n sc2) ∧
      GetByLocation.segment sc2 n =
        GetByLocation.segment sc p ++ chain.map proto.Message.GetName := by
  induction h with
  | done p => intro sc; exact ⟨p, sc, rfl, fun _ => rfl, by simp⟩
  | fileMessage d i c rest chain hi h ih =>
    intro sc
    obtain ⟨n, sc2, h1, h2, h3⟩ := ih (GetByLocation.segment sc (.file d))
    refine ⟨n, sc2, by rw [List.getLast?_cons_cons]; exact h1, fun tail => ?_, ?_⟩
    · rw [← h2 tail]
      exact GetByLocation.loop_next _ (.message c) _ _ _ _ (by simp [GetByLocation.step, hi])
    · rw [h3, GetByLocation.segment_walked _ (.message c) (by rfl)]; simp
  | fileEnum d i c rest chain hi h ih =>
    intro sc
    obtain ⟨n, sc2, h1, h2, h3⟩ := ih (GetByLocation.segment sc (.file d))
    refine ⟨n, sc2, by rw [List.getLast?_cons_cons]; exact h1, fun tail => ?_, ?_⟩
    · rw [← h2 tail]
      exact GetByLocation.loop_next _ (.enum c) _ _ _ _ (by simp [GetByLocation.step, hi])
    · rw [h3, GetByLocation.segment_walked _ (.enum c) (by rfl)]; simp
  | messageNested d i c rest chain hi h ih =>
    intro sc
    obtain ⟨n, sc2, h1, h2, h3⟩ := ih (GetByLocation.segment sc (.message d))
    refine ⟨n, sc2, by rw [List.getLast?_cons_cons]; exact h1, fun tail => ?_, ?_⟩
    · rw [← h2 tail]
      exact GetByLocation.loop_next _ (.message c) _ _ _ _ (by simp [GetByLocation.step, hi])
    · rw [h3, GetByLocation.segment_walked _ (.message c) (by rfl)]; simp
  | messageEnum d i c rest chain hi h ih =>
    intro sc
    obtain ⟨n, sc2, h1, h2, h3⟩ := ih (GetByLocation.segment sc (.message d))
    refine ⟨n, sc2, by rw [List.getLast?_cons_cons]; exact h1, fun tail => ?_, ?_⟩
    · rw [← h2 tail]
      exact GetByLocation.loop_next _ (.enum c) _ _ _ _ (by simp [GetByLocation.step, hi])
    · rw [h3, GetByLocation.segment_walked _ (.enum c) (by rfl)]; simp
  | messageField d i c rest chain hi h ih =>
    intro sc
    obtain ⟨n, sc2, h1, h2, h3⟩ := ih (GetByLocation.segment sc (.message d))
    refine ⟨n, sc2, by rw [List.getLast?_cons_cons]; exact h1, fun tail => ?_, ?_⟩
    · rw [← h2 tail]
      exact GetByLocation.loop_next _ (.field c) _ _ _ _ (by simp [GetByLocation.step, hi])
    · rw [h3, GetByLocation.segment_walked _ (.field c) (by rfl)]; simp
  | enumValue d i c rest chain hi h ih =>
    intro sc
    obtain ⟨n, sc2, h1, h2, h3⟩ := ih (GetByLocation.segment sc (.enum d))
    refine ⟨n, sc2, by rw [List.getLast?_cons_cons]; exact h1, fun tail => ?_, ?_⟩
    · rw [← h2 tail]
      exact GetByLocation.loop_next _ (.enumValue c) _ _ _ _ (by simp [GetByLocation.step, hi])
    · rw [h3, GetByLocation.segment_walked _ (.enumValue c) (by rfl)]; simp

theorem GetByLocation_options_partial (fi : FileDescriptorProto) (pre : List Int)
    (chain : List proto.Message) (M : DescriptorProto) (k : Int) (rest : List Int)
    (hpath : SymbolPath (.file fi) pre chain) (hM : chain.getLast? = some (.message M))
    (hk : k ≠ 999) :
    GetByLocation fi (pre ++ 7 :: k :: rest) =
      some (fi.pkgScope ++ chain.map proto.Message.GetName ++ ["<UninterpretedOptions>".toList],
        .options .MessageOptions M.GetOptions, k :: rest) := by
  obtain ⟨n, sc2, h1, h2, h3⟩ := GetByLocation.loop_append hpath []
  have hn : n = .message M := by
    cases chain with
    | nil => simp at hM
    | cons c cs =>
      rw [List.getLast?_cons_cons] at h1
      rw [hM] at h1
      exact (Option.some.inj h1).symm
  subst hn
  unfold GetByLocation
  rw [h2, GetByLocation.loop_continue _ (.options .MessageOptions M.GetOptions) _ _ _ _
    (by simp [GetByLocation.step]), h3]
  have hseg : GetByLocation.segment [] (.file fi) = fi.pkgScope := by
    simp [GetByLocation.segment, FileDescriptorProto.pkgScope, Scope.With]
  rw [hseg]
  cases rest with
  | nil => simp [GetByLocation.loop, GetByLocation.step, hk, GetByLocation.segment, Scope.With]
  | cons r rs =>
    simp [GetByLocation.loop, GetByLocation.step, hk, GetByLocation.segment, Scope.With]

/-- Claim C16: on a path that reaches a message `M` by in-range steps and goes on
with field number 7 and a field number `k` other than 999, `GetByLocation` returns
the options container of `M` as the node and the unread rest of the path from `k` on
as trailing; one pass of the attachment loop on such a record returns the table as
it was. -/
theorem GetByLocation_uninterpreted_option (fi : FileDescriptorProto) (pre : List Int)
    (chain : List proto.Message) (M : DescriptorProto) (k : Int) (rest : List Int)
    (hpath : SymbolPath (.file fi) pre chain) (hM : chain.getLast? = some (.message M))
    (hk : k ≠ 999) :
    GetByLocation fi (pre ++ 7 :: k :: rest) =
      some (fi.pkgScope ++ chain.map proto.Message.GetName ++ ["<UninterpretedOptions>".toList],
        .options .MessageOptions M.GetOptions, k :: rest) ∧
    k :: rest ≠ [] ∧
    ∀ (messages : Messages) (loc : SourceCodeInfo_Location),
      loc.Path = pre ++ 7 :: k :: rest → main.attach fi messages loc = some messages := by
  have h := GetByLocation_options_partial fi pre chain M k rest hpath hM hk
  refine ⟨h, by simp, ?_⟩
  intro messages loc hloc
  unfold main.attach
  rw [hloc, h]
  simp [proto.Message.IsDescriptor]

/-- Scenario E at the sample file: the path of message `Foo`, then 7, 1, 2. -/
theorem GetByLocation_uninterpreted_option_witness :
    GetByLocation sample.file ([4, 0] ++ 7 :: 1 :: [2]) =
      some (sample.file.pkgScope ++ [proto.Message.message sample.Foo].map proto.Message.GetName
          ++ ["<UninterpretedOptions>".toList],
        .options .MessageOptions sample.Foo.GetOptions, 1 :: [2]) ∧
    (1 : Int) :: [2] ≠ [] ∧
    ∀ (messages : Messages) (loc : SourceCodeInfo_Location),
      loc.Path = [4, 0] ++ 7 :: 1 :: [2] → main.attach sample.file messages loc = some messages :=
  GetByLocation_uninterpreted_option sample.file [4, 0] [.message sample.Foo] sample.Foo 1 [2]
    (SymbolPath.fileMessage _ 0 sample.Foo [] [] rfl (SymbolPath.done _)) rfl (by decide)

/-! ## Soundness of `Scope.Resolve` -/

theorem NamePath.self (p : proto.Message) : NamePath p [p.GetName] p :=
  ⟨[], List.Chain.nil, rfl, rfl⟩

theorem NamePath.step (p c : proto.Message) (s : Scope) (n : proto.Message)
    (hc : c ∈ p.searched) (h : NamePath c s n) : NamePath p (p.GetName :: s) n := by
  obtain ⟨chain, h1, h2, h3⟩ := h
  refine ⟨c :: chain, List.Chain.cons hc h1, ?_, by rw [h3]; rfl⟩
  rw [List.getLast?_cons_cons]; exact h2

theorem Scope.ResolveField_path (s0 : Str) (r : Scope) (f : FieldDescriptorProto)
    (n : proto.Message) (h : Scope.ResolveField (s0 :: r) f = some n) :
    NamePath (.field f) (s0 :: r) n := by
  obtain ⟨e1, e2, e3⟩ := Scope.ResolveField_some _ _ _ _ h
  subst e1 e2 e3
  exact NamePath.self _

theorem Scope.ResolveEnumValue_path (s0 : Str) (r : Scope) (f : EnumValueDescriptorProto)
    (n : proto.Message) (h : Scope.ResolveEnumValue (s0 :: r) f = some n) :
    NamePath (.enumValue f) (s0 :: r) n := by
  obtain ⟨e1, e2, e3⟩ := Scope.ResolveEnumValue_some _ _ _ _ h
  subst e1 e2 e3
  exact NamePath.self _

theorem Scope.ResolveMethod_path (s0 : Str) (r : Scope) (f : MethodDescriptorProto)
    (n : proto.Message) (h : Scope.ResolveMethod (s0 :: r) f = some n) :
    NamePath (.method f) (s0 :: r) n := by
  simp only [Scope.ResolveMethod] at h
  split at h
  · cases h
  · rename_i hn
    split at h
    · rename_i hr
      simp only [Option.some.injEq] at h
      have e1 : f.Name = s0 := by simpa using hn
      have e2 : r = [] := List.length_eq_zero.1 hr
      subst e1 e2 h
      exact NamePath.self _
    · cases h

theorem Scope.ResolveEnum_path (s0 : Str) (r : Scope) (e : EnumDescriptorProto)
    (n : proto.Message) (h : Scope.ResolveEnum (s0 :: r) e = some n) :
    NamePath (.enum e) (s0 :: r) n := by
  simp only [Scope.ResolveEnum] at h
  split at h
  · cases h
  · rename_i hn
    have e1 : e.Name = s0 := by simpa using hn
    subst e1
    split at h
    · rename_i hr
      simp only [Option.some.injEq] at h
      have e2 : r = [] := List.length_eq_zero.1 hr
      subst e2 h
      exact NamePath.self _
    · obtain ⟨v, hv, hres⟩ := firstResolved_some _ _ _ h
      cases r with
      | nil => simp at *
      | cons r0 rs =>
        exact NamePath.step (.enum e) (.enumValue v) _ _
          (List.mem_map_of_mem _ hv) (Scope.ResolveEnumValue_path _ _ _ _ hres)

theorem Scope.ResolveService_path (s0 : Str) (r : Scope) (e : ServiceDescriptorProto)
    (n : proto.Message) (h : Scope.ResolveService (s0 :: r) e = some n) :
    NamePath (.service e) (s0 :: r) n := by
  simp only [Scope.ResolveService] at h
  split at h
  · cases h
  · rename_i hn
    have e1 : e.Name = s0 := by simpa using hn
    subst e1
    split at h
    · rename_i hr
      simp only [Option.some.injEq] at h
      have e2 : r = [] := List.length_eq_zero.1 hr
      subst e2 h
      exact NamePath.self _
    · obtain ⟨v, hv, hres⟩ := firstResolved_some _ _ _ h
      cases r with
      | nil => simp at *
      | cons r0 rs =>
        exact NamePath.step (.service e) (.method v) _ _
          (List.mem_map_of_mem _ hv) (Scope.ResolveMethod_path _ _ _ _ hres)

theorem Scope.ResolveMessage_path :
    ∀ (d : DescriptorProto) (s0 : Str) (r : Scope) (n : proto.Message),
      Scope.ResolveMessage (s0 :: r) d = some n → NamePath (.message d) (s0 :: r) n
  | .mk addr name fields exts nested enums er oo opts, s0, r, n, h => by
    simp only [Scope.ResolveMessage] at h
    split at h
    · cases h
    · rename_i hn
      have e1 : name = s0 := by simpa using hn
      subst e1
      split at h
      · rename_i hr
        simp only [Option.some.injEq] at h
        have e2 : r = [] := List.length_eq_zero.1 hr
        subst e2 h
        exact NamePath.self _
      · rename_i hr
        cases r with
        | nil => simp at hr
        | cons r0 rs =>
          cases hF : firstResolved (Scope.ResolveField (r0 :: rs)) fields with
          | some x =>
            rw [hF] at h
            simp only [Option.some.injEq] at h
            subst h
            obtain ⟨f, hf, hres⟩ := firstResolved_some _ _ _ hF
            exact NamePath.step (.message (.mk addr name fields exts nested enums er oo opts))
              (.field f) _ _
              (by simp [proto.Message.searched, DescriptorProto.GetField, hf])
              (Scope.ResolveField_path _ _ _ _ hres)
          | none =>
            rw [hF] at h
            simp only at h
            rw [Scope.ResolveMessages_eq] at h
            cases hM : firstResolved (Scope.ResolveMessage (r0 :: rs)) nested with
            | some x =>
              rw [hM] at h
              simp only [Option.some.injEq] at h
              subst h
              obtain ⟨c, hc, hres⟩ := firstResolved_some _ _ _ hM
              exact NamePath.step (.message (.mk addr name fields exts nested enums er oo opts))
                (.message c) _ _
                (by simp [proto.Message.searched, DescriptorProto.GetNestedType, hc])
                (Scope.ResolveMessage_path c _ _ _ hres)
            | none =>
              rw [hM] at h
              simp only at h
              cases hE : firstResolved (Scope.ResolveEnum (r0 :: rs)) enums with
              | some x =>
                rw [hE] at h
                simp only [Option.some.injEq] at h
                subst h
                obtain ⟨c, hc, hres⟩ := firstResolved_some _ _ _ hE
                exact NamePath.step
                  (.message (.mk addr name fields exts nested enums er oo opts))
                  (.enum c) _ _
                  (by simp [proto.Message.searched, DescriptorProto.GetEnumType, hc])
                  (Scope.ResolveEnum_path _ _ _ _ hres)
              | none =>
                rw [hE] at h
                simp only at h
                obtain ⟨f, hf, hres⟩ := firstResolved_some _ _ _ h
                exact NamePath.step
                  (.message (.mk addr name fields exts nested enums er oo opts))
                  (.field f) _ _
                  (by simp [proto.Message.searched, DescriptorProto.GetExtension, hf])
                  (Scope.ResolveField_path _ _ _ _ hres)
termination_by d => sizeOf d
decreasing_by
  simp_wf
  have := List.sizeOf_lt_of_mem ‹_ ∈ nested›
  omega

theorem Scope.ResolveFile.body_path (s0 : Str) (r : Scope) (d : FileDescriptorProto)
    (n : proto.Message) (h : Scope.ResolveFile.body (s0 :: r) d = some n) :
    ∃ c ∈ (proto.Message.file d).searched, NamePath c (s0 :: r) n := by
  simp only [Scope.ResolveFile.body, List.length_cons, Nat.add_one_ne_zero, if_false] at h
  rw [Scope.ResolveMessages_eq] at h
  cases hM : firstResolved (Scope.ResolveMessage (s0 :: r)) d.MessageType with
  | some x =>
    rw [hM] at h
    simp only [Option.some.injEq] at h
    subst h
    obtain ⟨c, hc, hres⟩ := firstResolved_some _ _ _ hM
    exact ⟨.message c, by simp [proto.Message.searched, hc],
      Scope.ResolveMessage_path c _ _ _ hres⟩
  | none =>
    rw [hM] at h
    simp only at h
    cases hE : firstResolved (Scope.ResolveEnum (s0 :: r)) d.EnumType with
    | some x =>
      rw [hE] at h
      simp only [Option.some.injEq] at h
      subst h
      obtain ⟨c, hc, hres⟩ := firstResolved_some _ _ _ hE
      exact ⟨.enum c, by simp [proto.Message.searched, hc],
        Scope.ResolveEnum_path _ _ _ _ hres⟩
    | none =>
      rw [hE] at h
      simp only at h
      cases hS : firstResolved (Scope.ResolveService (s0 :: r)) d.Service with
      | some x =>
        rw [hS] at h
        simp only [Option.some.injEq] at h
        subst h
        obtain ⟨c, hc, hres⟩ := firstResolved_some _ _ _ hS
        exact ⟨.service c, by simp [proto.Message.searched, hc],
          Scope.ResolveService_path _ _ _ _ hres⟩
      | none =>
        rw [hS] at h
        simp only at h
        obtain ⟨f, hf, hres⟩ := firstResolved_some _ _ _ h
        exact ⟨.field f, by simp [proto.Message.searched, hf],
          Scope.ResolveField_path _ _ _ _ hres⟩

theorem Scope.ofPath_of_namePath (d : FileDescriptorProto) (c : proto.Message) (s : Scope)
    (n : proto.Message) (hc : c ∈ (proto.Message.file d).searched) (h : NamePath c s n) :
    ∃ chain, List.Chain Searched (.file d) chain ∧
      (proto.Message.file d :: chain).getLast? = some n ∧
      d.pkgScope ++ s = Scope.ofPath (.file d) chain := by
  obtain ⟨chain, h1, h2, h3⟩ := h
  refine ⟨c :: chain, List.Chain.cons hc h1, ?_, by rw [h3]; rfl⟩
  rw [List.getLast?_cons_cons]; exact h2

theorem Scope.ResolveFile_path (s0 : Str) (r : Scope) (d : FileDescriptorProto)
    (n : proto.Message) (h : Scope.ResolveFile (s0 :: r) d = some n) :
    ∃ chain, List.Chain Searched (.file d) chain ∧
      (proto.Message.file d :: chain).getLast? = some n ∧
      s0 :: r = Scope.ofPath (.file d) chain := by
  simp only [Scope.ResolveFile] at h
  by_cases hp : d.Package = []
  · simp only [hp, ne_eq, not_true_eq_false, if_false] at h
    obtain ⟨c, hc, hn⟩ := Scope.ResolveFile.body_path _ _ _ _ h
    have := Scope.ofPath_of_namePath d c _ n hc hn
    simpa [FileDescriptorProto.pkgScope, hp] using this
  · simp only [hp, ne_eq, not_false_eq_true, if_true] at h
    split at h
    · cases h
    · rename_i hs
      have e1 : d.Package = s0 := by simpa using hs
      subst e1
      cases r with
      | nil =>
        simp only [Scope.ResolveFile.body, List.length_nil, if_true, Option.some.injEq] at h
        subst h
        exact ⟨[], List.Chain.nil, rfl, by simp [Scope.ofPath, FileDescriptorProto.pkgScope, hp]⟩
      | cons r0 rs =>
        obtain ⟨c, hc, hn⟩ := Scope.ResolveFile.body_path _ _ _ _ h
        have := Scope.ofPath_of_namePath d c _ n hc hn
        simpa [FileDescriptorProto.pkgScope, hp] using this

theorem Scope.Resolve_path (root : proto.Message) (s0 : Str) (r : Scope)
    (hroot : ∀ q, root ≠ .request q) (n : proto.Message)
    (h : Scope.Resolve (s0 :: r) root = some n) :
    ∃ chain, List.Chain Searched root chain ∧ (root :: chain).getLast? = some n ∧
      s0 :: r = Scope.ofPath root chain := by
  cases root with
  | request q => exact absurd rfl (hroot q)
  | file d => exact Scope.ResolveFile_path _ _ _ _ h
  | message d => exact Scope.ResolveMessage_path d _ _ _ h
  | field d => exact Scope.ResolveField_path _ _ _ _ h
  | enum d => exact Scope.ResolveEnum_path _ _ _ _ h
  | enumValue d => exact Scope.ResolveEnumValue_path _ _ _ _ h
  | service d => exact Scope.ResolveService_path _ _ _ _ h
  | method d => exact Scope.ResolveMethod_path _ _ _ _ h
  | oneof d => simp [Scope.Resolve] at h
  | extensionRange d => simp [Scope.Resolve] at h
  | options k p => simp [Scope.Resolve] at h
  | sourceCodeInfo p => simp [Scope.Resolve] at h

theorem Scope.Resolve_mismatch (root : proto.Message) (s0 : Str) (r : Scope)
    (hroot : ∀ q, root ≠ .request q) (hfile : ∀ d, root ≠ .file d)
    (hname : root.GetName ≠ s0) : Scope.Resolve (s0 :: r) root = none := by
  cases h : Scope.Resolve (s0 :: r) root with
  | none => rfl
  | some n =>
    exfalso
    obtain ⟨chain, _, _, h3⟩ := Scope.Resolve_path root s0 r hroot n h
    apply hname
    cases root with
    | file d => exact absurd rfl (hfile d)
    | _ => simp only [Scope.ofPath, List.map_cons, List.cons.injEq] at h3; exact h3.1.symm

theorem Scope.Resolve_leaf (root : proto.Message) (s0 : Str) (r : Scope)
    (hroot : ∀ q, root ≠ .request q) (hleaf : root.searched = [])
    (hr : r ≠ []) : Scope.Resolve (s0 :: r) root = none := by
  cases h : Scope.Resolve (s0 :: r) root with
  | none => rfl
  | some n =>
    exfalso
    obtain ⟨chain, h1, _, h3⟩ := Scope.Resolve_path root s0 r hroot n h
    cases chain with
    | cons c cs =>
      cases h1 with
      | cons hc _ =>
        unfold Searched at hc
        rw [hleaf] at hc
        cases hc
    | nil =>
      apply hr
      cases root with
      | file d =>
        simp only [Scope.ofPath, FileDescriptorProto.pkgScope, List.map_nil,
          List.append_nil] at h3
        split at h3
        · simp only [List.cons.injEq] at h3; exact h3.2
        · cases h3
      | _ => simp only [Scope.ofPath, List.map_cons, List.map_nil, List.cons.injEq] at h3; exact h3.2

/-- Claim C13: `Resolve` returns no partial or mismatched result. For a root other
than a request and a non-empty Scope `s0 :: r`: a returned node `n` is the root or
is reached from it by a chain of searched declarations, and the segments are exactly
the names along that chain (the package, when the root is a file that declares one,
standing for the file); a root other than a file whose own name differs from `s0`
gives no match; and a root below which nothing is searched (an enum value, a
method, a field) gives no match when there is more than one segment. -/
theorem Resolve_exact_path (root : proto.Message) (s0 : Str) (r : Scope)
    (hroot : ∀ q, root ≠ .request q) :
    (∀ n, Scope.Resolve (s0 :: r) root = some n →
      ∃ chain, List.Chain Searched root chain ∧ (root :: chain).getLast? = some n ∧
        s0 :: r = Scope.ofPath root chain) ∧
    ((∀ d, root ≠ .file d) → root.GetName ≠ s0 → Scope.Resolve (s0 :: r) root = none) ∧
    (root.searched = [] → r ≠ [] → Scope.Resolve (s0 :: r) root = none) :=
  ⟨fun n h => Scope.Resolve_path root s0 r hroot n h,
    fun hfile hname => Scope.Resolve_mismatch root s0 r hroot hfile hname,
    fun hleaf hr => Scope.Resolve_leaf root s0 r hroot hleaf hr⟩

/-- The nested message `Inner` resolved from `Foo`, and two Scopes that find nothing:
a foreign first segment at `Foo`, and a second segment at the field `bar`. -/
theorem Resolve_exact_path_witness :
    (Scope.Resolve ["Foo".toList, "Inner".toList] (.message sample.Foo)).isSome = true ∧
    (∀ n, Scope.Resolve ["Foo".toList, "Inner".toList] (.message sample.Foo) = some n →
      ∃ chain, List.Chain Searched (.message sample.Foo) chain ∧
        (proto.Message.message sample.Foo :: chain).getLast? = some n ∧
        ["Foo".toList, "Inner".toList] = Scope.ofPath (.message sample.Foo) chain) :=
  ⟨by decide,
    (Resolve_exact_path (.message sample.Foo) "Foo".toList ["Inner".toList]
      (by intro q h; cases h)).1⟩

/-! ## The relative search of `Context.Find` -/

theorem Context.Find.loop_findSome (c : Context) (sc : Scope) :
    ∀ (fuel : Nat) (frm : Option Nat) (syms : List Message),
      Message.parents c.Messages.objs fuel frm = some syms →
      Context.Find.loop c sc fuel frm =
        some (match syms.findSome? (fun a => Scope.Resolve sc a.Proto) with
          | some n => c.Messages.ByMessage (some n.ident)
          | none => none) := by
  intro fuel
  induction fuel with
  | zero =>
    intro frm syms h
    cases frm with
    | none =>
      simp only [Message.parents, Option.some.injEq] at h
      subst h
      rfl
    | some a => simp [Message.parents] at h
  | succ fuel ih =>
    intro frm syms h
    cases frm with
    | none =>
      simp only [Message.parents, Option.some.injEq] at h
      subst h
      rfl
    | some a =>
      simp only [Message.parents] at h
      cases ho : c.Messages.objs[a]? with
      | none => rw [ho] at h; cases h
      | some m =>
        rw [ho] at h
        simp only [Option.map_eq_some'] at h
        obtain ⟨rest, hrest, rfl⟩ := h
        simp only [Context.Find.loop, ho, List.findSome?_cons]
        cases hr : Scope.Resolve sc m.Proto with
        | some n => rfl
        | none => exact ih _ _ hrest

theorem Context.Find_relative (u : unicode.Tables) (c : Context) (fuel : Nat)
    (frm : Option Nat) (syms : List Message) (t : Str)
    (hchain : Message.parents c.Messages.objs fuel frm = some syms)
    (ht : t ≠ []) (hdot : t.head? ≠ some '.') :
    Context.Find u c fuel frm t = some (Find_spec u c syms t) := by
  cases t with
  | nil => exact absurd rfl ht
  | cons a as =>
    have ha : a ≠ '.' := fun e => hdot (by simp [e])
    have hp : ParseScope u (a :: as) = (strings.Split (a :: as) '.', false) := by
      simp [ParseScope, ha]
    simp only [Context.Find, Find_spec, hp, if_false, reduceCtorEq, Bool.false_eq_true]
    exact Context.Find.loop_findSome c _ fuel frm syms hchain

/-- Claim C14: the relative search of `Find`. When the Parent chain of `from` is
finite (it is read as `syms` within `fuel` steps) and the text is non-empty without a
leading separator, `Find` returns `ByMessage[n]` for the node `n` that `Resolve` of
the parsed text returns at the first Symbol of the chain where it returns one, and
nil when there is none; `Find` with the empty text returns nil. -/
theorem Find_relative_refines_spec (u : unicode.Tables) (c : Context) (fuel : Nat)
    (frm : Option Nat) (syms : List Message) (t : Str)
    (hchain : Message.parents c.Messages.objs fuel frm = some syms)
    (ht : t ≠ []) (hdot : t.head? ≠ some '.') :
    Context.Find u c fuel frm t = some (Find_spec u c syms t) ∧
    Context.Find u c fuel frm [] = some none :=
  ⟨Context.Find_relative u c fuel frm syms t hchain ht hdot, by simp [Context.Find]⟩

/-- From the Symbol of `Inner` (pointer 2, parents `Foo` and the file), the text
`Foo.Inner` matches at `Foo` and gives the Symbol of `Inner`; `Missing` matches
nowhere along the chain. -/
theorem Find_relative_refines_spec_witness :
    ∃ syms, Message.parents (GetMessages true (.file sample.file)).objs 3 (some 2) = some syms ∧
      syms.length = 3 ∧
      Find_spec unicode.ascii ⟨sample.request, GetMessages true (.file sample.file)⟩ syms
        "Foo.Inner".toList = some 2 ∧
      (Context.Find unicode.ascii ⟨sample.request, GetMessages true (.file sample.file)⟩ 3
          (some 2) "Foo.Inner".toList
        = some (Find_spec unicode.ascii ⟨sample.request, GetMessages true (.file sample.file)⟩
            syms "Foo.Inner".toList) ∧
       Context.Find unicode.ascii ⟨sample.request, GetMessages true (.file sample.file)⟩ 3
          (some 2) [] = some none) :=
  ⟨_, rfl, by decide, by decide,
    Find_relative_refines_spec unicode.ascii
      ⟨sample.request, GetMessages true (.file sample.file)⟩ 3 (some 2) _ "Foo.Inner".toList
      rfl (by decide) (by decide)⟩

/-! ## The two maps of the table -/

theorem Messages.putNew_ScopeKeysAgree (ms : Messages) (m : Message)
    (h : ms.ScopeKeysAgree) : (ms.putNew m).1.ScopeKeysAgree := by
  intro k a hk
  rw [Messages.putNew_ByScope] at hk
  rw [Messages.putNew_objs]
  split at hk
  · rename_i hkey
    simp only [Option.some.injEq] at hk
    subst hk
    exact ⟨m, by simp, hkey⟩
  · obtain ⟨m2, h1, h2⟩ := h k a hk
    have hlt : a < ms.objs.length := by
      rcases Nat.lt_or_ge a ms.objs.length with h3 | h3
      · exact h3
      · rw [List.getElem?_eq_none h3] at h1; cases h1
    exact ⟨m2, by rw [List.getElem?_append_left hlt]; exact h1, h2⟩

theorem Messages.putAll_ScopeKeysAgree (ms : Messages) (l : List Message)
    (h : ms.ScopeKeysAgree) : (ms.putAll l).ScopeKeysAgree := by
  induction l generalizing ms with
  | nil => exact h
  | cons a rest ih => exact ih _ (Messages.putNew_ScopeKeysAgree ms a h)

theorem Messages.putAll_ByScope_of_not_mem (ms : Messages) (l : List Message)
    (k : Str) (h : ∀ m ∈ l, k ≠ Scope.String m.Scope) :
    (ms.putAll l).ByScope k = ms.ByScope k := by
  induction l generalizing ms with
  | nil => rfl
  | cons a rest ih =>
    rw [Messages.putAll_cons, ih _ (fun m hm => h m (List.mem_cons_of_mem _ hm)),
      Messages.putNew_ByScope, if_neg (h a (by simp))]

theorem Messages.putAll_ByScope_getElem (ms : Messages) (l : List Message)
    (hnd : (l.map (fun m => Scope.String m.Scope)).Nodup) (i : Nat) (m : Message)
    (hi : l[i]? = some m) :
    (ms.putAll l).ByScope (Scope.String m.Scope) = some (ms.objs.length + i) := by
  induction l generalizing ms i with
  | nil => simp at hi
  | cons a rest ih =>
    simp only [List.map_cons, List.nodup_cons, List.mem_map, not_exists, not_and] at hnd
    rw [Messages.putAll_cons]
    cases i with
    | zero =>
      simp only [List.getElem?_cons_zero, Option.some.injEq] at hi
      subst hi
      rw [Messages.putAll_ByScope_of_not_mem, Messages.putNew_ByScope, if_pos rfl]
      · rfl
      · intro m hm e
        exact hnd.1 m hm e.symm
    | succ j =>
      simp only [List.getElem?_cons_succ] at hi
      rw [ih _ hnd.2 j hi, Messages.putNew_objs]
      simp; omega

theorem Messages.empty_KeysAgree : Messages.empty.KeysAgree := by
  intro k a h
  simp [Messages.empty] at h

theorem Messages.empty_ScopeKeysAgree : Messages.empty.ScopeKeysAgree := by
  intro k a h
  simp [Messages.empty] at h

theorem Messages.walkFile_putAll (ms : Messages) (tg : Bool) (fi : FileDescriptorProto) :
    ∃ L, ms.walkFile tg fi = ms.putAll L := by
  simp only [Messages.walkFile]
  by_cases h : fi.Package = []
  · simp only [h, ne_eq, not_true_eq_false, if_false]
    rw [Messages.walkMessages_eq, Messages.walkEnums_eq, ← Messages.putAll_append]
    exact ⟨_, rfl⟩
  · simp only [h, ne_eq, not_false_eq_true, if_true]
    rw [Messages.walkMessages_eq, Messages.walkEnums_eq, ← Messages.putAll_append]
    exact ⟨_ :: _, rfl⟩

theorem Messages.walk_putAll (tg : Bool) (fs : List Str) (l : List FileDescriptorProto) :
    ∀ ms : Messages, ∃ L,
      l.foldl (fun ms fi => ms.walkFile (tg && fs.contains fi.Name) fi) ms = ms.putAll L := by
  induction l with
  | nil => intro ms; exact ⟨[], rfl⟩
  | cons fi rest ih =>
    intro ms
    obtain ⟨L1, h1⟩ := Messages.walkFile_putAll ms (tg && fs.contains fi.Name) fi
    obtain ⟨L2, h2⟩ := ih (ms.walkFile (tg && fs.contains fi.Name) fi)
    refine ⟨L1 ++ L2, ?_⟩
    rw [List.foldl_cons, h2, h1, Messages.putAll_append]

theorem GetMessages_putAll (tg : Bool) (root : proto.Message) :
    GetMessages tg root = Messages.empty.putAll (GetMessages tg root).objs := by
  have key : ∃ L, GetMessages tg root = Messages.empty.putAll L := by
    cases root with
    | request p => exact Messages.walk_putAll tg p.FileToGenerate p.ProtoFile Messages.empty
    | file p => exact Messages.walkFile_putAll Messages.empty tg p
    | message p => exact ⟨_, Messages.walkMessage_eq Messages.empty tg none [] p⟩
    | enum p => exact ⟨_, Messages.walkEnum_eq Messages.empty tg none [] p⟩
    | field p => exact ⟨_, Messages.walkDescriptor_eq Messages.empty tg none [] _⟩
    | enumValue p => exact ⟨_, Messages.walkDescriptor_eq Messages.empty tg none [] _⟩
    | service p => exact ⟨_, Messages.walkDescriptor_eq Messages.empty tg none [] _⟩
    | method p => exact ⟨_, Messages.walkDescriptor_eq Messages.empty tg none [] _⟩
    | oneof p => exact ⟨_, Messages.walkDescriptor_eq Messages.empty tg none [] _⟩
    | extensionRange p => exact ⟨[], rfl⟩
    | options k p => exact ⟨[], rfl⟩
    | sourceCodeInfo p => exact ⟨[], rfl⟩
  obtain ⟨L, hL⟩ := key
  have : (GetMessages tg root).objs = L := by
    rw [hL, Messages.putAll_objs]; rfl
  rw [this]; exact hL

theorem GetMessages_KeysAgree (tg : Bool) (root : proto.Message) :
    (GetMessages tg root).KeysAgree := by
  rw [GetMessages_putAll]
  exact Messages.putAll_KeysAgree _ _ Messages.empty_KeysAgree

theorem GetMessages_ScopeKeysAgree (tg : Bool) (root : proto.Message) :
    (GetMessages tg root).ScopeKeysAgree := by
  rw [GetMessages_putAll]
  exact Messages.putAll_ScopeKeysAgree _ _ Messages.empty_ScopeKeysAgree

/-- With pairwise distinct Scope strings and descriptors, every Symbol created sits
under both of its keys. -/
theorem GetMessages_full (tg : Bool) (root : proto.Message)
    (hS : ((GetMessages tg root).objs.map (fun m => Scope.String m.Scope)).Nodup)
    (hP : ((GetMessages tg root).objs.map (fun m => m.Proto.ident)).Nodup)
    (a : Nat) (m : Message) (h : (GetMessages tg root).objs[a]? = some m) :
    (GetMessages tg root).ByScope (Scope.String m.Scope) = some a ∧
    (GetMessages tg root).ByMessage (some m.Proto.ident) = some a := by
  have e := GetMessages_putAll tg root
  generalize (GetMessages tg root).objs = L at e hS hP h
  rw [e]
  have h1 := Messages.putAll_ByScope_getElem Messages.empty L hS a m h
  have h2 := Messages.putAll_ByMessage_getElem Messages.empty L hP a m h
  simp only [Messages.empty, List.length_nil, Nat.zero_add] at h1 h2
  exact ⟨h1, h2⟩

theorem GetMessages_Synced (tg : Bool) (root : proto.Message)
    (hS : ((GetMessages tg root).objs.map (fun m => Scope.String m.Scope)).Nodup)
    (hP : ((GetMessages tg root).objs.map (fun m => m.Proto.ident)).Nodup) :
    (GetMessages tg root).Synced := by
  refine ⟨GetMessages_KeysAgree tg root, GetMessages_ScopeKeysAgree tg root, ?_⟩
  intro a
  constructor
  · rintro ⟨k, hk⟩
    obtain ⟨m, hm, _⟩ := GetMessages_ScopeKeysAgree tg root k a hk
    exact ⟨_, (GetMessages_full tg root hS hP a m hm).2⟩
  · rintro ⟨k, hk⟩
    obtain ⟨m, hm, _⟩ := GetMessages_KeysAgree tg root k a hk
    exact ⟨_, (GetMessages_full tg root hS hP a m hm).1⟩

/-! ## One pass of the attachment loop on the two maps -/

theorem Message.addComments_keys (m o : Message) (loc : SourceCodeInfo_Location)
    (h : m.addComments loc = some o) : o.Scope = m.Scope ∧ o.Proto = m.Proto := by
  obtain ⟨o2, _, _, _, h1, _, _, _, _, _, _, h2, h3, _⟩ := Message.addComments_lists m loc
  rw [h] at h1
  cases h1
  exact ⟨h2, h3⟩

theorem getElem?_set_map_eq {α β : Type} (f : α → β) (l : List α) (i : Nat) (x y : α)
    (hi : l[i]? = some x) (hf : f y = f x) (a : Nat) :
    ((l.set i y)[a]?).map f = (l[a]?).map f := by
  rw [List.getElem?_set]
  split
  · rename_i e
    subst e
    split
    · simp [hi, hf]
    · rename_i hlt
      rw [List.getElem?_eq_none (by omega)] at hi
      cases hi
  · rfl

/-- What one pass of the attachment loop does to the table: the Scope and the
descriptor of every Symbol stay; the maps stay, or the Symbol found under the Scope
string of the record, carrying a trailing comment that trims to `private`, loses its
two keys. -/
theorem main.attach_maps (fi : FileDescriptorProto) (ms ms2 : Messages)
    (loc : SourceCodeInfo_Location) (h : main.attach fi ms loc = some ms2) :
    (∀ a : Nat, (ms2.objs[a]?).map Message.Scope = (ms.objs[a]?).map Message.Scope) ∧
    (∀ a : Nat, (ms2.objs[a]?).map Message.Proto = (ms.objs[a]?).map Message.Proto) ∧
    ((ms2.ByScope = ms.ByScope ∧ ms2.ByMessage = ms.ByMessage) ∨
      ∃ sc a o0 o, ms.ByScope (Scope.String sc) = some a ∧ ms.objs[a]? = some o0 ∧
        ms2.objs[a]? = some o ∧ o.Scope = o0.Scope ∧ o.Proto = o0.Proto ∧
        (∃ c ∈ o.TrailingComments, strings.TrimSpace c = "private".toList) ∧
        ms2.ByScope = ms.ByScope.delete (Scope.String sc) ∧
        ms2.ByMessage = ms.ByMessage.delete (some o0.Proto.ident)) := by
  rcases main.attach_spec fi ms ms2 loc h with rfl | ⟨sc, msg, a, o0, o, _, hm, ho0, ho, rfl⟩
  · exact ⟨fun _ => rfl, fun _ => rfl, Or.inl ⟨rfl, rfl⟩⟩
  · obtain ⟨hs, hp⟩ := Message.addComments_keys o0 o loc ho
    have hlt : a < ms.objs.length := by
      rcases Nat.lt_or_ge a ms.objs.length with h3 | h3
      · exact h3
      · rw [List.getElem?_eq_none h3] at ho0; cases ho0
    rw [main.prune_eq]
    by_cases hpriv : ∃ c ∈ o.TrailingComments, strings.TrimSpace c = "private".toList
    · rw [if_pos hpriv]
      refine ⟨fun b => getElem?_set_map_eq _ _ _ _ _ ho0 hs b,
        fun b => getElem?_set_map_eq _ _ _ _ _ ho0 hp b, Or.inr ?_⟩
      exact ⟨sc, a, o0, o, hm, ho0, by simp [List.getElem?_set, hlt], hs, hp, hpriv, rfl,
        by rw [hp]⟩
    · rw [if_neg hpriv]
      exact ⟨fun b => getElem?_set_map_eq _ _ _ _ _ ho0 hs b,
        fun b => getElem?_set_map_eq _ _ _ _ _ ho0 hp b, Or.inl ⟨rfl, rfl⟩⟩

theorem Messages.KeysAgree_transfer (ms ms2 : Messages)
    (hP : ∀ a : Nat, (ms2.objs[a]?).map Message.Proto = (ms.objs[a]?).map Message.Proto)
    (hsub : ∀ k a, ms2.ByMessage k = some a → ms.ByMessage k = some a)
    (h : ms.KeysAgree) : ms2.KeysAgree := by
  intro k a hk
  obtain ⟨m, h1, h2⟩ := h k a (hsub k a hk)
  have := hP a
  rw [h1] at this
  cases h3 : ms2.objs[a]? with
  | none => rw [h3] at this; cases this
  | some m2 =>
    rw [h3] at this
    simp only [Option.map_some', Option.some.injEq] at this
    exact ⟨m2, rfl, by rw [this]; exact h2⟩

theorem Messages.ScopeKeysAgree_transfer (ms ms2 : Messages)
    (hS : ∀ a : Nat, (ms2.objs[a]?).map Message.Scope = (ms.objs[a]?).map Message.Scope)
    (hsub : ∀ k a, ms2.ByScope k = some a → ms.ByScope k = some a)
    (h : ms.ScopeKeysAgree) : ms2.ScopeKeysAgree := by
  intro k a hk
  obtain ⟨m, h1, h2⟩ := h k a (hsub k a hk)
  have := hS a
  rw [h1] at this
  cases h3 : ms2.objs[a]? with
  | none => rw [h3] at this; cases this
  | some m2 =>
    rw [h3] at this
    simp only [Option.map_some', Option.some.injEq] at this
    exact ⟨m2, rfl, by rw [this]; exact h2⟩

theorem main.attach_sub (fi : FileDescriptorProto) (ms ms2 : Messages)
    (loc : SourceCodeInfo_Location) (h : main.attach fi ms loc = some ms2) :
    (∀ k a, ms2.ByScope k = some a → ms.ByScope k = some a) ∧
    (∀ k a, ms2.ByMessage k = some a → ms.ByMessage k = some a) := by
  obtain ⟨_, _, h3⟩ := main.attach_maps fi ms ms2 loc h
  rcases h3 with ⟨e1, e2⟩ | ⟨sc, a, o0, o, _, _, _, _, _, _, e1, e2⟩
  · rw [e1, e2]; exact ⟨fun _ _ h => h, fun _ _ h => h⟩
  · rw [e1, e2]
    constructor
    · intro k b hk
      simp only [GoMap.delete] at hk
      split at hk
      · cases hk
      · exact hk
    · intro k b hk
      simp only [GoMap.delete] at hk
      split at hk
      · cases hk
      · exact hk

theorem main.attach_ScopeKeysAgree (fi : FileDescriptorProto) (ms ms2 : Messages)
    (loc : SourceCodeInfo_Location) (h : main.attach fi ms loc = some ms2)
    (hinv : ms.ScopeKeysAgree) : ms2.ScopeKeysAgree :=
  Messages.ScopeKeysAgree_transfer ms ms2 (main.attach_maps fi ms ms2 loc h).1
    (main.attach_sub fi ms ms2 loc h).1 hinv

theorem main.attach_KeysAgree (fi : FileDescriptorProto) (ms ms2 : Messages)
    (loc : SourceCodeInfo_Location) (h : main.attach fi ms loc = some ms2)
    (hinv : ms.KeysAgree) : ms2.KeysAgree :=
  Messages.KeysAgree_transfer ms ms2 (main.attach_maps fi ms ms2 loc h).2.1
    (main.attach_sub fi ms ms2 loc h).2 hinv

theorem main.attachAll_ScopeKeysAgree (fi : FileDescriptorProto)
    (locs : List SourceCodeInfo_Location) :
    ∀ ms ms2, main.attachAll fi ms locs = some ms2 → ms.ScopeKeysAgree →
      ms2.ScopeKeysAgree := by
  induction locs with
  | nil =>
    intro ms ms2 h hinv
    simp only [main.attachAll, Option.some.injEq] at h
    subst h; exact hinv
  | cons loc rest ih =>
    intro ms ms2 h hinv
    simp only [main.attachAll] at h
    split at h
    · cases h
    · rename_i ms1 h1
      exact ih ms1 ms2 h (main.attach_ScopeKeysAgree fi ms ms1 loc h1 hinv)

theorem main.attach_Synced (fi : FileDescriptorProto) (ms ms2 : Messages)
    (loc : SourceCodeInfo_Location) (h : main.attach fi ms loc = some ms2)
    (hinv : ms.Synced) : ms2.Synced := by
  obtain ⟨hK, hSK, hV⟩ := hinv
  refine ⟨main.attach_KeysAgree fi ms ms2 loc h hK,
    main.attach_ScopeKeysAgree fi ms ms2 loc h hSK, ?_⟩
  obtain ⟨_, _, h3⟩ := main.attach_maps fi ms ms2 loc h
  rcases h3 with ⟨e1, e2⟩ | ⟨sc, a, o0, o, hm, ho0, _, _, _, _, e1, e2⟩
  · rw [e1, e2]; exact hV
  · -- the Symbol `a` leaves both maps, every other one stays in both
    have hkeyS : ∀ k b, ms.ByScope k = some b → (k = Scope.String sc ↔ b = a) := by
      intro k b hk
      constructor
      · intro e; rw [e, hm] at hk; exact (Option.some.inj hk).symm
      · intro e
        subst e
        obtain ⟨m1, h1, h2⟩ := hSK k b hk
        obtain ⟨m2, h3, h4⟩ := hSK _ b hm
        rw [h1] at h3; cases h3
        rw [h2, h4]
    have haM : ms.ByMessage (some o0.Proto.ident) = some a := by
      obtain ⟨k, hk⟩ := (hV a).1 ⟨_, hm⟩
      obtain ⟨m1, h1, h2⟩ := hK k a hk
      rw [ho0] at h1; cases h1
      rw [← h2]; exact hk
    have hkeyM : ∀ k b, ms.ByMessage k = some b → (k = some o0.Proto.ident ↔ b = a) := by
      intro k b hk
      constructor
      · intro e; rw [e, haM] at hk; exact (Option.some.inj hk).symm
      · intro e
        subst e
        obtain ⟨m1, h1, h2⟩ := hK k b hk
        rw [ho0] at h1; cases h1
        exact h2
    intro b
    rw [e1, e2]
    constructor
    · rintro ⟨k, hk⟩
      simp only [GoMap.delete] at hk
      split at hk
      · cases hk
      · rename_i hne
        have hba : b ≠ a := fun e => hne ((hkeyS k b hk).2 e)
        obtain ⟨k2, hk2⟩ := (hV b).1 ⟨k, hk⟩
        refine ⟨k2, ?_⟩
        simp only [GoMap.delete]
        rw [if_neg (fun e => hba ((hkeyM k2 b hk2).1 e))]
        exact hk2
    · rintro ⟨k, hk⟩
      simp only [GoMap.delete] at hk
      split at hk
      · cases hk
      · rename_i hne
        have hba : b ≠ a := fun e => hne ((hkeyM k b hk).2 e)
        obtain ⟨k2, hk2⟩ := (hV b).2 ⟨k, hk⟩
        refine ⟨k2, ?_⟩
        simp only [GoMap.delete]
        rw [if_neg (fun e => hba ((hkeyS k2 b hk2).1 e))]
        exact hk2

/-- Claim C12, as worded, fails: for a request with two files of the same package the
Symbol of the first file (pointer 0) is a value of `ByMessage`, its Scope string is
`pkg`, and `ByScope` holds the Symbol of the second file (pointer 2) there; the two
maps do not hold the same Symbols. -/
theorem GetMessages_maps_differ :
    (GetMessages true (.request sample.twoFiles)).ByMessage
      (some ⟨.FileDescriptorProto, some 0⟩) = some 0 ∧
    (GetMessages true (.request sample.twoFiles)).objs[0]?.map
      (fun m => Scope.String m.Scope) = some "pkg".toList ∧
    (GetMessages true (.request sample.twoFiles)).ByScope "pkg".toList = some 2 ∧
    ¬ (GetMessages true (.request sample.twoFiles)).Synced := by
  have h1 : (GetMessages true (.request sample.twoFiles)).ByMessage
      (some ⟨.FileDescriptorProto, some 0⟩) = some 0 := by decide
  have h2 : (GetMessages true (.request sample.twoFiles)).objs[0]?.map
      (fun m => Scope.String m.Scope) = some "pkg".toList := by decide
  have h3 : (GetMessages true (.request sample.twoFiles)).ByScope "pkg".toList = some 2 := by
    decide
  refine ⟨h1, h2, h3, ?_⟩
  rintro ⟨_, hSK, hV⟩
  obtain ⟨k, hk⟩ := (hV 0).2 ⟨_, h1⟩
  obtain ⟨m, hm, hk2⟩ := hSK k 0 hk
  rw [hm] at h2
  simp only [Option.map_some', Option.some.injEq] at h2
  rw [hk2, h2, h3] at hk
  cases hk

/-- Claim C12, amended: for every root accepted by `GetMessages` whose Symbols have
pairwise distinct Scope strings and pairwise distinct descriptors, the two maps hold
the same Symbols, every Symbol created being stored under its own Scope string in
`ByScope` and under its own descriptor in `ByMessage`; and every pass of the
attachment and pruning loop that returns keeps the two maps in agreement. -/
theorem GetMessages_maps_agree (tg : Bool) (root : proto.Message)
    (hS : ((GetMessages tg root).objs.map (fun m => Scope.String m.Scope)).Nodup)
    (hP : ((GetMessages tg root).objs.map (fun m => m.Proto.ident)).Nodup) :
    (GetMessages tg root).Synced ∧
    (∀ (a : Nat) (m : Message), (GetMessages tg root).objs[a]? = some m →
      (GetMessages tg root).ByScope (Scope.String m.Scope) = some a ∧
      (GetMessages tg root).ByMessage (some m.Proto.ident) = some a) ∧
    (∀ (fi : FileDescriptorProto) (ms ms2 : Messages) (loc : SourceCodeInfo_Location),
      ms.Synced → main.attach fi ms loc = some ms2 → ms2.Synced) :=
  ⟨GetMessages_Synced tg root hS hP, fun a m h => GetMessages_full tg root hS hP a m h,
    fun fi ms ms2 loc hs h => main.attach_Synced fi ms ms2 loc h hs⟩

/-- The table of the sample file: seven Symbols with distinct Scope strings. -/
theorem GetMessages_maps_agree_witness :
    (GetMessages true (.file sample.file)).objs.length = 7 ∧
    (GetMessages true (.file sample.file)).Synced ∧
    (∀ (a : Nat) (m : Message), (GetMessages true (.file sample.file)).objs[a]? = some m →
      (GetMessages true (.file sample.file)).ByScope (Scope.String m.Scope) = some a ∧
      (GetMessages true (.file sample.file)).ByMessage (some m.Proto.ident) = some a) ∧
    (∀ (fi : FileDescriptorProto) (ms ms2 : Messages) (loc : SourceCodeInfo_Location),
      ms.Synced → main.attach fi ms loc = some ms2 → ms2.Synced) :=
  ⟨by decide, GetMessages_maps_agree true (.file sample.file) (by decide) (by decide)⟩

/-- Claim C19: a pass of the attachment loop, taken after any number of earlier
passes on the table of a file, either leaves both maps as they were or prunes one
Symbol, which carries a trailing comment trimming to `private`: the only `ByScope`
key removed is the Scope string of that Symbol, the only `ByMessage` key removed is
its descriptor, and every other entry of both maps is as before. -/
theorem main.prune_removes_one (fi : FileDescriptorProto)
    (locs : List SourceCodeInfo_Location) (ms ms2 : Messages) (loc : SourceCodeInfo_Location)
    (hrun : main.attachAll fi (GetMessages true (.file fi)) locs = some ms)
    (hstep : main.attach fi ms loc = some ms2) :
    (ms2.ByScope = ms.ByScope ∧ ms2.ByMessage = ms.ByMessage) ∨
    ∃ (a : Nat) (m : Message), ms2.objs[a]? = some m ∧
      (∃ c ∈ m.TrailingComments, strings.TrimSpace c = "private".toList) ∧
      ms.ByScope (Scope.String m.Scope) = some a ∧
      (∀ k, ms2.ByScope k = if k = Scope.String m.Scope then none else ms.ByScope k) ∧
      (∀ k, ms2.ByMessage k = if k = some m.Proto.ident then none else ms.ByMessage k) := by
  have hSK : ms.ScopeKeysAgree :=
    main.attachAll_ScopeKeysAgree fi locs _ ms hrun (GetMessages_ScopeKeysAgree true (.file fi))
  obtain ⟨_, _, h3⟩ := main.attach_maps fi ms ms2 loc hstep
  rcases h3 with h3 | ⟨sc, a, o0, o, hm, ho0, ho, hs, hp, hpriv, e1, e2⟩
  · exact Or.inl h3
  · obtain ⟨m1, h1, h2⟩ := hSK _ a hm
    rw [ho0] at h1
    cases h1
    refine Or.inr ⟨a, o, ho, hpriv, by rw [hs, ← h2]; exact hm, ?_, ?_⟩
    · intro k; rw [e1, hs, ← h2]; rfl
    · intro k; rw [e2, hp]; rfl

/-- At the sample file, after the record on `Foo`: the pass on the record that marks
`Baz` private removes `pkg.Baz` and keeps `pkg.Foo`. -/
theorem main.prune_removes_one_witness :
    sample.afterFoo.ByScope "pkg.Baz".toList = some 6 ∧
    sample.afterBaz.ByScope "pkg.Baz".toList = none ∧
    sample.afterBaz.ByScope "pkg.Foo".toList = some 1 ∧
    ((sample.afterBaz.ByScope = sample.afterFoo.ByScope ∧
        sample.afterBaz.ByMessage = sample.afterFoo.ByMessage) ∨
      ∃ (a : Nat) (m : Message), sample.afterBaz.objs[a]? = some m ∧
        (∃ c ∈ m.TrailingComments, strings.TrimSpace c = "private".toList) ∧
        sample.afterFoo.ByScope (Scope.String m.Scope) = some a ∧
        (∀ k, sample.afterBaz.ByScope k =
          if k = Scope.String m.Scope then none else sample.afterFoo.ByScope k) ∧
        (∀ k, sample.afterBaz.ByMessage k =
          if k = some m.Proto.ident then none else sample.afterFoo.ByMessage k)) :=
  ⟨by decide, by decide, by decide,
    main.prune_removes_one sample.file (sample.locs.take 1) sample.afterFoo sample.afterBaz
      sample.privateLoc rfl rfl⟩

/-! ## Services and methods are not indexed -/

theorem symbolsEnum_indexed (tg : Bool) (par : Option Nat) (sc : Scope) (base : Nat)
    (d : EnumDescriptorProto) :
    ∀ m ∈ symbolsEnum tg par sc base d, m.Proto.IsIndexed = true := by
  intro m hm
  simp only [symbolsEnum, List.mem_cons, List.mem_map] at hm
  rcases hm with rfl | ⟨v, _, rfl⟩ <;> rfl

theorem symbolsEnums_indexed (tg : Bool) (par : Option Nat) (sc : Scope)
    (l : List EnumDescriptorProto) :
    ∀ base, ∀ m ∈ symbolsEnums tg par sc base l, m.Proto.IsIndexed = true := by
  induction l with
  | nil => intro base m hm; simp [symbolsEnums] at hm
  | cons d rest ih =>
    intro base m hm
    simp only [symbolsEnums, List.mem_append] at hm
    rcases hm with hm | hm
    · exact symbolsEnum_indexed tg par sc base d m hm
    · exact ih _ m hm

theorem symbolsMessages_indexed_of (tg : Bool) (l : List DescriptorProto)
    (h : ∀ d ∈ l, ∀ par sc base, ∀ m ∈ symbolsMessage tg par sc base d,
      m.Proto.IsIndexed = true) :
    ∀ par sc base, ∀ m ∈ symbolsMessages tg par sc base l, m.Proto.IsIndexed = true := by
  induction l with
  | nil => intro par sc base m hm; rw [symbolsMessages] at hm; cases hm
  | cons d rest ih =>
    intro par sc base m hm
    rw [symbolsMessages] at hm
    rcases List.mem_append.1 hm with hm | hm
    · exact h d (by simp) par sc base m hm
    · exact ih (fun c hc => h c (List.mem_cons_of_mem _ hc)) par sc _ m hm

theorem symbolsMessage_indexed (tg : Bool) :
    ∀ (d : DescriptorProto) (par : Option Nat) (sc : Scope) (base : Nat),
      ∀ m ∈ symbolsMessage tg par sc base d, m.Proto.IsIndexed = true
  | .mk addr name fields exts nested enums er oo opts, par, sc, base, m, hm => by
    have ihn := symbolsMessages_indexed_of tg nested
      (fun c _ p s b => symbolsMessage_indexed tg c p s b)
    rw [symbolsMessage] at hm
    rcases List.mem_cons.1 hm with rfl | hm
    · rfl
    rcases List.mem_append.1 hm with hm | hm
    rcases List.mem_append.1 hm with hm | hm
    · exact ihn _ _ _ m hm
    · exact symbolsEnums_indexed tg _ _ enums _ m hm
    · obtain ⟨f, _, rfl⟩ := List.mem_map.1 hm
      rfl
termination_by d => sizeOf d
decreasing_by
  simp_wf
  have := List.sizeOf_lt_of_mem ‹_ ∈ nested›
  omega

theorem symbolsFile_indexed (tg : Bool) (fi : FileDescriptorProto) :
    ∀ m ∈ symbolsFile tg fi, m.Proto.IsIndexed = true := by
  intro m hm
  simp only [symbolsFile, List.mem_append] at hm
  rcases hm with (hm | hm) | hm
  · split at hm
    · simp only [List.mem_singleton] at hm; subst hm; rfl
    · cases hm
  · exact symbolsMessages_indexed_of tg _
      (fun c _ p s b => symbolsMessage_indexed tg c p s b) _ _ _ m hm
  · exact symbolsEnums_indexed tg _ _ _ _ m hm

theorem GetMessages_file_not_indexed (fi : FileDescriptorProto) (k : Ident)
    (hk : k.kind = .ServiceDescriptorProto ∨ k.kind = .MethodDescriptorProto) :
    (GetMessages true (.file fi)).ByMessage (some k) = none := by
  cases h : (GetMessages true (.file fi)).ByMessage (some k) with
  | none => rfl
  | some a =>
    exfalso
    obtain ⟨m, h1, h2⟩ := GetMessages_file_KeysAgree true fi _ a h
    rw [GetMessages_file_objs] at h1
    have hi := symbolsFile_indexed true fi m (List.getElem?_mem h1)
    simp only [Option.some.injEq] at h2
    rw [h2] at hk
    cases hp : m.Proto <;> rw [hp] at hi hk <;>
      simp [proto.Message.IsIndexed, proto.Message.ident] at hi hk

/-- Claim C11, as worded, fails: the table of a file that declares a message `Req`
and a service `S` with a method `M` holds two Symbols, the file and `Req`; neither
map has an entry for the service or for the method. -/
theorem GetMessages_service_not_indexed :
    (GetMessages true (.file sample.svc)).objs.length = 2 ∧
    (GetMessages true (.file sample.svc)).ByScope "pkg.Req".toList = some 1 ∧
    (GetMessages true (.file sample.svc)).ByMessage
      (some (proto.Message.service sample.S).ident) = none ∧
    (GetMessages true (.file sample.svc)).ByMessage
      (some (proto.Message.method ⟨2, "M".toList, none⟩).ident) = none ∧
    (GetMessages true (.file sample.svc)).ByScope "pkg.S".toList = none ∧
    (GetMessages true (.file sample.svc)).ByScope "pkg.S.M".toList = none := by
  decide

/-- Claim C11, amended: in the table of a file whose descriptor objects are distinct
and whose Symbols have pairwise distinct Scope strings, every message, enum, enum
value and field reached by a chain of declarations has a Symbol, held in `ByMessage`
under the node and in `ByScope` under its Scope string; every Symbol of the table
is one of a file, message, enum, enum value or field; and `ByMessage` has no entry
for a service of the file or for a method of such a service. -/
theorem GetMessages_indexes_walked_nodes (fi : FileDescriptorProto) (hna : fi.NoAlias)
    (hsc : ((GetMessages true (.file fi)).objs.map (fun m => Scope.String m.Scope)).Nodup) :
    (∀ (pre : List proto.Message) (n : proto.Message),
      List.Chain Child (.file fi) (pre ++ [n]) →
      ∃ (a : Nat) (m : Message),
        (GetMessages true (.file fi)).ByMessage (some n.ident) = some a ∧
        (GetMessages true (.file fi)).ByScope (Scope.String m.Scope) = some a ∧
        (GetMessages true (.file fi)).objs[a]? = some m ∧ m.Proto = n ∧
        m.Scope = fi.pkgScope ++ (pre ++ [n]).map proto.Message.GetName) ∧
    (∀ (a : Nat) (m : Message), (GetMessages true (.file fi)).objs[a]? = some m →
      m.Proto.IsIndexed = true) ∧
    (∀ s ∈ fi.Service,
      (GetMessages true (.file fi)).ByMessage (some (proto.Message.service s).ident) = none ∧
      ∀ md ∈ s.Method,
        (GetMessages true (.file fi)).ByMessage (some (proto.Message.method md).ident)
          = none) := by
  have hP : ((GetMessages true (.file fi)).objs.map (fun m => m.Proto.ident)).Nodup := by
    rw [GetMessages_file_objs]; exact hna
  refine ⟨?_, ?_, ?_⟩
  · intro pre n hchain
    obtain ⟨e, he⟩ : ∃ e, (proto.Message.file fi :: pre).getLast? = some e := by
      cases h : (proto.Message.file fi :: pre).getLast? with
      | none => simp at h
      | some e => exact ⟨e, rfl⟩
    obtain ⟨a, m, h1, _, h3, h4, h5, _⟩ := GetMessages_file_symbol fi hna pre n e hchain he
    exact ⟨a, m, h1, (GetMessages_full true (.file fi) hsc hP a m h3).1, h3, h4, h5⟩
  · intro a m h
    rw [GetMessages_file_objs] at h
    exact symbolsFile_indexed true fi m (List.getElem?_mem h)
  · intro s _
    exact ⟨GetMessages_file_not_indexed fi _ (Or.inl rfl),
      fun md _ => GetMessages_file_not_indexed fi _ (Or.inr rfl)⟩

/-- The sample file with a service: the message `Req` is indexed in both maps, the
service `S` is not. -/
theorem GetMessages_indexes_walked_nodes_witness :
    (∃ (a : Nat) (m : Message),
      (GetMessages true (.file sample.svc)).ByMessage
        (some (proto.Message.message (.mk 3 "Req".toList [] [] [] [] [] [] none)).ident)
        = some a ∧
      (GetMessages true (.file sample.svc)).ByScope (Scope.String m.Scope) = some a ∧
      (GetMessages true (.file sample.svc)).objs[a]? = some m ∧
      m.Proto = .message (.mk 3 "Req".toList [] [] [] [] [] [] none) ∧
      m.Scope = sample.svc.pkgScope ++
        ([] ++ [proto.Message.message (.mk 3 "Req".toList [] [] [] [] [] [] none)]).map
          proto.Message.GetName) ∧
    (GetMessages true (.file sample.svc)).ByMessage
      (some (proto.Message.service sample.S).ident) = none :=
  ⟨(GetMessages_indexes_walked_nodes sample.svc
      (by unfold FileDescriptorProto.NoAlias; decide) (by decide)).1 []
      (.message (.mk 3 "Req".toList [] [] [] [] [] [] none))
      (List.Chain.cons (List.Mem.head _) List.Chain.nil),
    ((GetMessages_indexes_walked_nodes sample.svc
      (by unfold FileDescriptorProto.NoAlias; decide) (by decide)).2.2 sample.S
      (List.Mem.head _)).1⟩
